import Mathlib

/-!
Verification of the hats/hipscat pixel-tree alignment engine and the region
validators, as implemented in `src/hipscat/pixel_tree/pixel_alignment.py` and
`src/hats/pixel_math/validators.py`.

Modelling conventions:
* Pixel intervals are half-open pairs `(start, stop)` of naturals; the source
  stores them as rows of int64 numpy arrays.  All in-range quantities are
  non-negative and far below `2^63`, so natural-number arithmetic is exact.
* The source's sentinel "absent" pixel `NONE_PIX = [-1, -1]` is modelled as
  `Option.none` (the value `-1` is never used arithmetically by the source:
  it is only stored in mapping rows and later replaced by `None` in
  `get_pixel_mapping_df`).
* `int64` bit tricks are modelled exactly: `x & -x` in two's complement (for
  `0 ≤ x < 2^63`) is `x &&& (2^64 - x)` on naturals.
* `np.int64(np.log2 m)` (for integer `m ≥ 1`) is modelled as the exact floor
  base-2 logarithm `Nat.log2 m`.
* The source loops that may fail to terminate are modelled with an explicit
  fuel parameter: `none` means the loop did not finish within `fuel` rounds.
  The merge scans of `perform_align_trees` / `perform_inner_align_trees`
  advance a cursor at every round, so they are modelled by structural
  recursion on the interval lists; only the gap-filling `_add_pixels_until`
  loop consumes fuel.
-/

namespace Hats

/-- A half-open pixel interval `[fst, snd)` at a fixed reference HEALPix order. -/
abbrev Iv : Type := ℕ × ℕ

/-- One row of the pixel mapping built by the alignment kernels: the left,
right and aligned pixel intervals.  The source represents a row as the
concatenation `[left_interval, right_interval, aligned_interval]` with
`NONE_PIX = [-1, -1]` for an absent side; absent sides are modelled as `none`. -/
structure MapRow where
  lpix : Option Iv
  rpix : Option Iv
  apix : Iv
deriving DecidableEq, Repr

/-- The bit mask `0xAAAAAAAAAAAAAAA` from `_add_pixels_until` (bits at the odd
positions 1, 3, ..., 59). -/
def mask4 : ℕ := 0xAAAAAAAAAAAAAAA

/-- `add_from & -add_from` on int64 (two's complement), i.e. the lowest set bit
of `n`, computed on naturals for `0 ≤ n < 2^63`; `lowBit 0 = 0` exactly as in
the source. -/
def lowBit (n : ℕ) : ℕ := n &&& (2 ^ 64 - n)

/-- The interval row appended for a pixel present on one side only
(`np.concatenate((pix, NONE_PIX, pix))` or `np.concatenate((NONE_PIX, pix, pix))`). -/
def verbatimRow (p : Iv) (isLeftPixel : Bool) : MapRow :=
  if isLeftPixel then ⟨some p, none, p⟩ else ⟨none, some p, p⟩

/-- The "maximum power of 4 that is a factor of add_from" computation of
`_add_pixels_until`: `max_p4_from = add_from & -add_from`, halved when the
mask `0xAAAAAAAAAAAAAAA` flags its bit as sitting at an odd position. -/
def maxP4FromOf (addFrom : ℕ) : ℕ :=
  if lowBit addFrom &&& mask4 ≠ 0 then lowBit addFrom / 2 else lowBit addFrom

/-- The "maximum power of 4 less than or equal to (add_to - add_from)"
computation of `_add_pixels_until`: `1 << (l - (l & 1))` with
`l = np.int64(np.log2(add_to - add_from))`, IDEALIZED here with the exact
floor logarithm `Nat.log2` (`l & 1 = l % 2`).  The source's float64 `log2`
rounds up to exactly `k` for `rem` just below `2 ^ k` once `k ≥ 49`, so this
idealization is only trace-faithful where every `rem` is small or an exact
power of two (as in every concrete trace below that uses it); `maxP4ToOfF`
further down receives the truncated float logarithm as a parameter and
carries the faithful theorems. -/
def maxP4ToOf (rem : ℕ) : ℕ :=
  2 ^ (Nat.log2 rem - Nat.log2 rem % 2)

/-- `pixel_size = min(max_p4_to, max_p4_from)` in `_add_pixels_until`. -/
def pixelSize (addFrom addTo : ℕ) : ℕ :=
  min (maxP4ToOf (addTo - addFrom)) (maxP4FromOf addFrom)

/-- `_add_pixels_until(add_from, add_to, matching_pix, is_left_pixel, mapping)`
from `pixel_alignment.py`.  The source mutates a shared `mapping` list; here
the rows appended by this call are returned (in order), and `none` means the
`while add_from < add_to` loop did not finish within `fuel` iterations. -/
def addPixelsUntil : ℕ → ℕ → ℕ → Iv → Bool → Option (List MapRow)
  | 0, addFrom, addTo, _, _ => if addFrom < addTo then none else some []
  | fuel + 1, addFrom, addTo, matchingPix, isLeftPixel =>
    if addFrom < addTo then
      let ps := pixelSize addFrom addTo
      let row : MapRow :=
        if isLeftPixel then ⟨some matchingPix, none, (addFrom, addFrom + ps)⟩
        else ⟨none, some matchingPix, (addFrom, addFrom + ps)⟩
      Option.map (fun rest => row :: rest)
        (addPixelsUntil fuel (addFrom + ps) addTo matchingPix isLeftPixel)
    else some []

/-- `_add_remaining_pixels(added_until, pixel_list, index, is_left_pixel, mapping)`:
the part of the pixel list from the caller's index onward is received as
`pixelList`.  The first pixel is gap-filled from `addedUntil` when partially
covered, skipped when fully covered, and the rest is appended verbatim. -/
def addRemainingPixels (fuel addedUntil : ℕ) (pixelList : List Iv) (isLeftPixel : Bool) :
    Option (List MapRow) :=
  match pixelList with
  | [] => some []
  | pix :: rest =>
    let gapRows : Option (List MapRow) :=
      if pix.1 < addedUntil ∧ addedUntil < pix.2 then
        addPixelsUntil fuel addedUntil pix.2 pix isLeftPixel
      else some []
    let tail : List Iv :=
      if (pix.1 < addedUntil ∧ addedUntil < pix.2) ∨ pix.2 ≤ addedUntil then rest
      else pix :: rest
    Option.map (fun rows => rows ++ tail.map (fun p => verbatimRow p isLeftPixel)) gapRows

/-- `perform_inner_align_trees(left, right)`: the inner merge scan.  Every
round either emits a row or advances a cursor past a non-overlapping pixel;
no gap filling happens, so it is total. -/
def performInnerAlignTrees : List Iv → List Iv → List MapRow
  | leftPix :: ls, rightPix :: rs =>
    if leftPix.1 ≥ rightPix.2 then
      -- left pix ahead of right, no overlap, so move right on
      performInnerAlignTrees (leftPix :: ls) rs
    else if rightPix.1 ≥ leftPix.2 then
      -- right pix ahead of left, no overlap, so move left on
      performInnerAlignTrees ls (rightPix :: rs)
    else if leftPix.2 - leftPix.1 = rightPix.2 - rightPix.1 then
      -- overlapping & same size => same pixel so add and move both on
      ⟨some leftPix, some rightPix, leftPix⟩ :: performInnerAlignTrees ls rs
    else if leftPix.2 - leftPix.1 < rightPix.2 - rightPix.1 then
      -- overlapping and left smaller so add left and move left on
      ⟨some leftPix, some rightPix, leftPix⟩ :: performInnerAlignTrees ls (rightPix :: rs)
    else
      -- overlapping and right smaller so add right and move right on
      ⟨some leftPix, some rightPix, rightPix⟩ :: performInnerAlignTrees (leftPix :: ls) rs
  | _, _ => []
termination_by l r => l.length + r.length
decreasing_by
  all_goals simp only [List.length_cons]
  all_goals omega

/-- `perform_align_trees(left, right, include_all_left, include_all_right)`:
the merge scan with gap filling, with the `added_until` watermark made an
explicit argument (the source initialises it to 0).  The rows appended to the
source's shared `mapping` list are returned in order; `none` propagates a
gap-fill loop that ran out of fuel. -/
def performAlignTrees (fuel : ℕ) :
    List Iv → List Iv → Bool → Bool → ℕ → Option (List MapRow)
  | leftPix :: ls, rightPix :: rs, includeAllLeft, includeAllRight, addedUntil =>
    if leftPix.1 ≥ rightPix.2 then
      -- left pix ahead of right, no overlap, so move right on
      if includeAllRight then
        if addedUntil ≤ rightPix.1 then
          Option.map (fun rest => ⟨none, some rightPix, rightPix⟩ :: rest)
            (performAlignTrees fuel (leftPix :: ls) rs includeAllLeft includeAllRight rightPix.2)
        else if addedUntil < rightPix.2 then
          match addPixelsUntil fuel addedUntil rightPix.2 rightPix false with
          | none => none
          | some gap =>
            Option.map (fun rest => gap ++ rest)
              (performAlignTrees fuel (leftPix :: ls) rs includeAllLeft includeAllRight rightPix.2)
        else
          performAlignTrees fuel (leftPix :: ls) rs includeAllLeft includeAllRight addedUntil
      else
        performAlignTrees fuel (leftPix :: ls) rs includeAllLeft includeAllRight addedUntil
    else if rightPix.1 ≥ leftPix.2 then
      -- right pix ahead of left, no overlap, so move left on
      if includeAllLeft then
        if addedUntil ≤ leftPix.1 then
          Option.map (fun rest => ⟨some leftPix, none, leftPix⟩ :: rest)
            (performAlignTrees fuel ls (rightPix :: rs) includeAllLeft includeAllRight leftPix.2)
        else if addedUntil < leftPix.2 then
          match addPixelsUntil fuel addedUntil leftPix.2 leftPix true with
          | none => none
          | some gap =>
            Option.map (fun rest => gap ++ rest)
              (performAlignTrees fuel ls (rightPix :: rs) includeAllLeft includeAllRight leftPix.2)
        else
          performAlignTrees fuel ls (rightPix :: rs) includeAllLeft includeAllRight addedUntil
      else
        performAlignTrees fuel ls (rightPix :: rs) includeAllLeft includeAllRight addedUntil
    else if leftPix.2 - leftPix.1 = rightPix.2 - rightPix.1 then
      -- overlapping & same size => same pixel so add and move both on
      Option.map (fun rest => ⟨some leftPix, some rightPix, leftPix⟩ :: rest)
        (performAlignTrees fuel ls rs includeAllLeft includeAllRight leftPix.2)
    else if leftPix.2 - leftPix.1 < rightPix.2 - rightPix.1 then
      -- overlapping and left smaller so add left and move left on
      match
        (if includeAllRight ∧ rightPix.1 < leftPix.1 ∧ addedUntil < leftPix.1 then
          addPixelsUntil fuel (max addedUntil rightPix.1) leftPix.1 rightPix false
        else some []) with
      | none => none
      | some gap =>
        Option.map (fun rest => gap ++ ⟨some leftPix, some rightPix, leftPix⟩ :: rest)
          (performAlignTrees fuel ls (rightPix :: rs) includeAllLeft includeAllRight leftPix.2)
    else
      -- overlapping and right smaller so add right and move right on
      match
        (if includeAllLeft ∧ leftPix.1 < rightPix.1 ∧ addedUntil < rightPix.1 then
          addPixelsUntil fuel (max addedUntil leftPix.1) rightPix.1 leftPix true
        else some []) with
      | none => none
      | some gap =>
        Option.map (fun rest => gap ++ ⟨some leftPix, some rightPix, rightPix⟩ :: rest)
          (performAlignTrees fuel (leftPix :: ls) rs includeAllLeft includeAllRight rightPix.2)
  | l, r, includeAllLeft, includeAllRight, addedUntil =>
    -- loop exit: cover the remaining pixels of a side whose cursor has not
    -- reached the end, right side first exactly as in the source
    match
      (if includeAllRight ∧ r ≠ [] then addRemainingPixels fuel addedUntil r false
      else some []) with
    | none => none
    | some m1 =>
      Option.map (fun m2 => m1 ++ m2)
        (if includeAllLeft ∧ l ≠ [] then addRemainingPixels fuel addedUntil l true
        else some [])
termination_by l r _ _ _ => l.length + r.length
decreasing_by
  all_goals simp only [List.length_cons]
  all_goals omega

/-- The four combination modes (`PixelAlignmentType`). -/
inductive PixelAlignmentType : Type
  | inner
  | left
  | right
  | outer
deriving DecidableEq, Repr

/-- Modelled from the spec: the `PixelTree` class (its module is not under
`src/`).  Per the spec's data model it owns a reference order and an ordered
sequence of half-open intervals at that order; `pixel_alignment.py` accesses
exactly these two attributes (`tree`, `tree_order`). -/
structure PixelTree where
  tree : List Iv
  treeOrder : ℕ
deriving DecidableEq, Repr

/-- The interval shift `tree << (2 * k)` used by `align_trees` to bring a tree
to a higher reference order: a left shift by `2 * k` bits multiplies both
endpoints by `4 ^ k`. -/
def shiftTree (t : List Iv) (k : ℕ) : List Iv :=
  t.map (fun p => (p.1 * 4 ^ k, p.2 * 4 ^ k))

/-- `align_trees(left, right, alignment_type)`: shifts both trees to the common
order `max_n`, dispatches on the mode, and returns the aligned tree (columns
4:6 of the mapping) together with the mapping rows.  `none` propagates a
non-terminating gap fill. -/
def alignTrees (fuel : ℕ) (left right : PixelTree) (alignmentType : PixelAlignmentType) :
    Option (List Iv × List MapRow) :=
  let maxN := max left.treeOrder right.treeOrder
  let leftAligned := shiftTree left.tree (maxN - left.treeOrder)
  let rightAligned := shiftTree right.tree (maxN - right.treeOrder)
  if alignmentType = PixelAlignmentType.inner then
    let mapping := performInnerAlignTrees leftAligned rightAligned
    some (mapping.map (fun row => row.apix), mapping)
  else
    let includeAllLeft : Bool :=
      alignmentType = PixelAlignmentType.left ∨ alignmentType = PixelAlignmentType.outer
    let includeAllRight : Bool :=
      alignmentType = PixelAlignmentType.right ∨ alignmentType = PixelAlignmentType.outer
    Option.map (fun mapping => (mapping.map (fun row => row.apix), mapping))
      (performAlignTrees fuel leftAligned rightAligned includeAllLeft includeAllRight 0)

/-- Modelled from the spec: `get_pixels_from_intervals` (its module is not
under `src/`).  Per the spec's canonical representation, a tile `(order, index)`
at reference order `D` is the interval `[index * 4 ^ (D - order),
(index + 1) * 4 ^ (D - order))`; inverting, an interval of length `4 ^ k`
starting at `s` is the tile `(D - k, s / 4 ^ k)`. -/
def pixelOfInterval (mapOrder : ℕ) (iv : Iv) : ℕ × ℕ :=
  (mapOrder - Nat.log 4 (iv.2 - iv.1), iv.1 / (iv.2 - iv.1))

/-- A length is an exact power of 4 (decidably stated). -/
def IsP4 (n : ℕ) : Prop := 0 < n ∧ n = 4 ^ Nat.log 4 n

instance (n : ℕ) : Decidable (IsP4 n) := by unfold IsP4; infer_instance

/-- A well-formed pixel interval: non-empty, power-of-4 length, start aligned
to its length (so it denotes exactly one tile at some order). -/
def IvOK (iv : Iv) : Prop :=
  iv.1 < iv.2 ∧ IsP4 (iv.2 - iv.1) ∧ (iv.2 - iv.1) ∣ iv.1

instance (iv : Iv) : Decidable (IvOK iv) := by unfold IvOK; infer_instance

/-- A well-formed interval list bounded by `bound`: sorted, pairwise disjoint
(each interval ends no later than the next begins) and every interval
well-formed and contained in `[0, bound)`. -/
def WFIvs (bound : ℕ) (l : List Iv) : Prop :=
  List.Chain' (fun a b => a.2 ≤ b.1) l ∧ ∀ iv ∈ l, IvOK iv ∧ iv.2 ≤ bound

instance (bound : ℕ) (l : List Iv) : Decidable (WFIvs bound l) := by
  unfold WFIvs; infer_instance

/-- The number of pixels (interval positions) at order `d`: `12 * 4 ^ d`. -/
def npix (d : ℕ) : ℕ := 12 * 4 ^ d

/-- A well-formed pixel tree per the spec's data model: intervals sorted,
disjoint, power-of-4 aligned, within `[0, 12 * 4 ^ order)`, and the order
within the supported tessellation depth (the spec fixes depth ≤ 29). -/
def WellFormedTree (t : PixelTree) : Prop :=
  t.treeOrder ≤ 29 ∧ WFIvs (npix t.treeOrder) t.tree

instance (t : PixelTree) : Decidable (WellFormedTree t) := by
  unfold WellFormedTree; infer_instance

/-- The set of base-level indices covered by a list of intervals. -/
def cov (l : List Iv) : Set ℕ := {x | ∃ iv ∈ l, iv.1 ≤ x ∧ x < iv.2}

/-- The sky area that a run of `perform_align_trees` is required to cover:
the left tree's area when `include_all_left`, joined with the right tree's
area when `include_all_right`. -/
def SU (incL incR : Bool) (l r : List Iv) : Set ℕ :=
  (if incL then cov l else ∅) ∪ (if incR then cov r else ∅)

/-- The invariants of a pixel-tree interval list claimed for the aligned tree:
sorted ascending, pairwise disjoint, every interval a power-of-4 aligned tile. -/
def TreeInvariant (l : List Iv) : Prop :=
  List.Chain' (fun a b => a.2 ≤ b.1) l ∧ ∀ iv ∈ l, IvOK iv

instance (l : List Iv) : Decidable (TreeInvariant l) := by
  unfold TreeInvariant; infer_instance

/-- The tie-break rule for a mapping row: when both sides are present the
aligned interval is the strictly smaller of the two, and both of them when
they are identical. -/
def RowTieBreak (row : MapRow) : Prop :=
  match row.lpix, row.rpix with
  | some li, some ri =>
    if li.2 - li.1 < ri.2 - ri.1 then row.apix = li
    else if ri.2 - ri.1 < li.2 - li.1 then row.apix = ri
    else if li = ri then row.apix = li ∧ row.apix = ri
    else True
  | _, _ => True

instance : (row : MapRow) → Decidable (RowTieBreak row)
  | ⟨none, _, _⟩ => Decidable.isTrue trivial
  | ⟨some _, none, _⟩ => Decidable.isTrue trivial
  | ⟨some li, some ri, a⟩ => by unfold RowTieBreak; dsimp only; infer_instance

/-- Both sides of a mapping row are present (no "absent" sentinel). -/
def BothPresent (row : MapRow) : Prop := row.lpix.isSome ∧ row.rpix.isSome

instance (row : MapRow) : Decidable (BothPresent row) := by
  unfold BothPresent; infer_instance

/-- The maximality property the spec claims for every gap-fill interval:
its length is at least every power of 4 that divides its start and fits
before `b` (together with `IvOK` this says the length is the largest such
power of 4). -/
def MaxFillIv (b : ℕ) (iv : Iv) : Prop :=
  ∀ j, 4 ^ j ∣ iv.1 → iv.1 + 4 ^ j ≤ b → 4 ^ j ≤ iv.2 - iv.1

/-- The error catalogue of `hats.pixel_math.validators.ValidatorsErrors`, plus
`externalError` standing for exceptions raised by numpy/python before any
validator message is produced (`np.array` of a ragged list raises its own
`ValueError`, `.shape[1]` of a 1-dimensional array raises `IndexError`);
those are distinct from every `ValidatorsErrors` message. -/
inductive VErr : Type
  | invalidDec
  | invalidRadius
  | invalidNumVertices
  | duplicateVertices
  | degeneratePolygon
  | invalidRadecRange
  | invalidCoordsShape
  | invalidConcaveShape
  | externalError
deriving DecidableEq, Repr

/-- `validate_declination_values(dec)`: all values must lie in [-90, 90].
Float degree values are modelled as rationals; the source performs only
order comparisons on them, so the modelling is exact. -/
def validate_declination_values (dec : List ℚ) : Option VErr :=
  if dec.all (fun x => decide (-90 ≤ x) && decide (x ≤ 90)) then none
  else some VErr.invalidDec

/-- The `ra` half of `validate_box`'s `invalid_range` flag:
`len(ra) != 2 or len(ra) != len(set(ra))`. -/
def raRangeBad : Option (List ℚ) → Bool
  | none => false
  | some l => decide (l.length ≠ 2) || decide (l.dedup.length ≠ l.length)

/-- The `dec` half of `validate_box`'s `invalid_range` flag:
`len(dec) != 2 or dec[0] >= dec[1]` (short-circuit: the indexing only
happens when the length is 2). -/
def decRangeBad : Option (List ℚ) → Bool
  | none => false
  | some l => if l.length = 2 then decide (l.getD 1 0 ≤ l.getD 0 0) else true

/-- `validate_box(ra, dec)` from `validators.py`: sets `invalid_range` from
both ranges, validates the declination values when `dec` is given (this can
raise `INVALID_DEC` first), then raises `INVALID_RADEC_RANGE` when both are
`None` or a range was flagged. -/
def validate_box (ra dec : Option (List ℚ)) : Option VErr :=
  let invalidRange := raRangeBad ra || decRangeBad dec
  let decCheck : Option VErr :=
    match dec with
    | some d => validate_declination_values d
    | none => none
  match decCheck with
  | some e => some e
  | none =>
    if ra.isNone && dec.isNone || invalidRange then some VErr.invalidRadecRange
    else none

/-- All given declination values lie within [-90, 90] (the hypothesis of the
box-search claim). -/
def decInRange : Option (List ℚ) → Bool
  | none => true
  | some l => l.all (fun x => decide (-90 ≤ x) && decide (x ≤ 90))

/-- `np.array(vertices).shape[1]` for a list-of-lists input: `some L` when the
input is non-empty and rectangular with row length `L`, and `none` when numpy
itself fails first (ragged coercion, or `shape[1]` of the 1-dimensional array
built from `[]`). -/
def npShape1 (vertices : List (List ℚ)) : Option ℕ :=
  match vertices with
  | [] => none
  | row :: rest => if rest.all (fun r => r.length = row.length) then some row.length else none

/-- `validate_polygon(vertices)` from `validators.py`.  The final
`check_polygon_is_valid` call evaluates spherical trigonometry on floats
(`hp.ang2vec`, cross products, `np.isclose`), which has no exact shallow
embedding; it is received as a parameter, and every theorem below holds for
an arbitrary such function (none of them depends on its behaviour). -/
def validate_polygon (checkPolygonIsValid : List (List ℚ) → Option VErr)
    (vertices : List (List ℚ)) : Option VErr :=
  match npShape1 vertices with
  | none => some VErr.externalError
  | some w =>
    if w ≠ 2 then some VErr.invalidCoordsShape
    else
      match validate_declination_values (vertices.map (fun row => row.getD 1 0)) with
      | some e => some e
      | none =>
        if vertices.length < 3 then some VErr.invalidNumVertices
        else if vertices.dedup.length ≠ vertices.length then some VErr.duplicateVertices
        else checkPolygonIsValid vertices

/-! ### The alignment kernels with the float64 logarithm abstracted

`_add_pixels_until` computes `max_p4_to` from `np.int64(np.log2(add_to -
add_from))`: a float64 logarithm truncated to an int64.  That composite is
not derivable from the source alone (it depends on the C library's `log2`),
and it exceeds the floor logarithm for `rem` just below a power of two:
float64 rounds `log2(2 ^ k - 1)` up to exactly `k` once `k ≥ 49`.  The
definitions below therefore repeat the alignment kernels verbatim with the
composite received as a parameter `flog2`; the earlier definitions are its
idealized instantiation `flog2 = Nat.log2`. -/

def maxP4ToOfF (flog2 : ℕ → ℕ) (rem : ℕ) : ℕ :=
  2 ^ (flog2 rem - flog2 rem % 2)

def pixelSizeF (flog2 : ℕ → ℕ) (addFrom addTo : ℕ) : ℕ :=
  min (maxP4ToOfF flog2 (addTo - addFrom)) (maxP4FromOf addFrom)

def addPixelsUntilF (flog2 : ℕ → ℕ) : ℕ → ℕ → ℕ → Iv → Bool → Option (List MapRow)
  | 0, addFrom, addTo, _, _ => if addFrom < addTo then none else some []
  | fuel + 1, addFrom, addTo, matchingPix, isLeftPixel =>
    if addFrom < addTo then
      let ps := pixelSizeF flog2 addFrom addTo
      let row : MapRow :=
        if isLeftPixel then ⟨some matchingPix, none, (addFrom, addFrom + ps)⟩
        else ⟨none, some matchingPix, (addFrom, addFrom + ps)⟩
      Option.map (fun rest => row :: rest)
        (addPixelsUntilF flog2 fuel (addFrom + ps) addTo matchingPix isLeftPixel)
    else some []

def addRemainingPixelsF (flog2 : ℕ → ℕ) (fuel addedUntil : ℕ) (pixelList : List Iv)
    (isLeftPixel : Bool) : Option (List MapRow) :=
  match pixelList with
  | [] => some []
  | pix :: rest =>
    let gapRows : Option (List MapRow) :=
      if pix.1 < addedUntil ∧ addedUntil < pix.2 then
        addPixelsUntilF flog2 fuel addedUntil pix.2 pix isLeftPixel
      else some []
    let tail : List Iv :=
      if (pix.1 < addedUntil ∧ addedUntil < pix.2) ∨ pix.2 ≤ addedUntil then rest
      else pix :: rest
    Option.map (fun rows => rows ++ tail.map (fun p => verbatimRow p isLeftPixel)) gapRows

def performAlignTreesF (flog2 : ℕ → ℕ) (fuel : ℕ) :
    List Iv → List Iv → Bool → Bool → ℕ → Option (List MapRow)
  | leftPix :: ls, rightPix :: rs, includeAllLeft, includeAllRight, addedUntil =>
    if leftPix.1 ≥ rightPix.2 then
      if includeAllRight then
        if addedUntil ≤ rightPix.1 then
          Option.map (fun rest => ⟨none, some rightPix, rightPix⟩ :: rest)
            (performAlignTreesF flog2 fuel (leftPix :: ls) rs includeAllLeft includeAllRight
              rightPix.2)
        else if addedUntil < rightPix.2 then
          match addPixelsUntilF flog2 fuel addedUntil rightPix.2 rightPix false with
          | none => none
          | some gap =>
            Option.map (fun rest => gap ++ rest)
              (performAlignTreesF flog2 fuel (leftPix :: ls) rs includeAllLeft includeAllRight
                rightPix.2)
        else
          performAlignTreesF flog2 fuel (leftPix :: ls) rs includeAllLeft includeAllRight
            addedUntil
      else
        performAlignTreesF flog2 fuel (leftPix :: ls) rs includeAllLeft includeAllRight
          addedUntil
    else if rightPix.1 ≥ leftPix.2 then
      if includeAllLeft then
        if addedUntil ≤ leftPix.1 then
          Option.map (fun rest => ⟨some leftPix, none, leftPix⟩ :: rest)
            (performAlignTreesF flog2 fuel ls (rightPix :: rs) includeAllLeft includeAllRight
              leftPix.2)
        else if addedUntil < leftPix.2 then
          match addPixelsUntilF flog2 fuel addedUntil leftPix.2 leftPix true with
          | none => none
          | some gap =>
            Option.map (fun rest => gap ++ rest)
              (performAlignTreesF flog2 fuel ls (rightPix :: rs) includeAllLeft includeAllRight
                leftPix.2)
        else
          performAlignTreesF flog2 fuel ls (rightPix :: rs) includeAllLeft includeAllRight
            addedUntil
      else
        performAlignTreesF flog2 fuel ls (rightPix :: rs) includeAllLeft includeAllRight
          addedUntil
    else if leftPix.2 - leftPix.1 = rightPix.2 - rightPix.1 then
      Option.map (fun rest => ⟨some leftPix, some rightPix, leftPix⟩ :: rest)
        (performAlignTreesF flog2 fuel ls rs includeAllLeft includeAllRight leftPix.2)
    else if leftPix.2 - leftPix.1 < rightPix.2 - rightPix.1 then
      match
        (if includeAllRight ∧ rightPix.1 < leftPix.1 ∧ addedUntil < leftPix.1 then
          addPixelsUntilF flog2 fuel (max addedUntil rightPix.1) leftPix.1 rightPix false
        else some []) with
      | none => none
      | some gap =>
        Option.map (fun rest => gap ++ ⟨some leftPix, some rightPix, leftPix⟩ :: rest)
          (performAlignTreesF flog2 fuel ls (rightPix :: rs) includeAllLeft includeAllRight
            leftPix.2)
    else
      match
        (if includeAllLeft ∧ leftPix.1 < rightPix.1 ∧ addedUntil < rightPix.1 then
          addPixelsUntilF flog2 fuel (max addedUntil leftPix.1) rightPix.1 leftPix true
        else some []) with
      | none => none
      | some gap =>
        Option.map (fun rest => gap ++ ⟨some leftPix, some rightPix, rightPix⟩ :: rest)
          (performAlignTreesF flog2 fuel (leftPix :: ls) rs includeAllLeft includeAllRight
            rightPix.2)
  | l, r, includeAllLeft, includeAllRight, addedUntil =>
    match
      (if includeAllRight ∧ r ≠ [] then addRemainingPixelsF flog2 fuel addedUntil r false
      else some []) with
    | none => none
    | some m1 =>
      Option.map (fun m2 => m1 ++ m2)
        (if includeAllLeft ∧ l ≠ [] then addRemainingPixelsF flog2 fuel addedUntil l true
        else some [])
termination_by l r _ _ _ => l.length + r.length
decreasing_by
  all_goals simp only [List.length_cons]
  all_goals omega

def alignTreesF (flog2 : ℕ → ℕ) (fuel : ℕ) (left right : PixelTree)
    (alignmentType : PixelAlignmentType) : Option (List Iv × List MapRow) :=
  let maxN := max left.treeOrder right.treeOrder
  let leftAligned := shiftTree left.tree (maxN - left.treeOrder)
  let rightAligned := shiftTree right.tree (maxN - right.treeOrder)
  if alignmentType = PixelAlignmentType.inner then
    let mapping := performInnerAlignTrees leftAligned rightAligned
    some (mapping.map (fun row => row.apix), mapping)
  else
    let includeAllLeft : Bool :=
      alignmentType = PixelAlignmentType.left ∨ alignmentType = PixelAlignmentType.outer
    let includeAllRight : Bool :=
      alignmentType = PixelAlignmentType.right ∨ alignmentType = PixelAlignmentType.outer
    Option.map (fun mapping => (mapping.map (fun row => row.apix), mapping))
      (performAlignTreesF flog2 fuel leftAligned rightAligned includeAllLeft includeAllRight 0)

/-- The one property of the truncated float64 logarithm the coverage theorems
use: it never reaches past the ceiling of the exact logarithm.  For `rem` an
exact power of two `2 ^ k`, any library value within `1.0` of the true
`log2` truncates to at most `k`, and `2 ^ k < 2 * rem`; otherwise
`2 ^ k < rem < 2 ^ (k + 1)` and any value within `1.0` of the true `log2`
truncates to at most `k + 1`, with `2 ^ (k + 1) < 2 * rem`.  (Converting
`rem ≥ 2 ^ 53` to float64 first rounds it to the nearest double, which never
crosses the next power of two, so the bound is unaffected.)  Float64 `log2`
implementations are within a few units in the last place (≈ 2^-46 here) of
the true value, far inside the `1.0` margin. -/
def FLog2OK (flog2 : ℕ → ℕ) : Prop :=
  ∀ rem, 1 ≤ rem → 2 ^ flog2 rem < 2 * rem

/-! ### Basic facts about coverage sets, sorted chains and aligned intervals -/

theorem cov_nil : cov [] = ∅ := by
  ext x; simp [cov]

theorem cov_cons (iv : Iv) (l : List Iv) :
    cov (iv :: l) = Set.Ico iv.1 iv.2 ∪ cov l := by
  ext x
  simp only [cov, Set.mem_setOf_eq, List.mem_cons, Set.mem_union, Set.mem_Ico]
  constructor
  · rintro ⟨p, rfl | hp, hx⟩
    · exact Or.inl hx
    · exact Or.inr ⟨p, hp, hx⟩
  · rintro (hx | ⟨p, hp, hx⟩)
    · exact ⟨iv, Or.inl rfl, hx⟩
    · exact ⟨p, Or.inr hp, hx⟩

theorem cov_append (A B : List Iv) : cov (A ++ B) = cov A ∪ cov B := by
  ext x
  simp only [cov, Set.mem_setOf_eq, List.mem_append, Set.mem_union]
  constructor
  · rintro ⟨p, hp | hp, hx⟩
    · exact Or.inl ⟨p, hp, hx⟩
    · exact Or.inr ⟨p, hp, hx⟩
  · rintro (⟨p, hp, hx⟩ | ⟨p, hp, hx⟩)
    · exact ⟨p, Or.inl hp, hx⟩
    · exact ⟨p, Or.inr hp, hx⟩

theorem chainLe_of_le {s t : Iv} {L : List Iv}
    (h : List.Chain (fun p q : Iv => p.2 ≤ q.1) t L) (hst : s.2 ≤ t.2) :
    List.Chain (fun p q : Iv => p.2 ≤ q.1) s L := by
  cases L with
  | nil => exact List.Chain.nil
  | cons a l =>
    rw [List.chain_cons] at h ⊢
    exact ⟨le_trans hst h.1, h.2⟩

theorem chainEq_le {s : Iv} {L : List Iv}
    (h : List.Chain (fun p q : Iv => p.2 = q.1) s L) :
    List.Chain (fun p q : Iv => p.2 ≤ q.1) s L :=
  List.Chain.imp (fun _ _ hab => le_of_eq hab) h

theorem chainLe_append {s : Iv} {A B : List Iv} {c : ℕ}
    (hA : List.Chain (fun p q : Iv => p.2 ≤ q.1) s A)
    (hsc : s.2 ≤ c) (hAc : ∀ p ∈ A, p.2 ≤ c)
    (hB : List.Chain (fun p q : Iv => p.2 ≤ q.1) (c, c) B) :
    List.Chain (fun p q : Iv => p.2 ≤ q.1) s (A ++ B) := by
  induction A generalizing s with
  | nil => exact chainLe_of_le hB hsc
  | cons a A ih =>
    rw [List.chain_cons] at hA
    rw [List.cons_append, List.chain_cons]
    exact ⟨hA.1, ih hA.2 (hAc a (by simp)) (fun p hp => hAc p (by simp [hp]))⟩

theorem chain_of_chain' {aU : ℕ} {L : List Iv}
    (h : List.Chain' (fun p q : Iv => p.2 ≤ q.1) L)
    (hhd : ∀ p ∈ L.head?, aU ≤ p.1) :
    List.Chain (fun p q : Iv => p.2 ≤ q.1) (aU, aU) L := by
  cases L with
  | nil => exact List.Chain.nil
  | cons a l =>
    rw [List.chain_cons]
    exact ⟨hhd a (by simp), h⟩

theorem chain_to_chain' {s : Iv} {L : List Iv}
    (h : List.Chain (fun p q : Iv => p.2 ≤ q.1) s L) :
    List.Chain' (fun p q : Iv => p.2 ≤ q.1) L := by
  cases L with
  | nil => exact trivial
  | cons a l =>
    show List.Chain (fun p q : Iv => p.2 ≤ q.1) a l
    exact (List.chain_cons.mp h).2

theorem WFIvs_tail {bound : ℕ} {iv : Iv} {l : List Iv} (h : WFIvs bound (iv :: l)) :
    WFIvs bound l := by
  obtain ⟨hc, hm⟩ := h
  exact ⟨hc.tail, fun p hp => hm p (by simp [hp])⟩

theorem WFIvs_head_le {bound : ℕ} {iv : Iv} {l : List Iv} (h : WFIvs bound (iv :: l)) :
    ∀ p ∈ l, iv.2 ≤ p.1 := by
  induction l generalizing iv with
  | nil => simp
  | cons a l ih =>
    intro p hp
    have hc := h.1
    rw [List.chain'_cons] at hc
    rcases List.mem_cons.mp hp with rfl | hp'
    · exact hc.1
    · have ha : IvOK a := (h.2 a (by simp)).1
      exact le_trans (le_trans hc.1 (le_of_lt ha.1)) (ih (WFIvs_tail h) p hp')

theorem WFIvs_cov_ge {bound : ℕ} {iv : Iv} {l : List Iv} (h : WFIvs bound (iv :: l)) :
    cov l ⊆ Set.Ici iv.2 := by
  intro x hx
  obtain ⟨p, hp, hx1, _⟩ := hx
  exact le_trans (WFIvs_head_le h p hp) hx1

theorem WFIvs_cov_ge_start {bound : ℕ} {iv : Iv} {l : List Iv}
    (h : WFIvs bound (iv :: l)) : cov (iv :: l) ⊆ Set.Ici iv.1 := by
  intro x hx
  rw [cov_cons] at hx
  rcases hx with hx | hx
  · exact hx.1
  · have h2 := WFIvs_cov_ge h hx
    have := (h.2 iv (by simp)).1.1
    exact le_trans (le_of_lt this) h2

theorem isP4_pow (k : ℕ) : IsP4 (4 ^ k) :=
  ⟨pow_pos (by norm_num) k, by rw [Nat.log_pow (by norm_num)]⟩

theorem isP4_exists {n : ℕ} (h : IsP4 n) : ∃ k, n = 4 ^ k := ⟨_, h.2⟩

theorem isP4_min {a b : ℕ} (ha : IsP4 a) (hb : IsP4 b) : IsP4 (min a b) := by
  rcases le_total a b with h | h
  · rwa [min_eq_left h]
  · rwa [min_eq_right h]

theorem pow4_dvd_of_le {i j : ℕ} (h : (4:ℕ) ^ i ≤ 4 ^ j) : (4:ℕ) ^ i ∣ 4 ^ j :=
  pow_dvd_pow 4 ((Nat.pow_le_pow_iff_right (by norm_num)).mp h)

theorem ivOK_cases {iv : Iv} (h : IvOK iv) :
    ∃ k a, iv.1 = 4 ^ k * a ∧ iv.2 = 4 ^ k * (a + 1) := by
  obtain ⟨hlt, hp4, hdvd⟩ := h
  obtain ⟨k, hk⟩ := isP4_exists hp4
  obtain ⟨a, ha⟩ := hdvd
  have h1 : iv.1 = 4 ^ k * a := by rw [ha, hk, Nat.mul_comm]
  refine ⟨k, a, h1, ?_⟩
  have h2 : iv.2 = iv.1 + 4 ^ k := by omega
  rw [h2, h1, Nat.mul_add, Nat.mul_one]

theorem p4_eq_of_overlap {iv jv : Iv} (hi : IvOK iv) (hj : IvOK jv)
    (hlen : iv.2 - iv.1 = jv.2 - jv.1)
    (h1 : iv.1 < jv.2) (h2 : jv.1 < iv.2) : iv = jv := by
  obtain ⟨k, a, ha1, ha2⟩ := ivOK_cases hi
  obtain ⟨l, b, hb1, hb2⟩ := ivOK_cases hj
  have hpk : (0:ℕ) < 4 ^ k := pow_pos (by norm_num) k
  have la : iv.2 - iv.1 = 4 ^ k := by
    rw [ha2, ha1]; rw [Nat.mul_add]; omega
  have lb : jv.2 - jv.1 = 4 ^ l := by
    rw [hb2, hb1]; rw [Nat.mul_add]; omega
  rw [la, lb] at hlen
  rw [← hlen] at hb1 hb2
  have hab : a = b := by
    have e1 : a < b + 1 := by
      have := h1
      rw [ha1, hb2] at this
      exact (Nat.mul_lt_mul_left hpk).mp this
    have e2 : b < a + 1 := by
      have := h2
      rw [hb1, ha2] at this
      exact (Nat.mul_lt_mul_left hpk).mp this
    omega
  have : iv.1 = jv.1 ∧ iv.2 = jv.2 := by rw [ha1, ha2, hb1, hb2, hab]; exact ⟨rfl, rfl⟩
  exact Prod.ext this.1 this.2

theorem p4_subset_of_overlap {iv jv : Iv} (hi : IvOK iv) (hj : IvOK jv)
    (hlen : iv.2 - iv.1 ≤ jv.2 - jv.1)
    (h1 : iv.1 < jv.2) (h2 : jv.1 < iv.2) : jv.1 ≤ iv.1 ∧ iv.2 ≤ jv.2 := by
  obtain ⟨k, a, ha1, ha2⟩ := ivOK_cases hi
  obtain ⟨l, b, hb1, hb2⟩ := ivOK_cases hj
  have hpk : (0:ℕ) < 4 ^ k := pow_pos (by norm_num) k
  have la : iv.2 - iv.1 = 4 ^ k := by
    rw [ha2, ha1]; rw [Nat.mul_add]; omega
  have lb : jv.2 - jv.1 = 4 ^ l := by
    rw [hb2, hb1]; rw [Nat.mul_add]; omega
  rw [la, lb] at hlen
  have hkl : k ≤ l := (Nat.pow_le_pow_iff_right (by norm_num)).mp hlen
  obtain ⟨d, rfl⟩ := Nat.exists_eq_add_of_le hkl
  have hc : (4:ℕ) ^ (k + d) = 4 ^ k * 4 ^ d := pow_add 4 k d
  rw [hc, Nat.mul_assoc] at hb1 hb2
  constructor
  · have e2 : 4 ^ d * b < a + 1 := by
      have := h2
      rw [hb1, ha2] at this
      exact (Nat.mul_lt_mul_left hpk).mp this
    rw [hb1, ha1]
    exact Nat.mul_le_mul_left _ (by omega)
  · have e1 : a < 4 ^ d * (b + 1) := by
      have := h1
      rw [ha1, hb2] at this
      exact (Nat.mul_lt_mul_left hpk).mp this
    rw [ha2, hb2]
    exact Nat.mul_le_mul_left _ (by omega)

/-! ### The bit tricks of the gap decomposer -/

theorem testBit_sub_one_of_odd {m j : ℕ} (hm : m % 2 = 1) (hj : 1 ≤ j) :
    (m - 1).testBit j = m.testBit j := by
  cases j with
  | zero => omega
  | succ j =>
    rw [Nat.testBit_add_one, Nat.testBit_add_one]
    congr 1
    omega

theorem lowBit_spec {t m : ℕ} (hm : m % 2 = 1) (h : 2 ^ t * m < 2 ^ 63) :
    lowBit (2 ^ t * m) = 2 ^ t := by
  have hpt : (0:ℕ) < 2 ^ t := pow_pos (by norm_num) t
  have hn1 : 2 ^ t ≤ 2 ^ t * m := Nat.le_mul_of_pos_right _ (by omega)
  have ht : t < 63 := by
    by_contra hc
    push_neg at hc
    have h2 : (2:ℕ) ^ 63 ≤ 2 ^ t := Nat.pow_le_pow_right (by norm_num) hc
    omega
  have hsplit : 2 ^ t * m - 1 = 2 ^ t * (m - 1) + (2 ^ t - 1) := by
    have e : 2 ^ t * (m - 1) + 2 ^ t = 2 ^ t * m := by
      have e0 : m - 1 + 1 = m := by omega
      calc 2 ^ t * (m - 1) + 2 ^ t = 2 ^ t * (m - 1 + 1) := by rw [Nat.mul_add, Nat.mul_one]
      _ = 2 ^ t * m := by rw [e0]
    omega
  apply Nat.eq_of_testBit_eq
  intro i
  unfold lowBit
  rw [Nat.testBit_and]
  have hlt64 : 2 ^ t * m - 1 < 2 ^ 64 := by
    have : (2:ℕ) ^ 63 ≤ 2 ^ 64 := by norm_num
    omega
  have hrw : (2:ℕ) ^ 64 - 2 ^ t * m = 2 ^ 64 - (2 ^ t * m - 1 + 1) := by omega
  rw [hrw, Nat.testBit_two_pow_sub_succ hlt64]
  rw [Nat.testBit_mul_pow_two, Nat.testBit_two_pow]
  rcases Nat.lt_trichotomy i t with hi | hi | hi
  · have d1 : ¬ (i ≥ t) := by omega
    have d2 : t ≠ i := by omega
    simp [d1, d2]
  · rw [hi]
    have h1 : m.testBit 0 = true := by
      rw [Nat.testBit_zero]
      simp [hm]
    have h2 : (2 ^ t * m - 1).testBit t = false := by
      rw [hsplit, Nat.testBit_mul_pow_two_add (m - 1) (by omega) t]
      rw [if_neg (lt_irrefl t)]
      rw [Nat.sub_self, Nat.testBit_zero]
      simp only [decide_eq_false_iff_not]
      omega
    have h3 : t < 64 := by omega
    simp [h1, h2, h3, Nat.sub_self]
  · have e1 : (2 ^ t * m - 1).testBit i = (m - 1).testBit (i - t) := by
      rw [hsplit, Nat.testBit_mul_pow_two_add (m - 1) (by omega) i]
      rw [if_neg (by omega)]
    have e2 : (m - 1).testBit (i - t) = m.testBit (i - t) :=
      testBit_sub_one_of_odd hm (by omega)
    rw [e1, e2]
    have d2 : t ≠ i := by omega
    cases hmt : m.testBit (i - t) <;> simp [hmt, d2]

theorem two_pow_and_eq (t x : ℕ) : 2 ^ t &&& x = if x.testBit t then 2 ^ t else 0 := by
  apply Nat.eq_of_testBit_eq
  intro i
  rw [Nat.testBit_and, Nat.testBit_two_pow]
  by_cases hx : x.testBit t
  · rw [if_pos hx, Nat.testBit_two_pow]
    by_cases hti : t = i
    · subst hti; simp [hx]
    · simp [hti]
  · rw [if_neg hx]
    rw [Nat.zero_testBit]
    by_cases hti : t = i
    · subst hti; simp [hx]
    · simp [hti]

theorem mask4_testBit (t : ℕ) : mask4.testBit t = (decide (t % 2 = 1) && decide (t < 60)) := by
  by_cases h : t < 60
  · have hall : ∀ s, s < 60 → mask4.testBit s = (decide (s % 2 = 1) && decide (s < 60)) := by
      decide
    exact hall t h
  · have h1 : mask4.testBit t = false := by
      apply Nat.testBit_lt_two_pow
      have h2 : mask4 < 2 ^ 60 := by norm_num [mask4]
      have h3 : (2:ℕ) ^ 60 ≤ 2 ^ t := Nat.pow_le_pow_right (by norm_num) (by omega)
      omega
    simp [h1, h]

theorem maxP4FromOf_spec {t m : ℕ} (hm : m % 2 = 1) (h : 2 ^ t * m < 2 ^ 63) :
    maxP4FromOf (2 ^ t * m) = if t % 2 = 1 ∧ t < 60 then 2 ^ (t - 1) else 2 ^ t := by
  unfold maxP4FromOf
  rw [lowBit_spec hm h, two_pow_and_eq, mask4_testBit]
  by_cases h1 : t % 2 = 1 ∧ t < 60
  · have e : (decide (t % 2 = 1) && decide (t < 60)) = true := by simp [h1.1, h1.2]
    rw [e, if_pos h1]
    have hpt : (0:ℕ) < 2 ^ t := pow_pos (by norm_num) t
    rw [if_pos (by simp)]
    have e2 : (2:ℕ) ^ t = 2 ^ (t - 1) * 2 := by
      rw [← pow_succ]
      congr 1
      omega
    rw [e2, Nat.mul_div_cancel _ (by norm_num)]
  · have e : (decide (t % 2 = 1) && decide (t < 60)) = false := by
      rcases Decidable.not_and_iff_or_not.mp h1 with h2 | h2 <;> simp [h2]
    rw [e, if_neg h1]
    simp

theorem maxP4ToOf_isP4 (rem : ℕ) : IsP4 (maxP4ToOf rem) := by
  have e : maxP4ToOf rem = 4 ^ (Nat.log2 rem / 2) := by
    unfold maxP4ToOf
    rw [show (4:ℕ) = 2 ^ 2 from rfl, ← pow_mul]
    congr 1
    omega
  rw [e]
  exact isP4_pow _

theorem maxP4ToOf_le {rem : ℕ} (h : 1 ≤ rem) : maxP4ToOf rem ≤ rem := by
  unfold maxP4ToOf
  calc 2 ^ (Nat.log2 rem - Nat.log2 rem % 2) ≤ 2 ^ Nat.log2 rem :=
        Nat.pow_le_pow_right (by norm_num) (by omega)
  _ ≤ rem := Nat.log2_self_le (by omega)

theorem maxP4ToOf_max {rem j : ℕ} (hj : 4 ^ j ≤ rem) : 4 ^ j ≤ maxP4ToOf rem := by
  have h4 : (4:ℕ) ^ j = 2 ^ (2 * j) := by
    rw [pow_mul]
    norm_num
  have h2 : (2:ℕ) ^ (2 * j) ≤ rem := by rw [← h4]; exact hj
  have h3 : rem < 2 ^ (Nat.log2 rem + 1) := Nat.lt_log2_self
  have h5 : 2 * j ≤ Nat.log2 rem := by
    by_contra hc
    push_neg at hc
    have h6 : (2:ℕ) ^ (Nat.log2 rem + 1) ≤ 2 ^ (2 * j) := Nat.pow_le_pow_right (by norm_num) (by omega)
    omega
  unfold maxP4ToOf
  rw [h4]
  exact Nat.pow_le_pow_right (by norm_num) (by omega)

theorem pow4_dvd_two_pow_mul_odd {j t m : ℕ} (hm : m % 2 = 1) :
    (4 ^ j ∣ 2 ^ t * m) ↔ 2 * j ≤ t := by
  have h4 : (4:ℕ) ^ j = 2 ^ (2 * j) := by
    rw [pow_mul]
    norm_num
  constructor
  · intro hd
    by_contra hc
    push_neg at hc
    have h1 : (2:ℕ) ^ (t + 1) ∣ 2 ^ t * m := by
      refine dvd_trans ?_ hd
      rw [h4]
      exact pow_dvd_pow 2 (by omega)
    obtain ⟨c, hc2⟩ := h1
    have hpt : (0:ℕ) < 2 ^ t := pow_pos (by norm_num) t
    have e : 2 ^ t * m = 2 ^ t * (2 * c) := by
      rw [hc2, pow_succ]
      ring
    have : m = 2 * c := Nat.eq_of_mul_eq_mul_left hpt e
    omega
  · intro hj
    rw [h4]
    exact dvd_trans (pow_dvd_pow 2 hj) (dvd_mul_right _ m)

theorem pixelSize_spec {a b : ℕ} (ha : 1 ≤ a) (hab : a < b) (hb : b ≤ 2 ^ 62) :
    IsP4 (pixelSize a b) ∧ pixelSize a b ∣ a ∧ a + pixelSize a b ≤ b ∧
      ∀ j, 4 ^ j ∣ a → a + 4 ^ j ≤ b → 4 ^ j ≤ pixelSize a b := by
  obtain ⟨t, m, hm2, rfl⟩ :=
    Nat.exists_eq_pow_mul_and_not_dvd (Nat.one_le_iff_ne_zero.mp ha) 2 (by norm_num)
  have hm : m % 2 = 1 := by omega
  have h63 : 2 ^ t * m < 2 ^ 63 := by
    have : (2:ℕ) ^ 62 ≤ 2 ^ 63 := by norm_num
    omega
  have hrem1 : 1 ≤ b - 2 ^ t * m := by omega
  have hremle : maxP4ToOf (b - 2 ^ t * m) ≤ b - 2 ^ t * m := maxP4ToOf_le hrem1
  obtain ⟨x, hx⟩ := isP4_exists (maxP4ToOf_isP4 (b - 2 ^ t * m))
  have hF := maxP4FromOf_spec hm h63
  have ht61 : t ≤ 61 := by
    have h1 : (2:ℕ) ^ t ≤ 2 ^ t * m := Nat.le_mul_of_pos_right _ (by omega)
    by_contra hc
    push_neg at hc
    have h2 : (2:ℕ) ^ 62 ≤ 2 ^ t := Nat.pow_le_pow_right (by norm_num) (by omega)
    omega
  by_cases hT61 : t = 61
  · -- the lowest set bit sits at position 61: the mask misses it, but within
    -- the 2^62 bound the remaining distance is at most 2^61, so the minimum
    -- still picks max_p4_to
    subst hT61
    have hm1 : m = 1 := by
      have h1 : (2:ℕ) ^ 61 * 2 ≤ 2 ^ 61 * m ∨ m = 1 := by
        rcases Nat.lt_or_ge m 2 with h | h
        · right; omega
        · left; exact Nat.mul_le_mul_left _ h
      rcases h1 with h1 | h1
      · exfalso
        have : (2:ℕ) ^ 61 * 2 = 2 ^ 62 := by rw [← pow_succ]
        omega
      · exact h1
    subst hm1
    have hFv : maxP4FromOf (2 ^ 61 * 1) = 2 ^ 61 := by
      rw [hF]
      norm_num
    have hTle : maxP4ToOf (b - 2 ^ 61 * 1) ≤ 2 ^ 61 := by omega
    have hps : pixelSize (2 ^ 61 * 1) b = maxP4ToOf (b - 2 ^ 61 * 1) := by
      unfold pixelSize
      rw [hFv]
      exact min_eq_left hTle
    rw [hps]
    refine ⟨maxP4ToOf_isP4 _, ?_, by omega, ?_⟩
    · rw [hx, pow4_dvd_two_pow_mul_odd hm]
      have h2 : (2:ℕ) ^ (2 * x) ≤ 2 ^ 61 := by
        have e : (4:ℕ) ^ x = 2 ^ (2 * x) := by rw [pow_mul]; norm_num
        omega
      by_contra hc
      push_neg at hc
      have : (2:ℕ) ^ 62 ≤ 2 ^ (2 * x) := Nat.pow_le_pow_right (by norm_num) (by omega)
      omega
    · intro j _ hfit
      exact maxP4ToOf_max (by omega)
  · -- the generic case: max_p4_from is exactly the largest power of 4
    -- dividing add_from
    have htev : t - t % 2 = 2 * (t / 2) := by omega
    have hFv : maxP4FromOf (2 ^ t * m) = 4 ^ (t / 2) := by
      rw [hF]
      have e4 : (4:ℕ) ^ (t / 2) = 2 ^ (t - t % 2) := by
        rw [htev, pow_mul]
        norm_num
      by_cases h1 : t % 2 = 1 ∧ t < 60
      · rw [if_pos h1, e4]
        congr 1
        omega
      · rw [if_neg h1, e4]
        have h2 : t % 2 = 0 := by
          rcases Decidable.not_and_iff_or_not.mp h1 with h2 | h2
          · omega
          · -- t odd and t ≥ 60 with t ≤ 61 and t ≠ 61 is impossible
            omega
        congr 1
        omega
    have hdF : 4 ^ (t / 2) ∣ 2 ^ t * m := (pow4_dvd_two_pow_mul_odd hm).mpr (by omega)
    unfold pixelSize
    rw [hFv]
    rcases le_total (maxP4ToOf (b - 2 ^ t * m)) (4 ^ (t / 2)) with hmin | hmin
    · rw [min_eq_left hmin]
      refine ⟨maxP4ToOf_isP4 _, ?_, by omega, ?_⟩
      · rw [hx]
        refine dvd_trans (pow4_dvd_of_le ?_) hdF
        omega
      · intro j _ hfit
        exact maxP4ToOf_max (by omega)
    · rw [min_eq_right hmin]
      refine ⟨isP4_pow _, hdF, ?_, ?_⟩
      · omega
      · intro j hdvd hfit
        have h1 : 2 * j ≤ t := (pow4_dvd_two_pow_mul_odd hm).mp hdvd
        exact Nat.pow_le_pow_right (by norm_num) (by omega)

/-! ### The gap decomposer: divergence at 0 and partial correctness -/

theorem pixelSize_zero_left (b : ℕ) : pixelSize 0 b = 0 := by
  unfold pixelSize maxP4FromOf lowBit
  simp

theorem addPixelsUntil_zero_from (fuel b : ℕ) (mp : Iv) (side : Bool) (hb : 0 < b) :
    addPixelsUntil fuel 0 b mp side = none := by
  induction fuel with
  | zero => simp [addPixelsUntil, hb]
  | succ n ih => simp [addPixelsUntil, hb, pixelSize_zero_left, ih]

theorem chainEq_of_snd {s t : Iv} {L : List Iv}
    (h : List.Chain (fun p q : Iv => p.2 = q.1) s L) (hst : t.2 = s.2) :
    List.Chain (fun p q : Iv => p.2 = q.1) t L := by
  cases L with
  | nil => exact List.Chain.nil
  | cons a l =>
    rw [List.chain_cons] at h ⊢
    exact ⟨hst.trans h.1, h.2⟩

theorem addPixelsUntil_spec (fuel : ℕ) :
    ∀ (a b : ℕ) (mp : Iv) (side : Bool), 1 ≤ a → a ≤ b → b ≤ 2 ^ 62 →
    (addPixelsUntil fuel a b mp side).elim True fun rows =>
      List.Chain (fun p q : Iv => p.2 = q.1) (a, a) (rows.map fun r => r.apix) ∧
      (∀ r ∈ rows, a ≤ r.apix.1 ∧ IvOK r.apix ∧ r.apix.2 ≤ b ∧ MaxFillIv b r.apix) ∧
      ((rows.map fun r => r.apix.2 - r.apix.1).sum = b - a) ∧
      cov (rows.map fun r => r.apix) = Set.Ico a b ∧
      (a = b → rows = []) := by
  induction fuel with
  | zero =>
    intro a b mp side ha hab hb
    by_cases h : a < b
    · simp [addPixelsUntil, h]
    · have hab2 : a = b := by omega
      subst hab2
      simp [addPixelsUntil, cov_nil]
  | succ n ih =>
    intro a b mp side ha hab hb
    by_cases h : a < b
    · obtain ⟨hP4, hdvd, hfit, hmax⟩ := pixelSize_spec ha h hb
      have hpos : 0 < pixelSize a b := hP4.1
      have hstep : addPixelsUntil (n + 1) a b mp side =
          Option.map (fun rest =>
            (if side then (⟨some mp, none, (a, a + pixelSize a b)⟩ : MapRow)
             else ⟨none, some mp, (a, a + pixelSize a b)⟩) :: rest)
            (addPixelsUntil n (a + pixelSize a b) b mp side) := by
        simp [addPixelsUntil, h]
      have ihc := ih (a + pixelSize a b) b mp side (by omega) hfit hb
      cases hrec : addPixelsUntil n (a + pixelSize a b) b mp side with
      | none =>
        rw [hstep, hrec]
        simp
      | some rest =>
        rw [hrec] at ihc
        rw [hstep, hrec]
        simp only [Option.map_some', Option.elim_some] at ihc ⊢
        obtain ⟨ih1, ih2, ih3, ih4, ih5⟩ := ihc
        have hapix : (if side then (⟨some mp, none, (a, a + pixelSize a b)⟩ : MapRow)
            else ⟨none, some mp, (a, a + pixelSize a b)⟩).apix = (a, a + pixelSize a b) := by
          cases side <;> rfl
        refine ⟨?_, ?_, ?_, ?_, ?_⟩
        · rw [List.map_cons, hapix, List.chain_cons]
          exact ⟨rfl, chainEq_of_snd ih1 rfl⟩
        · intro r hr
          rcases List.mem_cons.mp hr with rfl | hr'
          · rw [hapix]
            refine ⟨le_refl a, ⟨by omega, ?_, ?_⟩, by omega, ?_⟩
            · have e : a + pixelSize a b - a = pixelSize a b := by omega
              rw [e]
              exact hP4
            · have e : a + pixelSize a b - a = pixelSize a b := by omega
              rw [e]
              exact hdvd
            · intro j hj hfit2
              have e : a + pixelSize a b - a = pixelSize a b := by omega
              rw [e]
              exact hmax j hj hfit2
          · obtain ⟨h1, h2, h3, h4⟩ := ih2 r hr'
            exact ⟨by omega, h2, h3, h4⟩
        · rw [List.map_cons, hapix, List.sum_cons]
          have e : a + pixelSize a b - a = pixelSize a b := by omega
          rw [e, ih3]
          omega
        · rw [List.map_cons, hapix, cov_cons, ih4]
          exact Set.Ico_union_Ico_eq_Ico (by omega) hfit
        · intro hb2
          omega
    · have hab2 : a = b := by omega
      subst hab2
      simp [addPixelsUntil, cov_nil]

/-! ### Covering the remaining pixels after the merge scan -/

theorem verbatimRow_apix (p : Iv) (side : Bool) : (verbatimRow p side).apix = p := by
  cases side <;> rfl

theorem map_verbatim_apix (l : List Iv) (side : Bool) :
    ((l.map fun p => verbatimRow p side).map fun r => r.apix) = l := by
  rw [List.map_map]
  have e : ((fun r : MapRow => r.apix) ∘ fun p => verbatimRow p side) = fun p : Iv => p := by
    funext p
    exact verbatimRow_apix p side
  rw [e]
  simp

theorem chain_from_WF {B c : ℕ} {pix : Iv} {rest : List Iv} (hW : WFIvs B (pix :: rest))
    (hc : c ≤ pix.2) : List.Chain (fun p q : Iv => p.2 ≤ q.1) (c, c) rest := by
  apply chain_of_chain' (WFIvs_tail hW).1
  intro p hp
  have h2 := (List.chain'_cons'.mp hW.1).1 p hp
  calc (c : ℕ) ≤ pix.2 := hc
  _ ≤ p.1 := h2

theorem addRemainingPixels_spec (fuel : ℕ) {B : ℕ} (hB : B ≤ 2 ^ 62)
    (aU : ℕ) (pl : List Iv) (side : Bool)
    (hW : WFIvs B pl) (hhd : ∀ p ∈ pl.head?, aU ≤ p.2) :
    (addRemainingPixels fuel aU pl side).elim True fun rows =>
      List.Chain (fun p q : Iv => p.2 ≤ q.1) (aU, aU) (rows.map fun r => r.apix) ∧
      (∀ row ∈ rows, IvOK row.apix ∧ row.apix.2 ≤ B) ∧
      cov (rows.map fun r => r.apix) = cov pl ∩ Set.Ici aU := by
  cases pl with
  | nil =>
    simp [addRemainingPixels, cov_nil]
  | cons pix rest =>
    have hWr := WFIvs_tail hW
    have hdWF : ∀ p ∈ rest, IvOK p ∧ p.2 ≤ B := fun p hp => hW.2 p (by simp [hp])
    have hpixOK : IvOK pix ∧ pix.2 ≤ B := hW.2 pix (by simp)
    have hrestge : cov rest ⊆ Set.Ici pix.2 := WFIvs_cov_ge hW
    by_cases h1 : pix.1 < aU ∧ aU < pix.2
    · have hga : 1 ≤ aU := by omega
      have hspec := addPixelsUntil_spec fuel aU pix.2 pix side hga (le_of_lt h1.2)
        (le_trans hpixOK.2 hB)
      cases hgap : addPixelsUntil fuel aU pix.2 pix side with
      | none => simp [addRemainingPixels, h1, hgap]
      | some g =>
        rw [hgap] at hspec
        simp only [Option.elim_some] at hspec
        obtain ⟨hg1, hg2, _, hg4, _⟩ := hspec
        have hres : addRemainingPixels fuel aU (pix :: rest) side =
            some (g ++ rest.map fun p => verbatimRow p side) := by
          simp [addRemainingPixels, h1, hgap]
        rw [hres]
        simp only [Option.elim_some]
        refine ⟨?_, ?_, ?_⟩
        · rw [List.map_append, map_verbatim_apix]
          refine chainLe_append (chainEq_le hg1) (by omega) ?_ (chain_from_WF hW (le_refl _))
          intro p hp
          obtain ⟨r, hr, rfl⟩ := List.mem_map.mp hp
          exact (hg2 r hr).2.2.1
        · intro row hrow
          rcases List.mem_append.mp hrow with hrow | hrow
          · obtain ⟨_, hOK, hle, _⟩ := hg2 row hrow
            exact ⟨hOK, le_trans hle hpixOK.2⟩
          · obtain ⟨p, hp, rfl⟩ := List.mem_map.mp hrow
            rw [verbatimRow_apix]
            exact hdWF p hp
        · rw [List.map_append, map_verbatim_apix, cov_append, hg4, cov_cons]
          ext x
          simp only [Set.mem_union, Set.mem_Ico, Set.mem_inter_iff, Set.mem_Ici]
          constructor
          · rintro (hx | hx)
            · exact ⟨Or.inl ⟨by omega, hx.2⟩, hx.1⟩
            · have hx2 : pix.2 ≤ x := hrestge hx
              exact ⟨Or.inr hx, by omega⟩
          · rintro ⟨hx | hx, hax⟩
            · exact Or.inl ⟨by omega, hx.2⟩
            · exact Or.inr hx
    · have haU2 : aU ≤ pix.2 := hhd pix (by simp)
      by_cases h2 : pix.2 ≤ aU
      · have haU : aU = pix.2 := by omega
        have hres : addRemainingPixels fuel aU (pix :: rest) side =
            some (rest.map fun p => verbatimRow p side) := by
          simp [addRemainingPixels, h1, h2]
        rw [hres]
        simp only [Option.elim_some]
        refine ⟨?_, ?_, ?_⟩
        · rw [map_verbatim_apix]
          exact chain_from_WF hW (le_of_eq haU)
        · intro row hrow
          obtain ⟨p, hp, rfl⟩ := List.mem_map.mp hrow
          rw [verbatimRow_apix]
          exact hdWF p hp
        · rw [map_verbatim_apix, cov_cons]
          ext x
          simp only [Set.mem_union, Set.mem_Ico, Set.mem_inter_iff, Set.mem_Ici]
          constructor
          · intro hx
            have hx2 : pix.2 ≤ x := hrestge hx
            exact ⟨Or.inr hx, by omega⟩
          · rintro ⟨hx | hx, hax⟩
            · omega
            · exact hx
      · have haU : aU ≤ pix.1 := by omega
        have hres : addRemainingPixels fuel aU (pix :: rest) side =
            some ((pix :: rest).map fun p => verbatimRow p side) := by
          simp [addRemainingPixels, h1, h2]
        rw [hres]
        simp only [Option.elim_some]
        refine ⟨?_, ?_, ?_⟩
        · rw [map_verbatim_apix]
          apply chain_of_chain' hW.1
          intro p hp
          simp at hp
          subst hp
          exact haU
        · intro row hrow
          obtain ⟨p, hp, rfl⟩ := List.mem_map.mp hrow
          rw [verbatimRow_apix]
          exact hW.2 p hp
        · rw [map_verbatim_apix]
          have hsub : cov (pix :: rest) ⊆ Set.Ici aU := by
            intro x hx
            have := WFIvs_cov_ge_start hW hx
            simp only [Set.mem_Ici] at *
            omega
          ext x
          simp only [Set.mem_inter_iff, Set.mem_Ici]
          constructor
          · intro hx
            exact ⟨hx, hsub hx⟩
          · intro hx
            exact hx.1

/-! ### The merge scan: invariants and coverage -/

theorem mem_SU {incL incR : Bool} {l r : List Iv} {x : ℕ} :
    x ∈ SU incL incR l r ↔
      (incL = true ∧ x ∈ cov l) ∨ (incR = true ∧ x ∈ cov r) := by
  unfold SU
  cases incL <;> cases incR <;> simp

theorem performAlignTrees_exit_left (fuel : ℕ) {B : ℕ} (hB : B ≤ 2 ^ 62)
    (r : List Iv) (incL incR : Bool) (aU : ℕ)
    (hWr : WFIvs B r) (hB3 : ∀ y ∈ r.head?, aU ≤ y.2) :
    (performAlignTrees fuel [] r incL incR aU).elim True fun rows =>
      List.Chain (fun p q : Iv => p.2 ≤ q.1) (aU, aU) (rows.map fun row => row.apix) ∧
      (∀ row ∈ rows, IvOK row.apix ∧ row.apix.2 ≤ B) ∧
      cov (rows.map fun row => row.apix) = SU incL incR [] r ∩ Set.Ici aU := by
  by_cases hc : incR = true ∧ r ≠ []
  · have spec := addRemainingPixels_spec fuel hB aU r false hWr hB3
    cases hm1 : addRemainingPixels fuel aU r false with
    | none => simp [performAlignTrees, hc, hm1]
    | some m1 =>
      rw [hm1] at spec
      simp only [Option.elim_some] at spec
      have hres : performAlignTrees fuel [] r incL incR aU = some (m1 ++ []) := by
        simp [performAlignTrees, hc, hm1]
      rw [hres]
      simp only [Option.elim_some, List.append_nil]
      refine ⟨spec.1, spec.2.1, ?_⟩
      rw [spec.2.2]
      ext x
      simp only [Set.mem_inter_iff, Set.mem_Ici, mem_SU, cov_nil, Set.mem_empty_iff_false,
        and_false, false_or, false_and]
      constructor
      · rintro ⟨hx, hax⟩
        exact ⟨⟨hc.1, hx⟩, hax⟩
      · rintro ⟨⟨_, hx⟩, hax⟩
        exact ⟨hx, hax⟩
  · have hres : performAlignTrees fuel [] r incL incR aU = some [] := by
      simp [performAlignTrees, hc]
    rw [hres]
    simp only [Option.elim_some]
    refine ⟨List.Chain.nil, by simp, ?_⟩
    have hcovr : incR = true → r = [] := by
      intro h
      by_contra hne
      exact hc ⟨h, hne⟩
    ext x
    simp only [List.map_nil, cov_nil, Set.mem_empty_iff_false, false_iff]
    intro hx
    rcases mem_SU.mp hx.1 with ⟨_, hx2⟩ | ⟨hR, hx2⟩
    · rw [cov_nil] at hx2
      exact hx2
    · rw [hcovr hR, cov_nil] at hx2
      exact hx2

theorem performAlignTrees_exit_right (fuel : ℕ) {B : ℕ} (hB : B ≤ 2 ^ 62)
    (l0 : Iv) (ls : List Iv) (incL incR : Bool) (aU : ℕ)
    (hWl : WFIvs B (l0 :: ls)) (hB2 : ∀ x ∈ (l0 :: ls).head?, aU ≤ x.2) :
    (performAlignTrees fuel (l0 :: ls) [] incL incR aU).elim True fun rows =>
      List.Chain (fun p q : Iv => p.2 ≤ q.1) (aU, aU) (rows.map fun row => row.apix) ∧
      (∀ row ∈ rows, IvOK row.apix ∧ row.apix.2 ≤ B) ∧
      cov (rows.map fun row => row.apix) = SU incL incR (l0 :: ls) [] ∩ Set.Ici aU := by
  by_cases hc : incL = true
  · have spec := addRemainingPixels_spec fuel hB aU (l0 :: ls) true hWl hB2
    cases hm2 : addRemainingPixels fuel aU (l0 :: ls) true with
    | none => simp [performAlignTrees, hc, hm2]
    | some m2 =>
      rw [hm2] at spec
      simp only [Option.elim_some] at spec
      have hres : performAlignTrees fuel (l0 :: ls) [] incL incR aU = some ([] ++ m2) := by
        simp [performAlignTrees, hc, hm2]
      rw [hres]
      simp only [Option.elim_some, List.nil_append]
      refine ⟨spec.1, spec.2.1, ?_⟩
      rw [spec.2.2]
      ext x
      simp only [Set.mem_inter_iff, Set.mem_Ici, mem_SU, cov_nil, Set.mem_empty_iff_false,
        and_false, or_false]
      constructor
      · rintro ⟨hx, hax⟩
        exact ⟨⟨hc, hx⟩, hax⟩
      · rintro ⟨⟨_, hx⟩, hax⟩
        exact ⟨hx, hax⟩
  · have hres : performAlignTrees fuel (l0 :: ls) [] incL incR aU = some [] := by
      simp [performAlignTrees, hc]
    rw [hres]
    simp only [Option.elim_some]
    refine ⟨List.Chain.nil, by simp, ?_⟩
    ext x
    simp only [List.map_nil, cov_nil, Set.mem_empty_iff_false, false_iff]
    intro hx
    rcases mem_SU.mp hx.1 with ⟨hL, _⟩ | ⟨_, hx2⟩
    · exact hc hL
    · rw [cov_nil] at hx2
      exact hx2

theorem mem_cov_cons {iv : Iv} {l : List Iv} {x : ℕ} :
    x ∈ cov (iv :: l) ↔ (iv.1 ≤ x ∧ x < iv.2) ∨ x ∈ cov l := by
  rw [cov_cons]
  simp [Set.mem_Ico]

theorem performAlignTrees_spec (fuel : ℕ) {B : ℕ} (hB : B ≤ 2 ^ 62) :
    ∀ (n : ℕ) (l r : List Iv), l.length + r.length ≤ n →
    ∀ (incL incR : Bool) (aU : ℕ),
    WFIvs B l → WFIvs B r →
    (incL = true ∨ incR = true) →
    (∀ x ∈ l.head?, ∀ y ∈ r.head?, aU ≤ max x.1 y.1) →
    (∀ x ∈ l.head?, aU ≤ x.2) →
    (∀ y ∈ r.head?, aU ≤ y.2) →
    (performAlignTrees fuel l r incL incR aU).elim True fun rows =>
      List.Chain (fun p q : Iv => p.2 ≤ q.1) (aU, aU) (rows.map fun row => row.apix) ∧
      (∀ row ∈ rows, IvOK row.apix ∧ row.apix.2 ≤ B) ∧
      cov (rows.map fun row => row.apix) = SU incL incR l r ∩ Set.Ici aU := by
  intro n
  induction n with
  | zero =>
    intro l r hlen incL incR aU hWl hWr hInc hB1 hB2 hB3
    cases l with
    | nil => exact performAlignTrees_exit_left fuel hB r incL incR aU hWr hB3
    | cons l0 ls =>
      cases r with
      | nil => exact performAlignTrees_exit_right fuel hB l0 ls incL incR aU hWl hB2
      | cons r0 rs => simp at hlen
  | succ n ih =>
    intro l r hlen incL incR aU hWl hWr hInc hB1 hB2 hB3
    cases l with
    | nil => exact performAlignTrees_exit_left fuel hB r incL incR aU hWr hB3
    | cons l0 ls =>
      cases r with
      | nil => exact performAlignTrees_exit_right fuel hB l0 ls incL incR aU hWl hB2
      | cons r0 rs =>
        have hl0 : IvOK l0 := (hWl.2 l0 (by simp)).1
        have hl0B : l0.2 ≤ B := (hWl.2 l0 (by simp)).2
        have hr0 : IvOK r0 := (hWr.2 r0 (by simp)).1
        have hr0B : r0.2 ≤ B := (hWr.2 r0 (by simp)).2
        have hWls : WFIvs B ls := WFIvs_tail hWl
        have hWrs : WFIvs B rs := WFIvs_tail hWr
        have hlsge : ∀ p ∈ ls, l0.2 ≤ p.1 := WFIvs_head_le hWl
        have hrsge : ∀ p ∈ rs, r0.2 ≤ p.1 := WFIvs_head_le hWr
        have hlscov : cov ls ⊆ Set.Ici l0.2 := WFIvs_cov_ge hWl
        have hrscov : cov rs ⊆ Set.Ici r0.2 := WFIvs_cov_ge hWr
        have hlcov0 : cov (l0 :: ls) ⊆ Set.Ici l0.1 := WFIvs_cov_ge_start hWl
        have hrcov0 : cov (r0 :: rs) ⊆ Set.Ici r0.1 := WFIvs_cov_ge_start hWr
        have haU1 : aU ≤ max l0.1 r0.1 := hB1 l0 (by simp) r0 (by simp)
        have haU2 : aU ≤ l0.2 := hB2 l0 (by simp)
        have haU3 : aU ≤ r0.2 := hB3 r0 (by simp)
        have hll : l0.1 < l0.2 := hl0.1
        have hrr : r0.1 < r0.2 := hr0.1
        have hlen1 : (l0 :: ls).length + rs.length ≤ n := by
          simp only [List.length_cons] at hlen ⊢
          omega
        have hlen2 : ls.length + (r0 :: rs).length ≤ n := by
          simp only [List.length_cons] at hlen ⊢
          omega
        have hlen3 : ls.length + rs.length ≤ n := by
          simp only [List.length_cons] at hlen
          omega
        have hlsB2 : ∀ c : ℕ, c ≤ l0.2 → ∀ x ∈ ls.head?, c ≤ x.2 := by
          intro c hc x hx
          have hm := List.mem_of_mem_head? hx
          have h1 := hlsge x hm
          have h2 := (hWls.2 x hm).1.1
          omega
        have hrsB3 : ∀ c : ℕ, c ≤ r0.2 → ∀ y ∈ rs.head?, c ≤ y.2 := by
          intro c hc y hy
          have hm := List.mem_of_mem_head? hy
          have h1 := hrsge y hm
          have h2 := (hWrs.2 y hm).1.1
          omega
        by_cases hg1 : l0.1 ≥ r0.2
        · -- left pix ahead of right, no overlap, so move right on
          by_cases hIncR : incR = true
          · by_cases hc1 : aU ≤ r0.1
            · -- no coverage of right pix yet: add whole right pix
              have ihc := ih (l0 :: ls) rs hlen1 incL incR r0.2 hWl hWrs hInc
                (by
                  intro x hx y hy
                  simp at hx
                  subst hx
                  have h3 : r0.2 ≤ l0.1 := hg1
                  exact le_trans h3 (le_max_left _ _))
                (by
                  intro x hx
                  simp at hx
                  subst hx
                  omega)
                (hrsB3 r0.2 (le_refl _))
              have hres : performAlignTrees fuel (l0 :: ls) (r0 :: rs) incL incR aU =
                  Option.map (fun rest => (⟨none, some r0, r0⟩ : MapRow) :: rest)
                    (performAlignTrees fuel (l0 :: ls) rs incL incR r0.2) := by
                simp [performAlignTrees, hg1, hIncR, hc1]
              cases hrec : performAlignTrees fuel (l0 :: ls) rs incL incR r0.2 with
              | none =>
                rw [hres, hrec]
                simp
              | some rest =>
                rw [hrec] at ihc
                rw [hres, hrec]
                simp only [Option.map_some', Option.elim_some] at ihc ⊢
                obtain ⟨ih1, ih2, ih3⟩ := ihc
                refine ⟨?_, ?_, ?_⟩
                · rw [List.map_cons, List.chain_cons]
                  exact ⟨hc1, chainLe_of_le ih1 (le_refl _)⟩
                · intro row hrow
                  rcases List.mem_cons.mp hrow with rfl | hrow'
                  · exact ⟨hr0, hr0B⟩
                  · exact ih2 row hrow'
                · rw [List.map_cons, cov_cons, ih3]
                  ext x
                  simp only [Set.mem_union, Set.mem_Ico, Set.mem_inter_iff, Set.mem_Ici, mem_SU,
                    mem_cov_cons]
                  constructor
                  · rintro (hx | ⟨hSU, hx2⟩)
                    · exact ⟨Or.inr ⟨hIncR, Or.inl hx⟩, by omega⟩
                    · rcases hSU with ⟨hL, hx3⟩ | ⟨hR, hx3⟩
                      · exact ⟨Or.inl ⟨hL, hx3⟩, by omega⟩
                      · exact ⟨Or.inr ⟨hR, Or.inr hx3⟩, by omega⟩
                  · rintro ⟨hSU, hax⟩
                    rcases hSU with ⟨hL, hx3⟩ | ⟨hR, hx3⟩
                    · have hge : l0.1 ≤ x := hlcov0 (mem_cov_cons.mpr hx3)
                      exact Or.inr ⟨Or.inl ⟨hL, hx3⟩, by omega⟩
                    · rcases hx3 with hx3 | hx3
                      · exact Or.inl hx3
                      · have hge : r0.2 ≤ x := hrscov hx3
                        exact Or.inr ⟨Or.inr ⟨hR, hx3⟩, by omega⟩
            · by_cases hc2 : aU < r0.2
              · -- partial coverage of right pix: cover the rest of it
                have hga : 1 ≤ aU := by omega
                have hspec := addPixelsUntil_spec fuel aU r0.2 r0 false hga (le_of_lt hc2)
                  (le_trans hr0B hB)
                cases hgap : addPixelsUntil fuel aU r0.2 r0 false with
                | none =>
                  have hres : performAlignTrees fuel (l0 :: ls) (r0 :: rs) incL incR aU
                      = none := by
                    simp [performAlignTrees, hg1, hIncR, hc1, hc2, hgap]
                  rw [hres]
                  simp
                | some g =>
                  rw [hgap] at hspec
                  simp only [Option.elim_some] at hspec
                  obtain ⟨hc1c, hc2c, _, hc4c, _⟩ := hspec
                  have ihc := ih (l0 :: ls) rs hlen1 incL incR r0.2 hWl hWrs hInc
                    (by
                      intro x hx y hy
                      simp at hx
                      subst hx
                      have h3 : r0.2 ≤ l0.1 := hg1
                      exact le_trans h3 (le_max_left _ _))
                    (by
                      intro x hx
                      simp at hx
                      subst hx
                      omega)
                    (hrsB3 r0.2 (le_refl _))
                  have hres : performAlignTrees fuel (l0 :: ls) (r0 :: rs) incL incR aU =
                      Option.map (fun rest => g ++ rest)
                        (performAlignTrees fuel (l0 :: ls) rs incL incR r0.2) := by
                    simp [performAlignTrees, hg1, hIncR, hc1, hc2, hgap]
                  cases hrec : performAlignTrees fuel (l0 :: ls) rs incL incR r0.2 with
                  | none =>
                    rw [hres, hrec]
                    simp
                  | some rest =>
                    rw [hrec] at ihc
                    rw [hres, hrec]
                    simp only [Option.map_some', Option.elim_some] at ihc ⊢
                    obtain ⟨ih1, ih2, ih3⟩ := ihc
                    refine ⟨?_, ?_, ?_⟩
                    · rw [List.map_append]
                      refine chainLe_append (chainEq_le hc1c) (by omega) ?_ ih1
                      intro p hp
                      obtain ⟨rr, hr, rfl⟩ := List.mem_map.mp hp
                      exact (hc2c rr hr).2.2.1
                    · intro row hrow
                      rcases List.mem_append.mp hrow with hrow' | hrow'
                      · obtain ⟨_, hOK, hle, _⟩ := hc2c row hrow'
                        exact ⟨hOK, le_trans hle hr0B⟩
                      · exact ih2 row hrow'
                    · rw [List.map_append, cov_append, hc4c, ih3]
                      ext x
                      simp only [Set.mem_union, Set.mem_Ico, Set.mem_inter_iff, Set.mem_Ici,
                        mem_SU, mem_cov_cons]
                      constructor
                      · rintro (hx | ⟨hSU, hx2⟩)
                        · exact ⟨Or.inr ⟨hIncR, Or.inl ⟨by omega, hx.2⟩⟩, by omega⟩
                        · rcases hSU with ⟨hL, hx3⟩ | ⟨hR, hx3⟩
                          · exact ⟨Or.inl ⟨hL, hx3⟩, by omega⟩
                          · exact ⟨Or.inr ⟨hR, Or.inr hx3⟩, by omega⟩
                      · rintro ⟨hSU, hax⟩
                        rcases hSU with ⟨hL, hx3⟩ | ⟨hR, hx3⟩
                        · have hge : l0.1 ≤ x := hlcov0 (mem_cov_cons.mpr hx3)
                          exact Or.inr ⟨Or.inl ⟨hL, hx3⟩, by omega⟩
                        · rcases hx3 with hx3 | hx3
                          · rcases Nat.lt_or_ge x aU with hlt | hge2
                            · omega
                            · exact Or.inl ⟨by omega, hx3.2⟩
                          · have hge : r0.2 ≤ x := hrscov hx3
                            exact Or.inr ⟨Or.inr ⟨hR, hx3⟩, by omega⟩
              · -- right pix already fully covered: just advance the cursor
                have haUeq : aU = r0.2 := by omega
                have ihc := ih (l0 :: ls) rs hlen1 incL incR aU hWl hWrs hInc
                  (by
                    intro x hx y hy
                    simp at hx
                    subst hx
                    have h3 : r0.2 ≤ l0.1 := hg1
                    have h4 : aU ≤ l0.1 := by omega
                    exact le_trans h4 (le_max_left _ _))
                  (by
                    intro x hx
                    simp at hx
                    subst hx
                    omega)
                  (hrsB3 aU (le_of_eq haUeq))
                have hres : performAlignTrees fuel (l0 :: ls) (r0 :: rs) incL incR aU =
                    performAlignTrees fuel (l0 :: ls) rs incL incR aU := by
                  simp [performAlignTrees, hg1, hIncR, hc1, hc2]
                rw [hres]
                cases hrec : performAlignTrees fuel (l0 :: ls) rs incL incR aU with
                | none => simp
                | some rest =>
                  rw [hrec] at ihc
                  simp only [Option.elim_some] at ihc ⊢
                  obtain ⟨ih1, ih2, ih3⟩ := ihc
                  refine ⟨ih1, ih2, ?_⟩
                  rw [ih3]
                  ext x
                  simp only [Set.mem_inter_iff, Set.mem_Ici, mem_SU, mem_cov_cons]
                  constructor
                  · rintro ⟨hSU, hax⟩
                    rcases hSU with ⟨hL, hx3⟩ | ⟨hR, hx3⟩
                    · exact ⟨Or.inl ⟨hL, hx3⟩, hax⟩
                    · exact ⟨Or.inr ⟨hR, Or.inr hx3⟩, hax⟩
                  · rintro ⟨hSU, hax⟩
                    rcases hSU with ⟨hL, hx3⟩ | ⟨hR, hx3⟩
                    · exact ⟨Or.inl ⟨hL, hx3⟩, hax⟩
                    · rcases hx3 with hx3 | hx3
                      · omega
                      · exact ⟨Or.inr ⟨hR, hx3⟩, hax⟩
          · -- right side not included: skip the right pix entirely
            have hIncR' : incR = false := by
              cases incR
              · rfl
              · exact absurd rfl hIncR
            have ihc := ih (l0 :: ls) rs hlen1 incL incR aU hWl hWrs hInc
              (by
                intro x hx y hy
                simp at hx
                subst hx
                have hm := List.mem_of_mem_head? hy
                have h1 := hrsge y hm
                rcases Nat.le_total aU l0.1 with h4 | h4
                · exact le_trans h4 (le_max_left _ _)
                · have h5 : aU ≤ y.1 := by omega
                  exact le_trans h5 (le_max_right _ _))
              (by
                intro x hx
                simp at hx
                subst hx
                omega)
              (by
                intro y hy
                have hm := List.mem_of_mem_head? hy
                have h1 := hrsge y hm
                have h2 := (hWrs.2 y hm).1.1
                omega)
            have hres : performAlignTrees fuel (l0 :: ls) (r0 :: rs) incL incR aU =
                performAlignTrees fuel (l0 :: ls) rs incL incR aU := by
              simp [performAlignTrees, hg1, hIncR']
            rw [hres]
            cases hrec : performAlignTrees fuel (l0 :: ls) rs incL incR aU with
            | none => simp
            | some rest =>
              rw [hrec] at ihc
              simp only [Option.elim_some] at ihc ⊢
              obtain ⟨ih1, ih2, ih3⟩ := ihc
              refine ⟨ih1, ih2, ?_⟩
              rw [ih3]
              ext x
              simp only [Set.mem_inter_iff, Set.mem_Ici, mem_SU]
              constructor
              · rintro ⟨hSU, hax⟩
                rcases hSU with ⟨hL, hx3⟩ | ⟨hR, _⟩
                · exact ⟨Or.inl ⟨hL, hx3⟩, hax⟩
                · rw [hIncR'] at hR
                  exact absurd hR (by simp)
              · rintro ⟨hSU, hax⟩
                rcases hSU with ⟨hL, hx3⟩ | ⟨hR, _⟩
                · exact ⟨Or.inl ⟨hL, hx3⟩, hax⟩
                · rw [hIncR'] at hR
                  exact absurd hR (by simp)
        · by_cases hg2 : r0.1 ≥ l0.2
          · -- right pix ahead of left, no overlap, so move left on
            by_cases hIncL : incL = true
            · by_cases hc1 : aU ≤ l0.1
              · -- no coverage of left pix yet: add whole left pix
                have ihc := ih ls (r0 :: rs) hlen2 incL incR l0.2 hWls hWr hInc
                  (by
                    intro x hx y hy
                    simp at hy
                    subst hy
                    have h3 : l0.2 ≤ r0.1 := hg2
                    exact le_trans h3 (le_max_right _ _))
                  (hlsB2 l0.2 (le_refl _))
                  (by
                    intro y hy
                    simp at hy
                    subst hy
                    omega)
                have hres : performAlignTrees fuel (l0 :: ls) (r0 :: rs) incL incR aU =
                    Option.map (fun rest => (⟨some l0, none, l0⟩ : MapRow) :: rest)
                      (performAlignTrees fuel ls (r0 :: rs) incL incR l0.2) := by
                  simp [performAlignTrees, hg1, hg2, hIncL, hc1]
                cases hrec : performAlignTrees fuel ls (r0 :: rs) incL incR l0.2 with
                | none =>
                  rw [hres, hrec]
                  simp
                | some rest =>
                  rw [hrec] at ihc
                  rw [hres, hrec]
                  simp only [Option.map_some', Option.elim_some] at ihc ⊢
                  obtain ⟨ih1, ih2, ih3⟩ := ihc
                  refine ⟨?_, ?_, ?_⟩
                  · rw [List.map_cons, List.chain_cons]
                    exact ⟨hc1, chainLe_of_le ih1 (le_refl _)⟩
                  · intro row hrow
                    rcases List.mem_cons.mp hrow with rfl | hrow'
                    · exact ⟨hl0, hl0B⟩
                    · exact ih2 row hrow'
                  · rw [List.map_cons, cov_cons, ih3]
                    ext x
                    simp only [Set.mem_union, Set.mem_Ico, Set.mem_inter_iff, Set.mem_Ici, mem_SU,
                      mem_cov_cons]
                    constructor
                    · rintro (hx | ⟨hSU, hx2⟩)
                      · exact ⟨Or.inl ⟨hIncL, Or.inl hx⟩, by omega⟩
                      · rcases hSU with ⟨hL, hx3⟩ | ⟨hR, hx3⟩
                        · exact ⟨Or.inl ⟨hL, Or.inr hx3⟩, by omega⟩
                        · exact ⟨Or.inr ⟨hR, hx3⟩, by omega⟩
                    · rintro ⟨hSU, hax⟩
                      rcases hSU with ⟨hL, hx3⟩ | ⟨hR, hx3⟩
                      · rcases hx3 with hx3 | hx3
                        · exact Or.inl hx3
                        · have hge : l0.2 ≤ x := hlscov hx3
                          exact Or.inr ⟨Or.inl ⟨hL, hx3⟩, by omega⟩
                      · have hge : r0.1 ≤ x := hrcov0 (mem_cov_cons.mpr hx3)
                        exact Or.inr ⟨Or.inr ⟨hR, hx3⟩, by omega⟩
              · by_cases hc2 : aU < l0.2
                · -- partial coverage of left pix: cover the rest of it
                  have hga : 1 ≤ aU := by omega
                  have hspec := addPixelsUntil_spec fuel aU l0.2 l0 true hga (le_of_lt hc2)
                    (le_trans hl0B hB)
                  cases hgap : addPixelsUntil fuel aU l0.2 l0 true with
                  | none =>
                    have hres : performAlignTrees fuel (l0 :: ls) (r0 :: rs) incL incR aU
                        = none := by
                      simp [performAlignTrees, hg1, hg2, hIncL, hc1, hc2, hgap]
                    rw [hres]
                    simp
                  | some g =>
                    rw [hgap] at hspec
                    simp only [Option.elim_some] at hspec
                    obtain ⟨hc1c, hc2c, _, hc4c, _⟩ := hspec
                    have ihc := ih ls (r0 :: rs) hlen2 incL incR l0.2 hWls hWr hInc
                      (by
                        intro x hx y hy
                        simp at hy
                        subst hy
                        have h3 : l0.2 ≤ r0.1 := hg2
                        exact le_trans h3 (le_max_right _ _))
                      (hlsB2 l0.2 (le_refl _))
                      (by
                        intro y hy
                        simp at hy
                        subst hy
                        omega)
                    have hres : performAlignTrees fuel (l0 :: ls) (r0 :: rs) incL incR aU =
                        Option.map (fun rest => g ++ rest)
                          (performAlignTrees fuel ls (r0 :: rs) incL incR l0.2) := by
                      simp [performAlignTrees, hg1, hg2, hIncL, hc1, hc2, hgap]
                    cases hrec : performAlignTrees fuel ls (r0 :: rs) incL incR l0.2 with
                    | none =>
                      rw [hres, hrec]
                      simp
                    | some rest =>
                      rw [hrec] at ihc
                      rw [hres, hrec]
                      simp only [Option.map_some', Option.elim_some] at ihc ⊢
                      obtain ⟨ih1, ih2, ih3⟩ := ihc
                      refine ⟨?_, ?_, ?_⟩
                      · rw [List.map_append]
                        refine chainLe_append (chainEq_le hc1c) (by omega) ?_ ih1
                        intro p hp
                        obtain ⟨rr, hr, rfl⟩ := List.mem_map.mp hp
                        exact (hc2c rr hr).2.2.1
                      · intro row hrow
                        rcases List.mem_append.mp hrow with hrow' | hrow'
                        · obtain ⟨_, hOK, hle, _⟩ := hc2c row hrow'
                          exact ⟨hOK, le_trans hle hl0B⟩
                        · exact ih2 row hrow'
                      · rw [List.map_append, cov_append, hc4c, ih3]
                        ext x
                        simp only [Set.mem_union, Set.mem_Ico, Set.mem_inter_iff, Set.mem_Ici,
                          mem_SU, mem_cov_cons]
                        constructor
                        · rintro (hx | ⟨hSU, hx2⟩)
                          · exact ⟨Or.inl ⟨hIncL, Or.inl ⟨by omega, hx.2⟩⟩, by omega⟩
                          · rcases hSU with ⟨hL, hx3⟩ | ⟨hR, hx3⟩
                            · exact ⟨Or.inl ⟨hL, Or.inr hx3⟩, by omega⟩
                            · exact ⟨Or.inr ⟨hR, hx3⟩, by omega⟩
                        · rintro ⟨hSU, hax⟩
                          rcases hSU with ⟨hL, hx3⟩ | ⟨hR, hx3⟩
                          · rcases hx3 with hx3 | hx3
                            · rcases Nat.lt_or_ge x aU with hlt | hge2
                              · omega
                              · exact Or.inl ⟨by omega, hx3.2⟩
                            · have hge : l0.2 ≤ x := hlscov hx3
                              exact Or.inr ⟨Or.inl ⟨hL, hx3⟩, by omega⟩
                          · have hge : r0.1 ≤ x := hrcov0 (mem_cov_cons.mpr hx3)
                            exact Or.inr ⟨Or.inr ⟨hR, hx3⟩, by omega⟩
                · -- left pix already fully covered: just advance the cursor
                  have haUeq : aU = l0.2 := by omega
                  have ihc := ih ls (r0 :: rs) hlen2 incL incR aU hWls hWr hInc
                    (by
                      intro x hx y hy
                      simp at hy
                      subst hy
                      have h3 : l0.2 ≤ r0.1 := hg2
                      have h4 : aU ≤ r0.1 := by omega
                      exact le_trans h4 (le_max_right _ _))
                    (hlsB2 aU (le_of_eq haUeq))
                    (by
                      intro y hy
                      simp at hy
                      subst hy
                      omega)
                  have hres : performAlignTrees fuel (l0 :: ls) (r0 :: rs) incL incR aU =
                      performAlignTrees fuel ls (r0 :: rs) incL incR aU := by
                    simp [performAlignTrees, hg1, hg2, hIncL, hc1, hc2]
                  rw [hres]
                  cases hrec : performAlignTrees fuel ls (r0 :: rs) incL incR aU with
                  | none => simp
                  | some rest =>
                    rw [hrec] at ihc
                    simp only [Option.elim_some] at ihc ⊢
                    obtain ⟨ih1, ih2, ih3⟩ := ihc
                    refine ⟨ih1, ih2, ?_⟩
                    rw [ih3]
                    ext x
                    simp only [Set.mem_inter_iff, Set.mem_Ici, mem_SU, mem_cov_cons]
                    constructor
                    · rintro ⟨hSU, hax⟩
                      rcases hSU with ⟨hL, hx3⟩ | ⟨hR, hx3⟩
                      · exact ⟨Or.inl ⟨hL, Or.inr hx3⟩, hax⟩
                      · exact ⟨Or.inr ⟨hR, hx3⟩, hax⟩
                    · rintro ⟨hSU, hax⟩
                      rcases hSU with ⟨hL, hx3⟩ | ⟨hR, hx3⟩
                      · rcases hx3 with hx3 | hx3
                        · omega
                        · exact ⟨Or.inl ⟨hL, hx3⟩, hax⟩
                      · exact ⟨Or.inr ⟨hR, hx3⟩, hax⟩
            · -- left side not included: skip the left pix entirely
              have hIncL' : incL = false := by
                cases incL
                · rfl
                · exact absurd rfl hIncL
              have ihc := ih ls (r0 :: rs) hlen2 incL incR aU hWls hWr hInc
                (by
                  intro x hx y hy
                  simp at hy
                  subst hy
                  have hm := List.mem_of_mem_head? hx
                  have h1 := hlsge x hm
                  rcases Nat.le_total aU r0.1 with h4 | h4
                  · exact le_trans h4 (le_max_right _ _)
                  · have h5 : aU ≤ x.1 := by omega
                    exact le_trans h5 (le_max_left _ _))
                (by
                  intro x hx
                  have hm := List.mem_of_mem_head? hx
                  have h1 := hlsge x hm
                  have h2 := (hWls.2 x hm).1.1
                  omega)
                (by
                  intro y hy
                  simp at hy
                  subst hy
                  omega)
              have hres : performAlignTrees fuel (l0 :: ls) (r0 :: rs) incL incR aU =
                  performAlignTrees fuel ls (r0 :: rs) incL incR aU := by
                simp [performAlignTrees, hg1, hg2, hIncL']
              rw [hres]
              cases hrec : performAlignTrees fuel ls (r0 :: rs) incL incR aU with
              | none => simp
              | some rest =>
                rw [hrec] at ihc
                simp only [Option.elim_some] at ihc ⊢
                obtain ⟨ih1, ih2, ih3⟩ := ihc
                refine ⟨ih1, ih2, ?_⟩
                rw [ih3]
                ext x
                simp only [Set.mem_inter_iff, Set.mem_Ici, mem_SU]
                constructor
                · rintro ⟨hSU, hax⟩
                  rcases hSU with ⟨hL, _⟩ | ⟨hR, hx3⟩
                  · rw [hIncL'] at hL
                    exact absurd hL (by simp)
                  · exact ⟨Or.inr ⟨hR, hx3⟩, hax⟩
                · rintro ⟨hSU, hax⟩
                  rcases hSU with ⟨hL, _⟩ | ⟨hR, hx3⟩
                  · rw [hIncL'] at hL
                    exact absurd hL (by simp)
                  · exact ⟨Or.inr ⟨hR, hx3⟩, hax⟩
          · -- the two pixels overlap
            have hov1 : l0.1 < r0.2 := by omega
            have hov2 : r0.1 < l0.2 := by omega
            by_cases hg3 : l0.2 - l0.1 = r0.2 - r0.1
            · -- overlapping & same size => same pixel so add and move both on
              have heq : l0 = r0 := p4_eq_of_overlap hl0 hr0 hg3 hov1 hov2
              have he1 : l0.1 = r0.1 := by rw [heq]
              have he2 : l0.2 = r0.2 := by rw [heq]
              have haUl : aU ≤ l0.1 := by omega
              have ihc := ih ls rs hlen3 incL incR l0.2 hWls hWrs hInc
                (by
                  intro x hx y hy
                  have hm := List.mem_of_mem_head? hx
                  have h1 := hlsge x hm
                  exact le_trans h1 (le_max_left _ _))
                (hlsB2 l0.2 (le_refl _))
                (hrsB3 l0.2 (le_of_eq he2))
              have hres : performAlignTrees fuel (l0 :: ls) (r0 :: rs) incL incR aU =
                  Option.map (fun rest => (⟨some l0, some r0, l0⟩ : MapRow) :: rest)
                    (performAlignTrees fuel ls rs incL incR l0.2) := by
                simp [performAlignTrees, hg1, hg2, hg3]
              cases hrec : performAlignTrees fuel ls rs incL incR l0.2 with
              | none =>
                rw [hres, hrec]
                simp
              | some rest =>
                rw [hrec] at ihc
                rw [hres, hrec]
                simp only [Option.map_some', Option.elim_some] at ihc ⊢
                obtain ⟨ih1, ih2, ih3⟩ := ihc
                refine ⟨?_, ?_, ?_⟩
                · rw [List.map_cons, List.chain_cons]
                  exact ⟨haUl, chainLe_of_le ih1 (le_refl _)⟩
                · intro row hrow
                  rcases List.mem_cons.mp hrow with rfl | hrow'
                  · exact ⟨hl0, hl0B⟩
                  · exact ih2 row hrow'
                · rw [List.map_cons, cov_cons, ih3]
                  ext x
                  simp only [Set.mem_union, Set.mem_Ico, Set.mem_inter_iff, Set.mem_Ici, mem_SU,
                    mem_cov_cons]
                  constructor
                  · rintro (hx | ⟨hSU, hx2⟩)
                    · rcases hInc with hL | hR
                      · exact ⟨Or.inl ⟨hL, Or.inl hx⟩, by omega⟩
                      · exact ⟨Or.inr ⟨hR, Or.inl ⟨by omega, by omega⟩⟩, by omega⟩
                    · rcases hSU with ⟨hL, hx3⟩ | ⟨hR, hx3⟩
                      · exact ⟨Or.inl ⟨hL, Or.inr hx3⟩, by omega⟩
                      · exact ⟨Or.inr ⟨hR, Or.inr hx3⟩, by omega⟩
                  · rintro ⟨hSU, hax⟩
                    rcases hSU with ⟨hL, hx3⟩ | ⟨hR, hx3⟩
                    · rcases hx3 with hx3 | hx3
                      · exact Or.inl hx3
                      · have hge : l0.2 ≤ x := hlscov hx3
                        exact Or.inr ⟨Or.inl ⟨hL, hx3⟩, by omega⟩
                    · rcases hx3 with hx3 | hx3
                      · exact Or.inl ⟨by omega, by omega⟩
                      · have hge : r0.2 ≤ x := hrscov hx3
                        exact Or.inr ⟨Or.inr ⟨hR, hx3⟩, by omega⟩
            · by_cases hg4 : l0.2 - l0.1 < r0.2 - r0.1
              · -- overlapping and left smaller so add left and move left on
                have hsub := p4_subset_of_overlap hl0 hr0 (le_of_lt hg4) hov1 hov2
                have hsub1 : r0.1 ≤ l0.1 := hsub.1
                have hsub2 : l0.2 ≤ r0.2 := hsub.2
                have haUl : aU ≤ l0.1 := by omega
                have ihc := ih ls (r0 :: rs) hlen2 incL incR l0.2 hWls hWr hInc
                  (by
                    intro x hx y hy
                    have hm := List.mem_of_mem_head? hx
                    have h1 := hlsge x hm
                    exact le_trans h1 (le_max_left _ _))
                  (hlsB2 l0.2 (le_refl _))
                  (by
                    intro y hy
                    simp at hy
                    subst hy
                    omega)
                by_cases hfill : incR = true ∧ r0.1 < l0.1 ∧ aU < l0.1
                · by_cases hf0 : max aU r0.1 = 0
                  · have hz : addPixelsUntil fuel (max aU r0.1) l0.1 r0 false = none := by
                      rw [hf0]
                      exact addPixelsUntil_zero_from fuel l0.1 r0 false (by omega)
                    have hres : performAlignTrees fuel (l0 :: ls) (r0 :: rs) incL incR aU
                        = none := by
                      simp [performAlignTrees, hg1, hg2, hg3, hg4, hfill, hz]
                    rw [hres]
                    simp
                  · have hf1 : 1 ≤ max aU r0.1 := by omega
                    have hfl : max aU r0.1 < l0.1 := by omega
                    have hspec := addPixelsUntil_spec fuel (max aU r0.1) l0.1 r0 false hf1
                      (le_of_lt hfl) (by omega)
                    cases hgap : addPixelsUntil fuel (max aU r0.1) l0.1 r0 false with
                    | none =>
                      have hres : performAlignTrees fuel (l0 :: ls) (r0 :: rs) incL incR aU
                          = none := by
                        simp [performAlignTrees, hg1, hg2, hg3, hg4, hfill, hgap]
                      rw [hres]
                      simp
                    | some g =>
                      rw [hgap] at hspec
                      simp only [Option.elim_some] at hspec
                      obtain ⟨hc1c, hc2c, _, hc4c, _⟩ := hspec
                      have hres : performAlignTrees fuel (l0 :: ls) (r0 :: rs) incL incR aU =
                          Option.map
                            (fun rest => g ++ (⟨some l0, some r0, l0⟩ : MapRow) :: rest)
                            (performAlignTrees fuel ls (r0 :: rs) incL incR l0.2) := by
                        simp [performAlignTrees, hg1, hg2, hg3, hg4, hfill, hgap]
                      cases hrec : performAlignTrees fuel ls (r0 :: rs) incL incR l0.2 with
                      | none =>
                        rw [hres, hrec]
                        simp
                      | some rest =>
                        rw [hrec] at ihc
                        rw [hres, hrec]
                        simp only [Option.map_some', Option.elim_some] at ihc ⊢
                        obtain ⟨ih1, ih2, ih3⟩ := ihc
                        refine ⟨?_, ?_, ?_⟩
                        · rw [List.map_append, List.map_cons]
                          refine chainLe_append
                            (chainLe_of_le (chainEq_le hc1c) (le_max_left _ _))
                            haUl ?_ ?_
                          · intro p hp
                            obtain ⟨rr, hr, rfl⟩ := List.mem_map.mp hp
                            exact (hc2c rr hr).2.2.1
                          · rw [List.chain_cons]
                            exact ⟨le_refl _, chainLe_of_le ih1 (le_refl _)⟩
                        · intro row hrow
                          rcases List.mem_append.mp hrow with hrow' | hrow'
                          · obtain ⟨_, hOK, hle, _⟩ := hc2c row hrow'
                            exact ⟨hOK, by omega⟩
                          · rcases List.mem_cons.mp hrow' with rfl | hrow''
                            · exact ⟨hl0, hl0B⟩
                            · exact ih2 row hrow''
                        · rw [List.map_append, List.map_cons, cov_append, cov_cons, hc4c, ih3]
                          ext x
                          simp only [Set.mem_union, Set.mem_Ico, Set.mem_inter_iff, Set.mem_Ici,
                            mem_SU, mem_cov_cons]
                          constructor
                          · rintro (hx | hx | ⟨hSU, hx2⟩)
                            · exact ⟨Or.inr ⟨hfill.1, Or.inl ⟨by omega, by omega⟩⟩, by omega⟩
                            · rcases hInc with hL | hR
                              · exact ⟨Or.inl ⟨hL, Or.inl hx⟩, by omega⟩
                              · exact ⟨Or.inr ⟨hR, Or.inl ⟨by omega, by omega⟩⟩, by omega⟩
                            · rcases hSU with ⟨hL, hx3⟩ | ⟨hR, hx3⟩
                              · exact ⟨Or.inl ⟨hL, Or.inr hx3⟩, by omega⟩
                              · exact ⟨Or.inr ⟨hR, hx3⟩, by omega⟩
                          · rintro ⟨hSU, hax⟩
                            rcases hSU with ⟨hL, hx3⟩ | ⟨hR, hx3⟩
                            · rcases hx3 with hx3 | hx3
                              · exact Or.inr (Or.inl hx3)
                              · have hge : l0.2 ≤ x := hlscov hx3
                                exact Or.inr (Or.inr ⟨Or.inl ⟨hL, hx3⟩, by omega⟩)
                            · rcases hx3 with hx3 | hx3
                              · rcases Nat.lt_or_ge x l0.1 with hlt | hge2
                                · exact Or.inl ⟨by omega, hlt⟩
                                · rcases Nat.lt_or_ge x l0.2 with hlt2 | hge3
                                  · exact Or.inr (Or.inl ⟨hge2, hlt2⟩)
                                  · exact Or.inr (Or.inr ⟨Or.inr ⟨hR, Or.inl hx3⟩, hge3⟩)
                              · have hge : r0.2 ≤ x := hrscov hx3
                                exact Or.inr (Or.inr ⟨Or.inr ⟨hR, Or.inr hx3⟩, by omega⟩)
                · -- no gap to fill before the left pix
                  have hnofill : incR = true → r0.1 < l0.1 → l0.1 ≤ aU := by
                    intro h1 h2
                    by_contra h3
                    push_neg at h3
                    exact hfill ⟨h1, h2, h3⟩
                  have hres : performAlignTrees fuel (l0 :: ls) (r0 :: rs) incL incR aU =
                      Option.map (fun rest => (⟨some l0, some r0, l0⟩ : MapRow) :: rest)
                        (performAlignTrees fuel ls (r0 :: rs) incL incR l0.2) := by
                    simp [performAlignTrees, hg1, hg2, hg3, hg4, hfill]
                  cases hrec : performAlignTrees fuel ls (r0 :: rs) incL incR l0.2 with
                  | none =>
                    rw [hres, hrec]
                    simp
                  | some rest =>
                    rw [hrec] at ihc
                    rw [hres, hrec]
                    simp only [Option.map_some', Option.elim_some] at ihc ⊢
                    obtain ⟨ih1, ih2, ih3⟩ := ihc
                    refine ⟨?_, ?_, ?_⟩
                    · rw [List.map_cons, List.chain_cons]
                      exact ⟨haUl, chainLe_of_le ih1 (le_refl _)⟩
                    · intro row hrow
                      rcases List.mem_cons.mp hrow with rfl | hrow'
                      · exact ⟨hl0, hl0B⟩
                      · exact ih2 row hrow'
                    · rw [List.map_cons, cov_cons, ih3]
                      ext x
                      simp only [Set.mem_union, Set.mem_Ico, Set.mem_inter_iff, Set.mem_Ici,
                        mem_SU, mem_cov_cons]
                      constructor
                      · rintro (hx | ⟨hSU, hx2⟩)
                        · rcases hInc with hL | hR
                          · exact ⟨Or.inl ⟨hL, Or.inl hx⟩, by omega⟩
                          · exact ⟨Or.inr ⟨hR, Or.inl ⟨by omega, by omega⟩⟩, by omega⟩
                        · rcases hSU with ⟨hL, hx3⟩ | ⟨hR, hx3⟩
                          · exact ⟨Or.inl ⟨hL, Or.inr hx3⟩, by omega⟩
                          · exact ⟨Or.inr ⟨hR, hx3⟩, by omega⟩
                      · rintro ⟨hSU, hax⟩
                        rcases hSU with ⟨hL, hx3⟩ | ⟨hR, hx3⟩
                        · rcases hx3 with hx3 | hx3
                          · exact Or.inl hx3
                          · have hge : l0.2 ≤ x := hlscov hx3
                            exact Or.inr ⟨Or.inl ⟨hL, hx3⟩, by omega⟩
                        · rcases hx3 with hx3 | hx3
                          · have hxl : l0.1 ≤ x := by
                              rcases Nat.lt_or_ge r0.1 l0.1 with h4 | h4
                              · have h5 := hnofill hR h4
                                omega
                              · omega
                            rcases Nat.lt_or_ge x l0.2 with hlt2 | hge3
                            · exact Or.inl ⟨hxl, hlt2⟩
                            · exact Or.inr ⟨Or.inr ⟨hR, Or.inl hx3⟩, hge3⟩
                          · have hge : r0.2 ≤ x := hrscov hx3
                            exact Or.inr ⟨Or.inr ⟨hR, Or.inr hx3⟩, by omega⟩
              · -- overlapping and right smaller so add right and move right on
                have hg5 : r0.2 - r0.1 < l0.2 - l0.1 := by omega
                have hsub := p4_subset_of_overlap hr0 hl0 (le_of_lt hg5) hov2 hov1
                have hsub1 : l0.1 ≤ r0.1 := hsub.1
                have hsub2 : r0.2 ≤ l0.2 := hsub.2
                have haUr : aU ≤ r0.1 := by omega
                have ihc := ih (l0 :: ls) rs hlen1 incL incR r0.2 hWl hWrs hInc
                  (by
                    intro x hx y hy
                    have hm := List.mem_of_mem_head? hy
                    have h1 := hrsge y hm
                    exact le_trans h1 (le_max_right _ _))
                  (by
                    intro x hx
                    simp at hx
                    subst hx
                    omega)
                  (hrsB3 r0.2 (le_refl _))
                by_cases hfill : incL = true ∧ l0.1 < r0.1 ∧ aU < r0.1
                · by_cases hf0 : max aU l0.1 = 0
                  · have hz : addPixelsUntil fuel (max aU l0.1) r0.1 l0 true = none := by
                      rw [hf0]
                      exact addPixelsUntil_zero_from fuel r0.1 l0 true (by omega)
                    have hres : performAlignTrees fuel (l0 :: ls) (r0 :: rs) incL incR aU
                        = none := by
                      simp [performAlignTrees, hg1, hg2, hg3, hg4, hfill, hz]
                    rw [hres]
                    simp
                  · have hf1 : 1 ≤ max aU l0.1 := by omega
                    have hfl : max aU l0.1 < r0.1 := by omega
                    have hspec := addPixelsUntil_spec fuel (max aU l0.1) r0.1 l0 true hf1
                      (le_of_lt hfl) (by omega)
                    cases hgap : addPixelsUntil fuel (max aU l0.1) r0.1 l0 true with
                    | none =>
                      have hres : performAlignTrees fuel (l0 :: ls) (r0 :: rs) incL incR aU
                          = none := by
                        simp [performAlignTrees, hg1, hg2, hg3, hg4, hfill, hgap]
                      rw [hres]
                      simp
                    | some g =>
                      rw [hgap] at hspec
                      simp only [Option.elim_some] at hspec
                      obtain ⟨hc1c, hc2c, _, hc4c, _⟩ := hspec
                      have hres : performAlignTrees fuel (l0 :: ls) (r0 :: rs) incL incR aU =
                          Option.map
                            (fun rest => g ++ (⟨some l0, some r0, r0⟩ : MapRow) :: rest)
                            (performAlignTrees fuel (l0 :: ls) rs incL incR r0.2) := by
                        simp [performAlignTrees, hg1, hg2, hg3, hg4, hfill, hgap]
                      cases hrec : performAlignTrees fuel (l0 :: ls) rs incL incR r0.2 with
                      | none =>
                        rw [hres, hrec]
                        simp
                      | some rest =>
                        rw [hrec] at ihc
                        rw [hres, hrec]
                        simp only [Option.map_some', Option.elim_some] at ihc ⊢
                        obtain ⟨ih1, ih2, ih3⟩ := ihc
                        refine ⟨?_, ?_, ?_⟩
                        · rw [List.map_append, List.map_cons]
                          refine chainLe_append
                            (chainLe_of_le (chainEq_le hc1c) (le_max_left _ _))
                            haUr ?_ ?_
                          · intro p hp
                            obtain ⟨rr, hr, rfl⟩ := List.mem_map.mp hp
                            exact (hc2c rr hr).2.2.1
                          · rw [List.chain_cons]
                            exact ⟨le_refl _, chainLe_of_le ih1 (le_refl _)⟩
                        · intro row hrow
                          rcases List.mem_append.mp hrow with hrow' | hrow'
                          · obtain ⟨_, hOK, hle, _⟩ := hc2c row hrow'
                            exact ⟨hOK, by omega⟩
                          · rcases List.mem_cons.mp hrow' with rfl | hrow''
                            · exact ⟨hr0, hr0B⟩
                            · exact ih2 row hrow''
                        · rw [List.map_append, List.map_cons, cov_append, cov_cons, hc4c, ih3]
                          ext x
                          simp only [Set.mem_union, Set.mem_Ico, Set.mem_inter_iff, Set.mem_Ici,
                            mem_SU, mem_cov_cons]
                          constructor
                          · rintro (hx | hx | ⟨hSU, hx2⟩)
                            · exact ⟨Or.inl ⟨hfill.1, Or.inl ⟨by omega, by omega⟩⟩, by omega⟩
                            · rcases hInc with hL | hR
                              · exact ⟨Or.inl ⟨hL, Or.inl ⟨by omega, by omega⟩⟩, by omega⟩
                              · exact ⟨Or.inr ⟨hR, Or.inl hx⟩, by omega⟩
                            · rcases hSU with ⟨hL, hx3⟩ | ⟨hR, hx3⟩
                              · exact ⟨Or.inl ⟨hL, hx3⟩, by omega⟩
                              · exact ⟨Or.inr ⟨hR, Or.inr hx3⟩, by omega⟩
                          · rintro ⟨hSU, hax⟩
                            rcases hSU with ⟨hL, hx3⟩ | ⟨hR, hx3⟩
                            · rcases hx3 with hx3 | hx3
                              · rcases Nat.lt_or_ge x r0.1 with hlt | hge2
                                · exact Or.inl ⟨by omega, hlt⟩
                                · rcases Nat.lt_or_ge x r0.2 with hlt2 | hge3
                                  · exact Or.inr (Or.inl ⟨hge2, hlt2⟩)
                                  · exact Or.inr (Or.inr ⟨Or.inl ⟨hL, Or.inl hx3⟩, hge3⟩)
                              · have hge : l0.2 ≤ x := hlscov hx3
                                exact Or.inr (Or.inr ⟨Or.inl ⟨hL, Or.inr hx3⟩, by omega⟩)
                            · rcases hx3 with hx3 | hx3
                              · exact Or.inr (Or.inl hx3)
                              · have hge : r0.2 ≤ x := hrscov hx3
                                exact Or.inr (Or.inr ⟨Or.inr ⟨hR, hx3⟩, by omega⟩)
                · -- no gap to fill before the right pix
                  have hnofill : incL = true → l0.1 < r0.1 → r0.1 ≤ aU := by
                    intro h1 h2
                    by_contra h3
                    push_neg at h3
                    exact hfill ⟨h1, h2, h3⟩
                  have hres : performAlignTrees fuel (l0 :: ls) (r0 :: rs) incL incR aU =
                      Option.map (fun rest => (⟨some l0, some r0, r0⟩ : MapRow) :: rest)
                        (performAlignTrees fuel (l0 :: ls) rs incL incR r0.2) := by
                    simp [performAlignTrees, hg1, hg2, hg3, hg4, hfill]
                  cases hrec : performAlignTrees fuel (l0 :: ls) rs incL incR r0.2 with
                  | none =>
                    rw [hres, hrec]
                    simp
                  | some rest =>
                    rw [hrec] at ihc
                    rw [hres, hrec]
                    simp only [Option.map_some', Option.elim_some] at ihc ⊢
                    obtain ⟨ih1, ih2, ih3⟩ := ihc
                    refine ⟨?_, ?_, ?_⟩
                    · rw [List.map_cons, List.chain_cons]
                      exact ⟨haUr, chainLe_of_le ih1 (le_refl _)⟩
                    · intro row hrow
                      rcases List.mem_cons.mp hrow with rfl | hrow'
                      · exact ⟨hr0, hr0B⟩
                      · exact ih2 row hrow'
                    · rw [List.map_cons, cov_cons, ih3]
                      ext x
                      simp only [Set.mem_union, Set.mem_Ico, Set.mem_inter_iff, Set.mem_Ici,
                        mem_SU, mem_cov_cons]
                      constructor
                      · rintro (hx | ⟨hSU, hx2⟩)
                        · rcases hInc with hL | hR
                          · exact ⟨Or.inl ⟨hL, Or.inl ⟨by omega, by omega⟩⟩, by omega⟩
                          · exact ⟨Or.inr ⟨hR, Or.inl hx⟩, by omega⟩
                        · rcases hSU with ⟨hL, hx3⟩ | ⟨hR, hx3⟩
                          · exact ⟨Or.inl ⟨hL, hx3⟩, by omega⟩
                          · exact ⟨Or.inr ⟨hR, Or.inr hx3⟩, by omega⟩
                      · rintro ⟨hSU, hax⟩
                        rcases hSU with ⟨hL, hx3⟩ | ⟨hR, hx3⟩
                        · rcases hx3 with hx3 | hx3
                          · have hxr : r0.1 ≤ x := by
                              rcases Nat.lt_or_ge l0.1 r0.1 with h4 | h4
                              · have h5 := hnofill hL h4
                                omega
                              · omega
                            rcases Nat.lt_or_ge x r0.2 with hlt2 | hge3
                            · exact Or.inl ⟨hxr, hlt2⟩
                            · exact Or.inr ⟨Or.inl ⟨hL, Or.inl hx3⟩, hge3⟩
                          · have hge : l0.2 ≤ x := hlscov hx3
                            exact Or.inr ⟨Or.inl ⟨hL, Or.inr hx3⟩, by omega⟩
                        · rcases hx3 with hx3 | hx3
                          · exact Or.inl hx3
                          · have hge : r0.2 ≤ x := hrscov hx3
                            exact Or.inr ⟨Or.inr ⟨hR, hx3⟩, by omega⟩


/-! ### The inner merge scan -/

theorem performInnerAlignTrees_sorted {B : ℕ} :
    ∀ (n : ℕ) (l r : List Iv), l.length + r.length ≤ n →
    ∀ e : ℕ, WFIvs B l → WFIvs B r →
    ((∀ x ∈ l.head?, e ≤ x.1) ∨ (∀ y ∈ r.head?, e ≤ y.1)) →
    List.Chain (fun p q : Iv => p.2 ≤ q.1) (e, e)
      ((performInnerAlignTrees l r).map fun row => row.apix) ∧
    ∀ row ∈ performInnerAlignTrees l r, IvOK row.apix := by
  intro n
  induction n with
  | zero =>
    intro l r hlen e hWl hWr hd
    cases l with
    | nil => simp [performInnerAlignTrees]
    | cons l0 ls =>
      cases r with
      | nil => simp [performInnerAlignTrees]
      | cons r0 rs => simp at hlen
  | succ n ih =>
    intro l r hlen e hWl hWr hd
    cases l with
    | nil => simp [performInnerAlignTrees]
    | cons l0 ls =>
      cases r with
      | nil => simp [performInnerAlignTrees]
      | cons r0 rs =>
        have hl0 : IvOK l0 := (hWl.2 l0 (by simp)).1
        have hr0 : IvOK r0 := (hWr.2 r0 (by simp)).1
        have hWls : WFIvs B ls := WFIvs_tail hWl
        have hWrs : WFIvs B rs := WFIvs_tail hWr
        have hlsge : ∀ p ∈ ls, l0.2 ≤ p.1 := WFIvs_head_le hWl
        have hrsge : ∀ p ∈ rs, r0.2 ≤ p.1 := WFIvs_head_le hWr
        have hll : l0.1 < l0.2 := hl0.1
        have hrr : r0.1 < r0.2 := hr0.1
        have hlen1 : (l0 :: ls).length + rs.length ≤ n := by
          simp only [List.length_cons] at hlen ⊢
          omega
        have hlen2 : ls.length + (r0 :: rs).length ≤ n := by
          simp only [List.length_cons] at hlen ⊢
          omega
        have hlen3 : ls.length + rs.length ≤ n := by
          simp only [List.length_cons] at hlen
          omega
        by_cases hg1 : l0.1 ≥ r0.2
        · have hres : performInnerAlignTrees (l0 :: ls) (r0 :: rs) =
              performInnerAlignTrees (l0 :: ls) rs := by
            simp [performInnerAlignTrees, hg1]
          rw [hres]
          refine ih (l0 :: ls) rs hlen1 e hWl hWrs ?_
          rcases hd with hdl | hdr
          · exact Or.inl hdl
          · refine Or.inr ?_
            intro y hy
            have hm := List.mem_of_mem_head? hy
            have h1 := hrsge y hm
            have h2 := hdr r0 (by simp)
            omega
        · by_cases hg2 : r0.1 ≥ l0.2
          · have hres : performInnerAlignTrees (l0 :: ls) (r0 :: rs) =
                performInnerAlignTrees ls (r0 :: rs) := by
              simp [performInnerAlignTrees, hg1, hg2]
            rw [hres]
            refine ih ls (r0 :: rs) hlen2 e hWls hWr ?_
            rcases hd with hdl | hdr
            · refine Or.inl ?_
              intro x hx
              have hm := List.mem_of_mem_head? hx
              have h1 := hlsge x hm
              have h2 := hdl l0 (by simp)
              omega
            · exact Or.inr hdr
          · have hov1 : l0.1 < r0.2 := by omega
            have hov2 : r0.1 < l0.2 := by omega
            have hde : e ≤ l0.1 ∨ e ≤ r0.1 := by
              rcases hd with hdl | hdr
              · exact Or.inl (hdl l0 (by simp))
              · exact Or.inr (hdr r0 (by simp))
            by_cases hg3 : l0.2 - l0.1 = r0.2 - r0.1
            · have heq : l0 = r0 := p4_eq_of_overlap hl0 hr0 hg3 hov1 hov2
              have he1 : l0.1 = r0.1 := by rw [heq]
              have hres : performInnerAlignTrees (l0 :: ls) (r0 :: rs) =
                  ⟨some l0, some r0, l0⟩ :: performInnerAlignTrees ls rs := by
                simp [performInnerAlignTrees, hg1, hg2, hg3]
              rw [hres]
              have ihc := ih ls rs hlen3 l0.2 hWls hWrs
                (Or.inl (fun x hx => hlsge x (List.mem_of_mem_head? hx)))
              have h6 : e ≤ l0.1 := by
                rcases hde with h6 | h6
                · exact h6
                · omega
              refine ⟨?_, ?_⟩
              · rw [List.map_cons, List.chain_cons]
                exact ⟨h6, chainLe_of_le ihc.1 (le_refl _)⟩
              · intro row hrow
                rcases List.mem_cons.mp hrow with rfl | hrow'
                · exact hl0
                · exact ihc.2 row hrow'
            · by_cases hg4 : l0.2 - l0.1 < r0.2 - r0.1
              · have hsub := p4_subset_of_overlap hl0 hr0 (le_of_lt hg4) hov1 hov2
                have hres : performInnerAlignTrees (l0 :: ls) (r0 :: rs) =
                    ⟨some l0, some r0, l0⟩ :: performInnerAlignTrees ls (r0 :: rs) := by
                  simp [performInnerAlignTrees, hg1, hg2, hg3, hg4]
                rw [hres]
                have ihc := ih ls (r0 :: rs) hlen2 l0.2 hWls hWr
                  (Or.inl (fun x hx => hlsge x (List.mem_of_mem_head? hx)))
                have h5 : r0.1 ≤ l0.1 := hsub.1
                have h6 : e ≤ l0.1 := by
                  rcases hde with h6 | h6
                  · exact h6
                  · omega
                refine ⟨?_, ?_⟩
                · rw [List.map_cons, List.chain_cons]
                  exact ⟨h6, chainLe_of_le ihc.1 (le_refl _)⟩
                · intro row hrow
                  rcases List.mem_cons.mp hrow with rfl | hrow'
                  · exact hl0
                  · exact ihc.2 row hrow'
              · have hg5 : r0.2 - r0.1 < l0.2 - l0.1 := by omega
                have hsub := p4_subset_of_overlap hr0 hl0 (le_of_lt hg5) hov2 hov1
                have hres : performInnerAlignTrees (l0 :: ls) (r0 :: rs) =
                    ⟨some l0, some r0, r0⟩ :: performInnerAlignTrees (l0 :: ls) rs := by
                  simp [performInnerAlignTrees, hg1, hg2, hg3, hg4]
                rw [hres]
                have ihc := ih (l0 :: ls) rs hlen1 r0.2 hWl hWrs
                  (Or.inr (fun y hy => hrsge y (List.mem_of_mem_head? hy)))
                have h5 : l0.1 ≤ r0.1 := hsub.1
                have h6 : e ≤ r0.1 := by
                  rcases hde with h6 | h6
                  · omega
                  · exact h6
                refine ⟨?_, ?_⟩
                · rw [List.map_cons, List.chain_cons]
                  exact ⟨h6, chainLe_of_le ihc.1 (le_refl _)⟩
                · intro row hrow
                  rcases List.mem_cons.mp hrow with rfl | hrow'
                  · exact hr0
                  · exact ihc.2 row hrow'

theorem rowTieBreak_left_none (r : Option Iv) (a : Iv) : RowTieBreak ⟨none, r, a⟩ := by
  cases r <;> trivial

theorem rowTieBreak_right_none (l : Option Iv) (a : Iv) : RowTieBreak ⟨l, none, a⟩ := by
  cases l <;> trivial

theorem rowTieBreak_equal {li ri : Iv} (h : li.2 - li.1 = ri.2 - ri.1) :
    RowTieBreak ⟨some li, some ri, li⟩ := by
  unfold RowTieBreak
  dsimp only
  rw [if_neg (by omega), if_neg (by omega)]
  by_cases he : li = ri
  · rw [if_pos he]
    exact ⟨rfl, he⟩
  · rw [if_neg he]
    trivial

theorem rowTieBreak_smaller_left {li ri : Iv} (h : li.2 - li.1 < ri.2 - ri.1) :
    RowTieBreak ⟨some li, some ri, li⟩ := by
  unfold RowTieBreak
  dsimp only
  rw [if_pos h]

theorem rowTieBreak_smaller_right {li ri : Iv} (h : ri.2 - ri.1 < li.2 - li.1) :
    RowTieBreak ⟨some li, some ri, ri⟩ := by
  unfold RowTieBreak
  dsimp only
  rw [if_neg (by omega), if_pos h]

theorem verbatimRow_tiebreak (p : Iv) (side : Bool) : RowTieBreak (verbatimRow p side) := by
  cases side
  · exact rowTieBreak_left_none _ _
  · exact rowTieBreak_right_none _ _

theorem performInnerAlignTrees_rows :
    ∀ (n : ℕ) (l r : List Iv), l.length + r.length ≤ n →
    ∀ row ∈ performInnerAlignTrees l r, RowTieBreak row ∧ BothPresent row := by
  intro n
  induction n with
  | zero =>
    intro l r hlen
    cases l with
    | nil => simp [performInnerAlignTrees]
    | cons l0 ls =>
      cases r with
      | nil => simp [performInnerAlignTrees]
      | cons r0 rs => simp at hlen
  | succ n ih =>
    intro l r hlen
    cases l with
    | nil => simp [performInnerAlignTrees]
    | cons l0 ls =>
      cases r with
      | nil => simp [performInnerAlignTrees]
      | cons r0 rs =>
        have hlen1 : (l0 :: ls).length + rs.length ≤ n := by
          simp only [List.length_cons] at hlen ⊢
          omega
        have hlen2 : ls.length + (r0 :: rs).length ≤ n := by
          simp only [List.length_cons] at hlen ⊢
          omega
        have hlen3 : ls.length + rs.length ≤ n := by
          simp only [List.length_cons] at hlen
          omega
        by_cases hg1 : l0.1 ≥ r0.2
        · have hres : performInnerAlignTrees (l0 :: ls) (r0 :: rs) =
              performInnerAlignTrees (l0 :: ls) rs := by
            simp [performInnerAlignTrees, hg1]
          rw [hres]
          exact ih (l0 :: ls) rs hlen1
        · by_cases hg2 : r0.1 ≥ l0.2
          · have hres : performInnerAlignTrees (l0 :: ls) (r0 :: rs) =
                performInnerAlignTrees ls (r0 :: rs) := by
              simp [performInnerAlignTrees, hg1, hg2]
            rw [hres]
            exact ih ls (r0 :: rs) hlen2
          · by_cases hg3 : l0.2 - l0.1 = r0.2 - r0.1
            · have hres : performInnerAlignTrees (l0 :: ls) (r0 :: rs) =
                  ⟨some l0, some r0, l0⟩ :: performInnerAlignTrees ls rs := by
                simp [performInnerAlignTrees, hg1, hg2, hg3]
              rw [hres]
              intro row hrow
              rcases List.mem_cons.mp hrow with rfl | hrow'
              · exact ⟨rowTieBreak_equal hg3, rfl, rfl⟩
              · exact ih ls rs hlen3 row hrow'
            · by_cases hg4 : l0.2 - l0.1 < r0.2 - r0.1
              · have hres : performInnerAlignTrees (l0 :: ls) (r0 :: rs) =
                    ⟨some l0, some r0, l0⟩ :: performInnerAlignTrees ls (r0 :: rs) := by
                  simp [performInnerAlignTrees, hg1, hg2, hg3, hg4]
                rw [hres]
                intro row hrow
                rcases List.mem_cons.mp hrow with rfl | hrow'
                · exact ⟨rowTieBreak_smaller_left hg4, rfl, rfl⟩
                · exact ih ls (r0 :: rs) hlen2 row hrow'
              · have hg5 : r0.2 - r0.1 < l0.2 - l0.1 := by omega
                have hres : performInnerAlignTrees (l0 :: ls) (r0 :: rs) =
                    ⟨some l0, some r0, r0⟩ :: performInnerAlignTrees (l0 :: ls) rs := by
                  simp [performInnerAlignTrees, hg1, hg2, hg3, hg4]
                rw [hres]
                intro row hrow
                rcases List.mem_cons.mp hrow with rfl | hrow'
                · exact ⟨rowTieBreak_smaller_right hg5, rfl, rfl⟩
                · exact ih (l0 :: ls) rs hlen1 row hrow'

theorem performInnerAlignTrees_self (t : List Iv) (h : ∀ iv ∈ t, iv.1 < iv.2) :
    performInnerAlignTrees t t = t.map fun iv => ⟨some iv, some iv, iv⟩ := by
  induction t with
  | nil => simp [performInnerAlignTrees]
  | cons iv rest ih =>
    have hpos : iv.1 < iv.2 := h iv (by simp)
    have hniv : ¬ iv.1 ≥ iv.2 := by omega
    have hres : performInnerAlignTrees (iv :: rest) (iv :: rest) =
        ⟨some iv, some iv, iv⟩ :: performInnerAlignTrees rest rest := by
      simp [performInnerAlignTrees, hniv]
    rw [hres, ih (fun p hp => h p (by simp [hp]))]
    simp

/-! ### The tie-break rule for mapping rows -/

theorem addPixelsUntil_tiebreak (fuel : ℕ) :
    ∀ (a b : ℕ) (mp : Iv) (side : Bool),
    (addPixelsUntil fuel a b mp side).elim True fun rows => ∀ row ∈ rows, RowTieBreak row := by
  induction fuel with
  | zero =>
    intro a b mp side
    by_cases h : a < b <;> simp [addPixelsUntil, h]
  | succ n ihn =>
    intro a b mp side
    by_cases h : a < b
    · have ihc := ihn (a + pixelSize a b) b mp side
      cases hrec : addPixelsUntil n (a + pixelSize a b) b mp side with
      | none => simp [addPixelsUntil, h, hrec]
      | some rest =>
        rw [hrec] at ihc
        simp only [Option.elim_some] at ihc
        have hres : addPixelsUntil (n + 1) a b mp side =
            some ((if side then (⟨some mp, none, (a, a + pixelSize a b)⟩ : MapRow)
              else ⟨none, some mp, (a, a + pixelSize a b)⟩) :: rest) := by
          simp [addPixelsUntil, h, hrec]
        rw [hres]
        simp only [Option.elim_some]
        intro row hrow
        rcases List.mem_cons.mp hrow with rfl | hrow'
        · cases side
          · exact rowTieBreak_left_none _ _
          · exact rowTieBreak_right_none _ _
        · exact ihc row hrow'
    · simp [addPixelsUntil, h]

theorem addRemainingPixels_tiebreak (fuel aU : ℕ) (pl : List Iv) (side : Bool) :
    (addRemainingPixels fuel aU pl side).elim True fun rows =>
      ∀ row ∈ rows, RowTieBreak row := by
  cases pl with
  | nil => simp [addRemainingPixels]
  | cons pix rest =>
    have hg := addPixelsUntil_tiebreak fuel aU pix.2 pix side
    by_cases h1 : pix.1 < aU ∧ aU < pix.2
    · cases hgap : addPixelsUntil fuel aU pix.2 pix side with
      | none => simp [addRemainingPixels, h1, hgap]
      | some g =>
        rw [hgap] at hg
        simp only [Option.elim_some] at hg
        have hres : addRemainingPixels fuel aU (pix :: rest) side =
            some (g ++ rest.map fun p => verbatimRow p side) := by
          simp [addRemainingPixels, h1, hgap]
        rw [hres]
        simp only [Option.elim_some]
        intro row hrow
        rcases List.mem_append.mp hrow with hrow' | hrow'
        · exact hg row hrow'
        · obtain ⟨p, _, rfl⟩ := List.mem_map.mp hrow'
          exact verbatimRow_tiebreak p side
    · have hres2 : ∃ tl : List Iv, addRemainingPixels fuel aU (pix :: rest) side =
          some (tl.map fun p => verbatimRow p side) := by
        by_cases h2 : pix.2 ≤ aU
        · exact ⟨rest, by simp [addRemainingPixels, h1, h2]⟩
        · exact ⟨pix :: rest, by simp [addRemainingPixels, h1, h2]⟩
      obtain ⟨tl, hres⟩ := hres2
      rw [hres]
      simp only [Option.elim_some]
      intro row hrow
      obtain ⟨p, _, rfl⟩ := List.mem_map.mp hrow
      exact verbatimRow_tiebreak p side

theorem performAlignTrees_tiebreak (fuel : ℕ) :
    ∀ (n : ℕ) (l r : List Iv), l.length + r.length ≤ n →
    ∀ (incL incR : Bool) (aU : ℕ),
    (performAlignTrees fuel l r incL incR aU).elim True fun rows =>
      ∀ row ∈ rows, RowTieBreak row := by
  have exitL : ∀ (r : List Iv) (incL incR : Bool) (aU : ℕ),
      (performAlignTrees fuel [] r incL incR aU).elim True fun rows =>
        ∀ row ∈ rows, RowTieBreak row := by
    intro r incL incR aU
    by_cases hc : incR = true ∧ r ≠ []
    · have hg := addRemainingPixels_tiebreak fuel aU r false
      cases hm1 : addRemainingPixels fuel aU r false with
      | none => simp [performAlignTrees, hc, hm1]
      | some m1 =>
        rw [hm1] at hg
        simp only [Option.elim_some] at hg
        have hres : performAlignTrees fuel [] r incL incR aU = some (m1 ++ []) := by
          simp [performAlignTrees, hc, hm1]
        rw [hres]
        simp only [Option.elim_some, List.append_nil]
        exact hg
    · have hres : performAlignTrees fuel [] r incL incR aU = some [] := by
        simp [performAlignTrees, hc]
      rw [hres]
      simp
  have exitR : ∀ (l0 : Iv) (ls : List Iv) (incL incR : Bool) (aU : ℕ),
      (performAlignTrees fuel (l0 :: ls) [] incL incR aU).elim True fun rows =>
        ∀ row ∈ rows, RowTieBreak row := by
    intro l0 ls incL incR aU
    by_cases hc : incL = true
    · have hg := addRemainingPixels_tiebreak fuel aU (l0 :: ls) true
      cases hm2 : addRemainingPixels fuel aU (l0 :: ls) true with
      | none => simp [performAlignTrees, hc, hm2]
      | some m2 =>
        rw [hm2] at hg
        simp only [Option.elim_some] at hg
        have hres : performAlignTrees fuel (l0 :: ls) [] incL incR aU = some ([] ++ m2) := by
          simp [performAlignTrees, hc, hm2]
        rw [hres]
        simp only [Option.elim_some, List.nil_append]
        exact hg
    · have hres : performAlignTrees fuel (l0 :: ls) [] incL incR aU = some [] := by
        simp [performAlignTrees, hc]
      rw [hres]
      simp
  intro n
  induction n with
  | zero =>
    intro l r hlen incL incR aU
    cases l with
    | nil => exact exitL r incL incR aU
    | cons l0 ls =>
      cases r with
      | nil => exact exitR l0 ls incL incR aU
      | cons r0 rs => simp at hlen
  | succ n ih =>
    intro l r hlen incL incR aU
    cases l with
    | nil => exact exitL r incL incR aU
    | cons l0 ls =>
      cases r with
      | nil => exact exitR l0 ls incL incR aU
      | cons r0 rs =>
        have hlen1 : (l0 :: ls).length + rs.length ≤ n := by
          simp only [List.length_cons] at hlen ⊢
          omega
        have hlen2 : ls.length + (r0 :: rs).length ≤ n := by
          simp only [List.length_cons] at hlen ⊢
          omega
        have hlen3 : ls.length + rs.length ≤ n := by
          simp only [List.length_cons] at hlen
          omega
        by_cases hg1 : l0.1 ≥ r0.2
        · by_cases hIncR : incR = true
          · by_cases hc1 : aU ≤ r0.1
            · have ihc := ih (l0 :: ls) rs hlen1 incL incR r0.2
              have hres : performAlignTrees fuel (l0 :: ls) (r0 :: rs) incL incR aU =
                  Option.map (fun rest => (⟨none, some r0, r0⟩ : MapRow) :: rest)
                    (performAlignTrees fuel (l0 :: ls) rs incL incR r0.2) := by
                simp [performAlignTrees, hg1, hIncR, hc1]
              cases hrec : performAlignTrees fuel (l0 :: ls) rs incL incR r0.2 with
              | none =>
                rw [hres, hrec]
                simp
              | some rest =>
                rw [hrec] at ihc
                rw [hres, hrec]
                simp only [Option.map_some', Option.elim_some] at ihc ⊢
                intro row hrow
                rcases List.mem_cons.mp hrow with rfl | hrow'
                · exact rowTieBreak_left_none _ _
                · exact ihc row hrow'
            · by_cases hc2 : aU < r0.2
              · have hg := addPixelsUntil_tiebreak fuel aU r0.2 r0 false
                cases hgap : addPixelsUntil fuel aU r0.2 r0 false with
                | none =>
                  have hres : performAlignTrees fuel (l0 :: ls) (r0 :: rs) incL incR aU
                      = none := by
                    simp [performAlignTrees, hg1, hIncR, hc1, hc2, hgap]
                  rw [hres]
                  simp
                | some g =>
                  rw [hgap] at hg
                  simp only [Option.elim_some] at hg
                  have ihc := ih (l0 :: ls) rs hlen1 incL incR r0.2
                  have hres : performAlignTrees fuel (l0 :: ls) (r0 :: rs) incL incR aU =
                      Option.map (fun rest => g ++ rest)
                        (performAlignTrees fuel (l0 :: ls) rs incL incR r0.2) := by
                    simp [performAlignTrees, hg1, hIncR, hc1, hc2, hgap]
                  cases hrec : performAlignTrees fuel (l0 :: ls) rs incL incR r0.2 with
                  | none =>
                    rw [hres, hrec]
                    simp
                  | some rest =>
                    rw [hrec] at ihc
                    rw [hres, hrec]
                    simp only [Option.map_some', Option.elim_some] at ihc ⊢
                    intro row hrow
                    rcases List.mem_append.mp hrow with hrow' | hrow'
                    · exact hg row hrow'
                    · exact ihc row hrow'
              · have ihc := ih (l0 :: ls) rs hlen1 incL incR aU
                have hres : performAlignTrees fuel (l0 :: ls) (r0 :: rs) incL incR aU =
                    performAlignTrees fuel (l0 :: ls) rs incL incR aU := by
                  simp [performAlignTrees, hg1, hIncR, hc1, hc2]
                rw [hres]
                exact ihc
          · have hIncR' : incR = false := by
              cases incR
              · rfl
              · exact absurd rfl hIncR
            have ihc := ih (l0 :: ls) rs hlen1 incL incR aU
            have hres : performAlignTrees fuel (l0 :: ls) (r0 :: rs) incL incR aU =
                performAlignTrees fuel (l0 :: ls) rs incL incR aU := by
              simp [performAlignTrees, hg1, hIncR']
            rw [hres]
            exact ihc
        · by_cases hg2 : r0.1 ≥ l0.2
          · by_cases hIncL : incL = true
            · by_cases hc1 : aU ≤ l0.1
              · have ihc := ih ls (r0 :: rs) hlen2 incL incR l0.2
                have hres : performAlignTrees fuel (l0 :: ls) (r0 :: rs) incL incR aU =
                    Option.map (fun rest => (⟨some l0, none, l0⟩ : MapRow) :: rest)
                      (performAlignTrees fuel ls (r0 :: rs) incL incR l0.2) := by
                  simp [performAlignTrees, hg1, hg2, hIncL, hc1]
                cases hrec : performAlignTrees fuel ls (r0 :: rs) incL incR l0.2 with
                | none =>
                  rw [hres, hrec]
                  simp
                | some rest =>
                  rw [hrec] at ihc
                  rw [hres, hrec]
                  simp only [Option.map_some', Option.elim_some] at ihc ⊢
                  intro row hrow
                  rcases List.mem_cons.mp hrow with rfl | hrow'
                  · exact rowTieBreak_right_none _ _
                  · exact ihc row hrow'
              · by_cases hc2 : aU < l0.2
                · have hg := addPixelsUntil_tiebreak fuel aU l0.2 l0 true
                  cases hgap : addPixelsUntil fuel aU l0.2 l0 true with
                  | none =>
                    have hres : performAlignTrees fuel (l0 :: ls) (r0 :: rs) incL incR aU
                        = none := by
                      simp [performAlignTrees, hg1, hg2, hIncL, hc1, hc2, hgap]
                    rw [hres]
                    simp
                  | some g =>
                    rw [hgap] at hg
                    simp only [Option.elim_some] at hg
                    have ihc := ih ls (r0 :: rs) hlen2 incL incR l0.2
                    have hres : performAlignTrees fuel (l0 :: ls) (r0 :: rs) incL incR aU =
                        Option.map (fun rest => g ++ rest)
                          (performAlignTrees fuel ls (r0 :: rs) incL incR l0.2) := by
                      simp [performAlignTrees, hg1, hg2, hIncL, hc1, hc2, hgap]
                    cases hrec : performAlignTrees fuel ls (r0 :: rs) incL incR l0.2 with
                    | none =>
                      rw [hres, hrec]
                      simp
                    | some rest =>
                      rw [hrec] at ihc
                      rw [hres, hrec]
                      simp only [Option.map_some', Option.elim_some] at ihc ⊢
                      intro row hrow
                      rcases List.mem_append.mp hrow with hrow' | hrow'
                      · exact hg row hrow'
                      · exact ihc row hrow'
                · have ihc := ih ls (r0 :: rs) hlen2 incL incR aU
                  have hres : performAlignTrees fuel (l0 :: ls) (r0 :: rs) incL incR aU =
                      performAlignTrees fuel ls (r0 :: rs) incL incR aU := by
                    simp [performAlignTrees, hg1, hg2, hIncL, hc1, hc2]
                  rw [hres]
                  exact ihc
            · have hIncL' : incL = false := by
                cases incL
                · rfl
                · exact absurd rfl hIncL
              have ihc := ih ls (r0 :: rs) hlen2 incL incR aU
              have hres : performAlignTrees fuel (l0 :: ls) (r0 :: rs) incL incR aU =
                  performAlignTrees fuel ls (r0 :: rs) incL incR aU := by
                simp [performAlignTrees, hg1, hg2, hIncL']
              rw [hres]
              exact ihc
          · by_cases hg3 : l0.2 - l0.1 = r0.2 - r0.1
            · have ihc := ih ls rs hlen3 incL incR l0.2
              have hres : performAlignTrees fuel (l0 :: ls) (r0 :: rs) incL incR aU =
                  Option.map (fun rest => (⟨some l0, some r0, l0⟩ : MapRow) :: rest)
                    (performAlignTrees fuel ls rs incL incR l0.2) := by
                simp [performAlignTrees, hg1, hg2, hg3]
              cases hrec : performAlignTrees fuel ls rs incL incR l0.2 with
              | none =>
                rw [hres, hrec]
                simp
              | some rest =>
                rw [hrec] at ihc
                rw [hres, hrec]
                simp only [Option.map_some', Option.elim_some] at ihc ⊢
                intro row hrow
                rcases List.mem_cons.mp hrow with rfl | hrow'
                · exact rowTieBreak_equal hg3
                · exact ihc row hrow'
            · by_cases hg4 : l0.2 - l0.1 < r0.2 - r0.1
              · have ihc := ih ls (r0 :: rs) hlen2 incL incR l0.2
                by_cases hfill : incR = true ∧ r0.1 < l0.1 ∧ aU < l0.1
                · cases hgap : addPixelsUntil fuel (max aU r0.1) l0.1 r0 false with
                  | none =>
                    have hres : performAlignTrees fuel (l0 :: ls) (r0 :: rs) incL incR aU
                        = none := by
                      simp [performAlignTrees, hg1, hg2, hg3, hg4, hfill, hgap]
                    rw [hres]
                    simp
                  | some g =>
                    have hg := addPixelsUntil_tiebreak fuel (max aU r0.1) l0.1 r0 false
                    rw [hgap] at hg
                    simp only [Option.elim_some] at hg
                    have hres : performAlignTrees fuel (l0 :: ls) (r0 :: rs) incL incR aU =
                        Option.map
                          (fun rest => g ++ (⟨some l0, some r0, l0⟩ : MapRow) :: rest)
                          (performAlignTrees fuel ls (r0 :: rs) incL incR l0.2) := by
                      simp [performAlignTrees, hg1, hg2, hg3, hg4, hfill, hgap]
                    cases hrec : performAlignTrees fuel ls (r0 :: rs) incL incR l0.2 with
                    | none =>
                      rw [hres, hrec]
                      simp
                    | some rest =>
                      rw [hrec] at ihc
                      rw [hres, hrec]
                      simp only [Option.map_some', Option.elim_some] at ihc ⊢
                      intro row hrow
                      rcases List.mem_append.mp hrow with hrow' | hrow'
                      · exact hg row hrow'
                      · rcases List.mem_cons.mp hrow' with rfl | hrow''
                        · exact rowTieBreak_smaller_left hg4
                        · exact ihc row hrow''
                · have hres : performAlignTrees fuel (l0 :: ls) (r0 :: rs) incL incR aU =
                      Option.map (fun rest => (⟨some l0, some r0, l0⟩ : MapRow) :: rest)
                        (performAlignTrees fuel ls (r0 :: rs) incL incR l0.2) := by
                    simp [performAlignTrees, hg1, hg2, hg3, hg4, hfill]
                  cases hrec : performAlignTrees fuel ls (r0 :: rs) incL incR l0.2 with
                  | none =>
                    rw [hres, hrec]
                    simp
                  | some rest =>
                    rw [hrec] at ihc
                    rw [hres, hrec]
                    simp only [Option.map_some', Option.elim_some] at ihc ⊢
                    intro row hrow
                    rcases List.mem_cons.mp hrow with rfl | hrow'
                    · exact rowTieBreak_smaller_left hg4
                    · exact ihc row hrow'
              · have hg5 : r0.2 - r0.1 < l0.2 - l0.1 := by omega
                have ihc := ih (l0 :: ls) rs hlen1 incL incR r0.2
                by_cases hfill : incL = true ∧ l0.1 < r0.1 ∧ aU < r0.1
                · cases hgap : addPixelsUntil fuel (max aU l0.1) r0.1 l0 true with
                  | none =>
                    have hres : performAlignTrees fuel (l0 :: ls) (r0 :: rs) incL incR aU
                        = none := by
                      simp [performAlignTrees, hg1, hg2, hg3, hg4, hfill, hgap]
                    rw [hres]
                    simp
                  | some g =>
                    have hg := addPixelsUntil_tiebreak fuel (max aU l0.1) r0.1 l0 true
                    rw [hgap] at hg
                    simp only [Option.elim_some] at hg
                    have hres : performAlignTrees fuel (l0 :: ls) (r0 :: rs) incL incR aU =
                        Option.map
                          (fun rest => g ++ (⟨some l0, some r0, r0⟩ : MapRow) :: rest)
                          (performAlignTrees fuel (l0 :: ls) rs incL incR r0.2) := by
                      simp [performAlignTrees, hg1, hg2, hg3, hg4, hfill, hgap]
                    cases hrec : performAlignTrees fuel (l0 :: ls) rs incL incR r0.2 with
                    | none =>
                      rw [hres, hrec]
                      simp
                    | some rest =>
                      rw [hrec] at ihc
                      rw [hres, hrec]
                      simp only [Option.map_some', Option.elim_some] at ihc ⊢
                      intro row hrow
                      rcases List.mem_append.mp hrow with hrow' | hrow'
                      · exact hg row hrow'
                      · rcases List.mem_cons.mp hrow' with rfl | hrow''
                        · exact rowTieBreak_smaller_right hg5
                        · exact ihc row hrow''
                · have hres : performAlignTrees fuel (l0 :: ls) (r0 :: rs) incL incR aU =
                      Option.map (fun rest => (⟨some l0, some r0, r0⟩ : MapRow) :: rest)
                        (performAlignTrees fuel (l0 :: ls) rs incL incR r0.2) := by
                    simp [performAlignTrees, hg1, hg2, hg3, hg4, hfill]
                  cases hrec : performAlignTrees fuel (l0 :: ls) rs incL incR r0.2 with
                  | none =>
                    rw [hres, hrec]
                    simp
                  | some rest =>
                    rw [hrec] at ihc
                    rw [hres, hrec]
                    simp only [Option.map_some', Option.elim_some] at ihc ⊢
                    intro row hrow
                    rcases List.mem_cons.mp hrow with rfl | hrow'
                    · exact rowTieBreak_smaller_right hg5
                    · exact ihc row hrow'

/-! ### Wrappers: from the scan kernels to align_trees -/

theorem addPixelsUntil_step_right {fuel a b : ℕ} (mp : Iv) (h : a < b) :
    addPixelsUntil (fuel + 1) a b mp false =
      Option.map (fun rest => (⟨none, some mp, (a, a + pixelSize a b)⟩ : MapRow) :: rest)
        (addPixelsUntil fuel (a + pixelSize a b) b mp false) := by
  simp [addPixelsUntil, h]

theorem addPixelsUntil_stop {fuel a b : ℕ} (mp : Iv) (side : Bool) (h : ¬ a < b) :
    addPixelsUntil fuel a b mp side = some [] := by
  cases fuel <;> simp [addPixelsUntil, h]

theorem maxP4ToOf_eq (rem : ℕ) :
    maxP4ToOf rem = 2 ^ (Nat.log2 rem - Nat.log2 rem % 2) := rfl

theorem pixelSize_eq (a b : ℕ) :
    pixelSize a b = min (maxP4ToOf (b - a)) (maxP4FromOf a) := rfl

theorem log2_two_pow (k : ℕ) : Nat.log2 (2 ^ k) = k := by
  have hne : (2:ℕ) ^ k ≠ 0 := (pow_pos (by norm_num) k).ne'
  have h1 : k ≤ Nat.log2 (2 ^ k) := (Nat.le_log2 hne).mpr (le_refl _)
  have h2 : Nat.log2 (2 ^ k) < k + 1 := by
    rw [Nat.log2_lt hne]
    have hp : (0:ℕ) < 2 ^ k := pow_pos (by norm_num) k
    have he : (2:ℕ) ^ (k + 1) = 2 * 2 ^ k := by rw [pow_succ]; ring
    omega
  omega

theorem isP4_mul_pow {m : ℕ} (h : IsP4 m) (k : ℕ) : IsP4 (m * 4 ^ k) := by
  obtain ⟨j, rfl⟩ := isP4_exists h
  rw [← pow_add]
  exact isP4_pow (j + k)

theorem isP4_four : IsP4 4 := by
  have h := isP4_pow 1
  norm_num at h
  exact h

theorem shiftTree_zero (t : List Iv) : shiftTree t 0 = t := by
  simp [shiftTree]

theorem shiftTree_WF {d : ℕ} {t : List Iv} (h : WFIvs (npix d) t) (k : ℕ) :
    WFIvs (npix (d + k)) (shiftTree t k) := by
  have hpos : (0:ℕ) < 4 ^ k := pow_pos (by norm_num) k
  constructor
  · simp only [shiftTree]
    rw [List.chain'_map]
    refine List.Chain'.imp ?_ h.1
    intro a b hab
    exact Nat.mul_le_mul_right _ hab
  · intro iv hiv
    simp only [shiftTree] at hiv
    obtain ⟨p, hp, rfl⟩ := List.mem_map.mp hiv
    obtain ⟨⟨h1, h2, h3⟩, h4⟩ := h.2 p hp
    have hlen : p.2 * 4 ^ k - p.1 * 4 ^ k = (p.2 - p.1) * 4 ^ k := (Nat.sub_mul _ _ _).symm
    refine ⟨⟨?_, ?_, ?_⟩, ?_⟩
    · exact Nat.mul_lt_mul_of_pos_right h1 hpos
    · show IsP4 (p.2 * 4 ^ k - p.1 * 4 ^ k)
      rw [hlen]
      exact isP4_mul_pow h2 k
    · show (p.2 * 4 ^ k - p.1 * 4 ^ k) ∣ p.1 * 4 ^ k
      rw [hlen]
      exact mul_dvd_mul_right h3 _
    · show p.2 * 4 ^ k ≤ npix (d + k)
      have e : npix (d + k) = npix d * 4 ^ k := by
        simp only [npix]
        rw [pow_add, Nat.mul_assoc]
      rw [e]
      exact Nat.mul_le_mul_right _ h4

theorem shiftTree_WF_max_left (L R : PixelTree) (hL : WellFormedTree L) :
    WFIvs (npix (max L.treeOrder R.treeOrder))
      (shiftTree L.tree (max L.treeOrder R.treeOrder - L.treeOrder)) := by
  have h1 := shiftTree_WF hL.2 (max L.treeOrder R.treeOrder - L.treeOrder)
  rwa [Nat.add_sub_cancel' (le_max_left _ _)] at h1

theorem shiftTree_WF_max_right (L R : PixelTree) (hR : WellFormedTree R) :
    WFIvs (npix (max L.treeOrder R.treeOrder))
      (shiftTree R.tree (max L.treeOrder R.treeOrder - R.treeOrder)) := by
  have h1 := shiftTree_WF hR.2 (max L.treeOrder R.treeOrder - R.treeOrder)
  rwa [Nat.add_sub_cancel' (le_max_right _ _)] at h1

theorem npix_le {d : ℕ} (h : d ≤ 29) : npix d ≤ 2 ^ 62 := by
  have h1 : npix d ≤ npix 29 := by
    simp only [npix]
    exact Nat.mul_le_mul_left _ (Nat.pow_le_pow_right (by norm_num) h)
  have h2 : npix 29 ≤ 2 ^ 62 := by norm_num [npix]
  omega

theorem inter_Ici_zero (A : Set ℕ) : A ∩ Set.Ici 0 = A := by
  ext x
  simp [Set.mem_Ici, Nat.zero_le]

theorem performInnerAlignTrees_rows' (l r : List Iv) :
    ∀ row ∈ performInnerAlignTrees l r, RowTieBreak row ∧ BothPresent row :=
  performInnerAlignTrees_rows (l.length + r.length) l r (le_refl _)

theorem performInnerAlignTrees_sorted' {B : ℕ} (l r : List Iv)
    (hWl : WFIvs B l) (hWr : WFIvs B r) :
    List.Chain' (fun p q : Iv => p.2 ≤ q.1)
      ((performInnerAlignTrees l r).map fun row => row.apix) ∧
    ∀ row ∈ performInnerAlignTrees l r, IvOK row.apix := by
  have h := performInnerAlignTrees_sorted (l.length + r.length) l r (le_refl _) 0 hWl hWr
    (Or.inl fun x _ => Nat.zero_le _)
  exact ⟨chain_to_chain' h.1, h.2⟩

theorem performAlignTrees_tiebreak' (fuel : ℕ) (l r : List Iv) (incL incR : Bool) (aU : ℕ) :
    (performAlignTrees fuel l r incL incR aU).elim True fun rows =>
      ∀ row ∈ rows, RowTieBreak row :=
  performAlignTrees_tiebreak fuel (l.length + r.length) l r (le_refl _) incL incR aU

theorem performAlignTrees_spec' (fuel : ℕ) {B : ℕ} (hB : B ≤ 2 ^ 62) (l r : List Iv)
    (incL incR : Bool) (hWl : WFIvs B l) (hWr : WFIvs B r)
    (hInc : incL = true ∨ incR = true) :
    (performAlignTrees fuel l r incL incR 0).elim True fun rows =>
      List.Chain' (fun p q : Iv => p.2 ≤ q.1) (rows.map fun row => row.apix) ∧
      (∀ row ∈ rows, IvOK row.apix ∧ row.apix.2 ≤ B) ∧
      cov (rows.map fun row => row.apix) = SU incL incR l r := by
  have h := performAlignTrees_spec fuel hB (l.length + r.length) l r (le_refl _) incL incR 0
    hWl hWr hInc (fun x _ y _ => Nat.zero_le _) (fun x _ => Nat.zero_le _)
    (fun y _ => Nat.zero_le _)
  cases hrec : performAlignTrees fuel l r incL incR 0 with
  | none => simp
  | some rows =>
    rw [hrec] at h
    simp only [Option.elim_some] at h ⊢
    exact ⟨chain_to_chain' h.1, h.2.1, by rw [h.2.2, inter_Ici_zero]⟩

theorem alignTrees_inner_eq (fuel : ℕ) (L R : PixelTree) :
    alignTrees fuel L R PixelAlignmentType.inner =
      some (((performInnerAlignTrees
            (shiftTree L.tree (max L.treeOrder R.treeOrder - L.treeOrder))
            (shiftTree R.tree (max L.treeOrder R.treeOrder - R.treeOrder))).map
          fun row => row.apix),
        performInnerAlignTrees
          (shiftTree L.tree (max L.treeOrder R.treeOrder - L.treeOrder))
          (shiftTree R.tree (max L.treeOrder R.treeOrder - R.treeOrder))) := by
  simp [alignTrees]

theorem alignTrees_noninner_eq (fuel : ℕ) (L R : PixelTree) (mode : PixelAlignmentType)
    (hmode : mode ≠ PixelAlignmentType.inner) :
    alignTrees fuel L R mode =
      Option.map (fun mapping => (mapping.map fun row => row.apix, mapping))
        (performAlignTrees fuel
          (shiftTree L.tree (max L.treeOrder R.treeOrder - L.treeOrder))
          (shiftTree R.tree (max L.treeOrder R.treeOrder - R.treeOrder))
          (decide (mode = PixelAlignmentType.left ∨ mode = PixelAlignmentType.outer))
          (decide (mode = PixelAlignmentType.right ∨ mode = PixelAlignmentType.outer)) 0) := by
  simp [alignTrees, hmode]

theorem alignTrees_noninner_spec (fuel : ℕ) (L R : PixelTree) (mode : PixelAlignmentType)
    (hmode : mode ≠ PixelAlignmentType.inner) (hL : WellFormedTree L)
    (hR : WellFormedTree R) :
    (alignTrees fuel L R mode).elim True fun res =>
      (List.Chain' (fun a b : Iv => a.2 ≤ b.1) res.1 ∧
        ∀ iv ∈ res.1, IvOK iv ∧ iv.2 ≤ npix (max L.treeOrder R.treeOrder)) ∧
      cov res.1 =
        SU (decide (mode = PixelAlignmentType.left ∨ mode = PixelAlignmentType.outer))
          (decide (mode = PixelAlignmentType.right ∨ mode = PixelAlignmentType.outer))
          (shiftTree L.tree (max L.treeOrder R.treeOrder - L.treeOrder))
          (shiftTree R.tree (max L.treeOrder R.treeOrder - R.treeOrder)) := by
  have hInc : decide (mode = PixelAlignmentType.left ∨ mode = PixelAlignmentType.outer) = true ∨
      decide (mode = PixelAlignmentType.right ∨ mode = PixelAlignmentType.outer) = true := by
    cases mode with
    | inner => exact absurd rfl hmode
    | left => exact Or.inl (by decide)
    | right => exact Or.inr (by decide)
    | outer => exact Or.inl (by decide)
  have h := performAlignTrees_spec' fuel (npix_le (max_le hL.1 hR.1))
    (shiftTree L.tree (max L.treeOrder R.treeOrder - L.treeOrder))
    (shiftTree R.tree (max L.treeOrder R.treeOrder - R.treeOrder))
    (decide (mode = PixelAlignmentType.left ∨ mode = PixelAlignmentType.outer))
    (decide (mode = PixelAlignmentType.right ∨ mode = PixelAlignmentType.outer))
    (shiftTree_WF_max_left L R hL) (shiftTree_WF_max_right L R hR) hInc
  rw [alignTrees_noninner_eq fuel L R mode hmode]
  cases hrec : performAlignTrees fuel
      (shiftTree L.tree (max L.treeOrder R.treeOrder - L.treeOrder))
      (shiftTree R.tree (max L.treeOrder R.treeOrder - R.treeOrder))
      (decide (mode = PixelAlignmentType.left ∨ mode = PixelAlignmentType.outer))
      (decide (mode = PixelAlignmentType.right ∨ mode = PixelAlignmentType.outer)) 0 with
  | none => simp
  | some rows =>
    rw [hrec] at h
    simp only [Option.elim_some, Option.map_some'] at h ⊢
    refine ⟨⟨h.1, ?_⟩, h.2.2⟩
    intro iv hiv
    obtain ⟨row, hrow, rfl⟩ := List.mem_map.mp hiv
    exact h.2.1 row hrow

theorem wellFormedTree_ex : WellFormedTree ⟨[(0, 4)], 0⟩ := by
  refine ⟨by norm_num, by simp, ?_⟩
  intro iv hiv
  simp only [List.mem_singleton] at hiv
  subst hiv
  refine ⟨⟨by norm_num, ?_, by simp⟩, by norm_num [npix]⟩
  simpa using isP4_four

/-! ### The validator helper equivalences -/

theorem raRangeBad_iff (l : List ℚ) :
    raRangeBad (some l) = false ↔ ∃ a b : ℚ, l = [a, b] ∧ a ≠ b := by
  cases l with
  | nil =>
    refine iff_of_false (by simp [raRangeBad]) ?_
    rintro ⟨x, y, heq, -⟩
    simp at heq
  | cons a t =>
    cases t with
    | nil =>
      refine iff_of_false (by simp [raRangeBad]) ?_
      rintro ⟨x, y, heq, -⟩
      simp at heq
    | cons b t2 =>
      cases t2 with
      | nil =>
        by_cases hab : a = b
        · subst hab
          have hd : (a :: [a] : List ℚ).dedup = [a] := by
            rw [List.dedup_cons_of_mem (by simp), List.dedup_cons_of_not_mem (by simp),
              List.dedup_nil]
          have hlhs : raRangeBad (some [a, a]) = true := by
            simp [raRangeBad, hd]
          rw [hlhs]
          refine iff_of_false (by simp) ?_
          rintro ⟨x, y, heq, hne⟩
          have he : a = x ∧ a = y := by simpa using heq
          exact hne (he.1.symm.trans he.2)
        · have hd : (a :: [b] : List ℚ).dedup = [a, b] := by
            rw [List.dedup_cons_of_not_mem (by simp [hab]),
              List.dedup_cons_of_not_mem (by simp), List.dedup_nil]
          have hlhs : raRangeBad (some [a, b]) = false := by
            simp [raRangeBad, hd]
          rw [hlhs]
          exact iff_of_true rfl ⟨a, b, rfl, hab⟩
      | cons c t3 =>
        have hlen : (a :: b :: c :: t3).length ≠ 2 := by
          simp only [List.length_cons]
          omega
        refine iff_of_false (by simp [raRangeBad, hlen]) ?_
        rintro ⟨x, y, heq, -⟩
        simp at heq

theorem decRangeBad_iff (l : List ℚ) :
    decRangeBad (some l) = false ↔ ∃ a b : ℚ, l = [a, b] ∧ a < b := by
  cases l with
  | nil =>
    refine iff_of_false (by simp [decRangeBad]) ?_
    rintro ⟨x, y, heq, -⟩
    simp at heq
  | cons a t =>
    cases t with
    | nil =>
      refine iff_of_false (by simp [decRangeBad]) ?_
      rintro ⟨x, y, heq, -⟩
      simp at heq
    | cons b t2 =>
      cases t2 with
      | nil =>
        have hg1 : ([a, b] : List ℚ).getD 1 0 = b := rfl
        have hg0 : ([a, b] : List ℚ).getD 0 0 = a := rfl
        by_cases hab : a < b
        · have hnba : ¬ (b ≤ a) := not_le.mpr hab
          have hlhs : decRangeBad (some [a, b]) = false := by
            simp [decRangeBad, hg1, hg0, hnba]
          rw [hlhs]
          exact iff_of_true rfl ⟨a, b, rfl, hab⟩
        · have hba : b ≤ a := le_of_not_lt hab
          have hlhs : decRangeBad (some [a, b]) = true := by
            simp [decRangeBad, hg1, hg0, hba]
          rw [hlhs]
          refine iff_of_false (by simp) ?_
          rintro ⟨x, y, heq, hxy⟩
          have he : a = x ∧ b = y := by simpa using heq
          exact hab (he.1 ▸ he.2 ▸ hxy)
      | cons c t3 =>
        have hlen : (a :: b :: c :: t3).length ≠ 2 := by
          simp only [List.length_cons]
          omega
        refine iff_of_false (by simp [decRangeBad, hlen]) ?_
        rintro ⟨x, y, heq, -⟩
        simp at heq

theorem validate_box_eq (ra dec : Option (List ℚ)) (hdec : decInRange dec = true) :
    validate_box ra dec =
      if ra.isNone && dec.isNone || (raRangeBad ra || decRangeBad dec) then
        some VErr.invalidRadecRange
      else none := by
  cases dec with
  | none => simp [validate_box, decRangeBad]
  | some d =>
    simp only [decInRange] at hdec
    simp [validate_box, validate_declination_values, hdec]

/-! ### The claims -/

/-- C1: the claim states that `align_trees` terminates for every pair of
well-formed pixel trees and every combination mode.  It does not: aligning
the left tree {(order 2, pixel 1)} with the right tree {(order 0, pixel 0)}
in OUTER mode reaches `_add_pixels_until(0, 1, ...)`, where
`add_from & -add_from = 0` makes `pixel_size = 0` and the
`while add_from < add_to` loop never advances.  In the fuel model the run
returns `none` (loop still going) for every fuel bound, which refutes
termination.  Both trees are well formed: `WellFormedTree ⟨[(1, 2)], 2⟩` and
`WellFormedTree ⟨[(0, 1)], 0⟩` hold by the invariants proved elsewhere in
this file. -/
theorem alignTrees_gap_fill_diverges (fuel : ℕ) :
    alignTrees fuel ⟨[(1, 2)], 2⟩ ⟨[(0, 1)], 0⟩ PixelAlignmentType.outer = none := by
  have hz : addPixelsUntil fuel 0 1 (0, 16) false = none :=
    addPixelsUntil_zero_from fuel 1 (0, 16) false (by norm_num)
  simp [alignTrees, shiftTree, performAlignTrees, hz]

/-- The well-formedness of the two trees of the C1 divergence scenario:
the claimed termination really does fail on well-formed input. -/
theorem alignTrees_gap_fill_diverges_input_wf :
    WellFormedTree ⟨[(1, 2)], 2⟩ ∧ WellFormedTree ⟨[(0, 1)], 0⟩ := by
  constructor
  · refine ⟨by norm_num, by simp, ?_⟩
    intro iv hiv
    simp only [List.mem_singleton] at hiv
    subst hiv
    refine ⟨⟨by norm_num, ?_, by simp⟩, by norm_num [npix]⟩
    have h := isP4_pow 0
    simpa using h
  · refine ⟨by norm_num, by simp, ?_⟩
    intro iv hiv
    simp only [List.mem_singleton] at hiv
    subst hiv
    refine ⟨⟨by norm_num, ?_, by simp⟩, by norm_num [npix]⟩
    have h := isP4_pow 0
    simpa using h

/-- C2, first divergence (the mask bug): the gap decomposer's maximality
property is claimed for every pair `0 ≤ from ≤ to`, but with `from = 2^61`,
`to = 3 * 2^61` the first emitted interval is `[2^61, 2^62)` of length
`2^61`, which is not a power of 4: the mask `0xAAAAAAAAAAAAAAA` only covers
odd bit positions up to 59, so `max_p4_from` fails to halve a lowest set bit
at position 61.  On this trace the idealized decomposer matches the source
exactly: every `rem` it meets (`2^62`, `2^61`, `2^60`) is a power of two, on
which float64 `log2` is exact. -/
theorem addPixelsUntil_not_maximal_p4 :
    addPixelsUntil 3 (2 ^ 61) (3 * 2 ^ 61) (0, 1) false =
      some [⟨none, some (0, 1), (2 ^ 61, 2 ^ 62)⟩,
        ⟨none, some (0, 1), (2 ^ 62, 2 ^ 62 + 2 ^ 60)⟩,
        ⟨none, some (0, 1), (2 ^ 62 + 2 ^ 60, 3 * 2 ^ 61)⟩] ∧
    ¬ IsP4 (2 ^ 62 - 2 ^ 61) := by
  have hlt1 : (2:ℕ) ^ 61 < 3 * 2 ^ 61 := by norm_num
  have hlt2 : (2:ℕ) ^ 62 < 3 * 2 ^ 61 := by norm_num
  have hlt3 : (2:ℕ) ^ 62 + 2 ^ 60 < 3 * 2 ^ 61 := by norm_num
  have f1 : maxP4FromOf (2 ^ 61) = 2 ^ 61 := by
    have h := @maxP4FromOf_spec 61 1 (by norm_num) (by norm_num)
    rw [mul_one] at h
    rw [h]
    norm_num
  have f2 : maxP4FromOf (2 ^ 62) = 2 ^ 62 := by
    have h := @maxP4FromOf_spec 62 1 (by norm_num) (by norm_num)
    rw [mul_one] at h
    rw [h]
    norm_num
  have f3 : maxP4FromOf (2 ^ 62 + 2 ^ 60) = 2 ^ 60 := by
    have h := @maxP4FromOf_spec 60 5 (by norm_num) (by norm_num)
    have e : (2:ℕ) ^ 60 * 5 = 2 ^ 62 + 2 ^ 60 := by norm_num
    rw [e] at h
    rw [h]
    norm_num
  have g1 : maxP4ToOf (2 ^ 62) = 2 ^ 62 := by
    rw [maxP4ToOf_eq, log2_two_pow]
  have g2 : maxP4ToOf (2 ^ 61) = 2 ^ 60 := by
    rw [maxP4ToOf_eq, log2_two_pow]
  have g3 : maxP4ToOf (2 ^ 60) = 2 ^ 60 := by
    rw [maxP4ToOf_eq, log2_two_pow]
  have p1 : pixelSize (2 ^ 61) (3 * 2 ^ 61) = 2 ^ 61 := by
    have e : 3 * 2 ^ 61 - 2 ^ 61 = 2 ^ 62 := by norm_num
    rw [pixelSize_eq, e, g1, f1]
    exact min_eq_right (by norm_num)
  have p2 : pixelSize (2 ^ 62) (3 * 2 ^ 61) = 2 ^ 60 := by
    have e : 3 * 2 ^ 61 - 2 ^ 62 = 2 ^ 61 := by norm_num
    rw [pixelSize_eq, e, g2, f2]
    exact min_eq_left (by norm_num)
  have p3 : pixelSize (2 ^ 62 + 2 ^ 60) (3 * 2 ^ 61) = 2 ^ 60 := by
    have e : 3 * 2 ^ 61 - (2 ^ 62 + 2 ^ 60) = 2 ^ 60 := by norm_num
    rw [pixelSize_eq, e, g3, f3]
    exact min_self _
  have e1 : (2:ℕ) ^ 61 + 2 ^ 61 = 2 ^ 62 := by norm_num
  have e2 : (2:ℕ) ^ 62 + 2 ^ 60 + 2 ^ 60 = 3 * 2 ^ 61 := by norm_num
  have stop0 : addPixelsUntil 0 (3 * 2 ^ 61) (3 * 2 ^ 61) (0, 1) false = some [] :=
    addPixelsUntil_stop (0, 1) false (lt_irrefl _)
  have s1 : addPixelsUntil 1 (2 ^ 62 + 2 ^ 60) (3 * 2 ^ 61) (0, 1) false =
      some [⟨none, some (0, 1), (2 ^ 62 + 2 ^ 60, 3 * 2 ^ 61)⟩] := by
    have h := @addPixelsUntil_step_right 0 (2 ^ 62 + 2 ^ 60) (3 * 2 ^ 61) (0, 1) hlt3
    rw [p3, e2, stop0] at h
    simp only [Option.map_some'] at h
    exact h
  have s2 : addPixelsUntil 2 (2 ^ 62) (3 * 2 ^ 61) (0, 1) false =
      some [⟨none, some (0, 1), (2 ^ 62, 2 ^ 62 + 2 ^ 60)⟩,
        ⟨none, some (0, 1), (2 ^ 62 + 2 ^ 60, 3 * 2 ^ 61)⟩] := by
    have h := @addPixelsUntil_step_right 1 (2 ^ 62) (3 * 2 ^ 61) (0, 1) hlt2
    rw [p2, s1] at h
    simp only [Option.map_some'] at h
    exact h
  constructor
  · have h := @addPixelsUntil_step_right 2 (2 ^ 61) (3 * 2 ^ 61) (0, 1) hlt1
    rw [p1, e1, s2] at h
    simp only [Option.map_some'] at h
    exact h
  · intro hP
    obtain ⟨k, hk⟩ := isP4_exists hP
    have e : (2:ℕ) ^ 62 - 2 ^ 61 = 2 ^ 61 := by norm_num
    rw [e] at hk
    have h2 : (2:ℕ) ^ 61 = 2 ^ (2 * k) := by
      rw [hk, pow_mul]
      norm_num
    have h3 := Nat.pow_right_injective (le_refl 2) h2
    omega

/-- C3: aligning the left tree {(order 0, pixel 1)} with the right tree
{(order 1, pixel 4)} in LEFT mode yields exactly four rows: one pairing
(0,1)/(1,4) with aligned (1,4), and three rows with the right side absent and
aligned pixels (1,5), (1,6), (1,7).  At reference order 1 these tile pairs
correspond to the intervals listed, as the `pixelOfInterval` equations
record. -/
theorem alignTrees_left_concrete :
    alignTrees 32 ⟨[(1, 2)], 0⟩ ⟨[(4, 5)], 1⟩ PixelAlignmentType.left =
      some ([(4, 5), (5, 6), (6, 7), (7, 8)],
        [⟨some (4, 8), some (4, 5), (4, 5)⟩, ⟨some (4, 8), none, (5, 6)⟩,
         ⟨some (4, 8), none, (6, 7)⟩, ⟨some (4, 8), none, (7, 8)⟩]) ∧
    pixelOfInterval 1 (4, 8) = (0, 1) ∧ pixelOfInterval 1 (4, 5) = (1, 4) ∧
    pixelOfInterval 1 (5, 6) = (1, 5) ∧ pixelOfInterval 1 (6, 7) = (1, 6) ∧
    pixelOfInterval 1 (7, 8) = (1, 7) := by
  have l40 : Nat.log 4 1 = 0 := Nat.log_eq_of_pow_le_of_lt_pow (by norm_num) (by norm_num)
  have l41 : Nat.log 4 4 = 1 := Nat.log_eq_of_pow_le_of_lt_pow (by norm_num) (by norm_num)
  refine ⟨?_, by simp [pixelOfInterval, l41], by simp [pixelOfInterval, l40],
    by simp [pixelOfInterval, l40], by simp [pixelOfInterval, l40],
    by simp [pixelOfInterval, l40]⟩
  have p1 : pixelSize 5 8 = 1 := by
    have l1 : Nat.log2 3 = 1 := by norm_num [Nat.log2]
    have f5 : maxP4FromOf 5 = 1 := by decide
    simp [pixelSize, maxP4ToOf, l1, f5]
  have p2 : pixelSize 6 8 = 1 := by
    have l1 : Nat.log2 2 = 1 := by norm_num [Nat.log2]
    have f6 : maxP4FromOf 6 = 1 := by decide
    simp [pixelSize, maxP4ToOf, l1, f6]
  have p3 : pixelSize 7 8 = 1 := by
    have l1 : Nat.log2 1 = 0 := by norm_num [Nat.log2]
    have f7 : maxP4FromOf 7 = 1 := by decide
    simp [pixelSize, maxP4ToOf, l1, f7]
  have hgap : addPixelsUntil 32 5 8 (4, 8) true =
      some [⟨some (4, 8), none, (5, 6)⟩, ⟨some (4, 8), none, (6, 7)⟩,
        ⟨some (4, 8), none, (7, 8)⟩] := by
    simp [addPixelsUntil, p1, p2, p3]
  simp [alignTrees, shiftTree, performAlignTrees, addRemainingPixels, hgap, verbatimRow]

/-- C6: in every mapping row that `align_trees` produces, in any mode,
whenever both a left and a right pixel are present the aligned pixel equals
whichever of the two intervals is smaller, and equals both when the two are
identical (`RowTieBreak`); and in INNER mode every row has both sides present
(`BothPresent`). -/
theorem alignTrees_tiebreak (fuel : ℕ) (L R : PixelTree) (mode : PixelAlignmentType) :
    ((alignTrees fuel L R mode).elim True fun res => ∀ row ∈ res.2, RowTieBreak row) ∧
    ((alignTrees fuel L R PixelAlignmentType.inner).elim True fun res =>
      ∀ row ∈ res.2, BothPresent row) := by
  have hBoth : (alignTrees fuel L R PixelAlignmentType.inner).elim True fun res =>
      ∀ row ∈ res.2, BothPresent row := by
    rw [alignTrees_inner_eq]
    simp only [Option.elim_some]
    intro row hrow
    exact (performInnerAlignTrees_rows' _ _ row hrow).2
  refine ⟨?_, hBoth⟩
  by_cases hmode : mode = PixelAlignmentType.inner
  · subst hmode
    rw [alignTrees_inner_eq]
    simp only [Option.elim_some]
    intro row hrow
    exact (performInnerAlignTrees_rows' _ _ row hrow).1
  · rw [alignTrees_noninner_eq fuel L R mode hmode]
    have h := performAlignTrees_tiebreak' fuel
      (shiftTree L.tree (max L.treeOrder R.treeOrder - L.treeOrder))
      (shiftTree R.tree (max L.treeOrder R.treeOrder - R.treeOrder))
      (decide (mode = PixelAlignmentType.left ∨ mode = PixelAlignmentType.outer))
      (decide (mode = PixelAlignmentType.right ∨ mode = PixelAlignmentType.outer)) 0
    cases hrec : performAlignTrees fuel
        (shiftTree L.tree (max L.treeOrder R.treeOrder - L.treeOrder))
        (shiftTree R.tree (max L.treeOrder R.treeOrder - R.treeOrder))
        (decide (mode = PixelAlignmentType.left ∨ mode = PixelAlignmentType.outer))
        (decide (mode = PixelAlignmentType.right ∨ mode = PixelAlignmentType.outer)) 0 with
    | none => simp
    | some rows =>
      rw [hrec] at h
      simp only [Option.elim_some, Option.map_some'] at h ⊢
      exact h

/-- C7: for every well-formed tree `T`, INNER alignment of `T` with itself
produces one row per interval with left, right and aligned pixels all equal,
and an aligned tree identical to `T`'s intervals. -/
theorem alignTrees_inner_self (fuel : ℕ) (T : PixelTree) (hT : WellFormedTree T) :
    alignTrees fuel T T PixelAlignmentType.inner =
      some (T.tree, T.tree.map fun iv => ⟨some iv, some iv, iv⟩) := by
  have hpos : ∀ iv ∈ T.tree, iv.1 < iv.2 := fun iv hiv => (hT.2.2 iv hiv).1.1
  have hself := performInnerAlignTrees_self T.tree hpos
  rw [alignTrees_inner_eq, Nat.max_self, Nat.sub_self, shiftTree_zero, hself]
  have hmap : ((fun row : MapRow => row.apix) ∘ fun iv : Iv =>
      ({ lpix := some iv, rpix := some iv, apix := iv } : MapRow)) = id := rfl
  simp [hmap]

/-- Witness for C7: self-alignment of the concrete well-formed tree
{(order 0, pixel 0)} at reference order 1. -/
theorem alignTrees_inner_self_witness :
    WellFormedTree ⟨[(0, 4)], 0⟩ ∧
    alignTrees 1 ⟨[(0, 4)], 0⟩ ⟨[(0, 4)], 0⟩ PixelAlignmentType.inner =
      some ([(0, 4)], [⟨some (0, 4), some (0, 4), (0, 4)⟩]) := by
  refine ⟨wellFormedTree_ex, ?_⟩
  have h := alignTrees_inner_self 1 ⟨[(0, 4)], 0⟩ wellFormedTree_ex
  simpa using h

/-- C8: given declination values all within [-90, 90], `validate_box` raises
the invalid ra/dec range error exactly when both `ra` and `dec` are `None`,
or `ra` is given and is not a pair of two distinct bounds, or `dec` is given
and is not a pair of two strictly ascending bounds; in particular
`validate_box(None, None)` and `validate_box((10, 10), None)` raise it. -/
theorem validate_box_spec (ra dec : Option (List ℚ)) (hdec : decInRange dec = true) :
    (validate_box ra dec = some VErr.invalidRadecRange ↔
      (ra = none ∧ dec = none) ∨
      (∃ l, ra = some l ∧ ¬ ∃ a b : ℚ, l = [a, b] ∧ a ≠ b) ∨
      (∃ l, dec = some l ∧ ¬ ∃ a b : ℚ, l = [a, b] ∧ a < b)) ∧
    validate_box none none = some VErr.invalidRadecRange ∧
    validate_box (some [10, 10]) none = some VErr.invalidRadecRange := by
  refine ⟨?_, by simp [validate_box, raRangeBad, decRangeBad], ?_⟩
  · rw [validate_box_eq ra dec hdec]
    by_cases h : (ra.isNone && dec.isNone || (raRangeBad ra || decRangeBad dec)) = true
    · rw [if_pos h]
      refine iff_of_true rfl ?_
      simp only [Bool.or_eq_true, Bool.and_eq_true, Option.isNone_iff_eq_none] at h
      rcases h with ⟨h1, h2⟩ | h | h
      · exact Or.inl ⟨h1, h2⟩
      · cases ra with
        | none => simp [raRangeBad] at h
        | some l =>
          refine Or.inr (Or.inl ⟨l, rfl, fun hex => ?_⟩)
          have h2 := (raRangeBad_iff l).mpr hex
          rw [h] at h2
          simp at h2
      · cases dec with
        | none => simp [decRangeBad] at h
        | some d =>
          refine Or.inr (Or.inr ⟨d, rfl, fun hex => ?_⟩)
          have h2 := (decRangeBad_iff d).mpr hex
          rw [h] at h2
          simp at h2
    · rw [if_neg h]
      refine iff_of_false (by simp) ?_
      simp only [Bool.or_eq_true, Bool.and_eq_true, Option.isNone_iff_eq_none, not_or] at h
      obtain ⟨hnn, hra, hdc⟩ := h
      rintro (⟨h1, h2⟩ | ⟨l, rfl, hbad⟩ | ⟨l, rfl, hbad⟩)
      · exact hnn ⟨h1, h2⟩
      · have hf : raRangeBad (some l) = false := by
          cases hq : raRangeBad (some l)
          · rfl
          · exact absurd hq hra
        exact hbad ((raRangeBad_iff l).mp hf)
      · have hf : decRangeBad (some l) = false := by
          cases hq : decRangeBad (some l)
          · rfl
          · exact absurd hq hdc
        exact hbad ((decRangeBad_iff l).mp hf)
  · have hd : ((10:ℚ) :: [10]).dedup = [10] := by
      rw [List.dedup_cons_of_mem (by simp), List.dedup_cons_of_not_mem (by simp),
        List.dedup_nil]
    simp [validate_box, raRangeBad, decRangeBad, hd]

/-- Witness for C8: the theorem applied at `ra = (10, 10)`, `dec = None`. -/
theorem validate_box_spec_witness :
    decInRange none = true ∧
    ((validate_box (some [10, 10]) none = some VErr.invalidRadecRange ↔
      (some [(10:ℚ), 10] = none ∧ (none : Option (List ℚ)) = none) ∨
      (∃ l, some [(10:ℚ), 10] = some l ∧ ¬ ∃ a b : ℚ, l = [a, b] ∧ a ≠ b) ∨
      (∃ l, (none : Option (List ℚ)) = some l ∧ ¬ ∃ a b : ℚ, l = [a, b] ∧ a < b)) ∧
     validate_box none none = some VErr.invalidRadecRange ∧
     validate_box (some [10, 10]) none = some VErr.invalidRadecRange) :=
  ⟨rfl, validate_box_spec (some [10, 10]) none rfl⟩

/-- C9: aligning two empty trees returns an empty aligned tree and an empty
mapping, for every combination mode and all reference orders. -/
theorem alignTrees_empty_trees (fuel o1 o2 : ℕ) (mode : PixelAlignmentType) :
    alignTrees fuel ⟨[], o1⟩ ⟨[], o2⟩ mode = some ([], []) := by
  cases mode <;>
    simp [alignTrees, shiftTree, performAlignTrees, performInnerAlignTrees]

/-- C10 counterexample: the claim predicts the invalid-coordinates-shape error
for every vertex input whose rows are not length-2 pairs, but on the ragged
input [[1, 2, 3], [4, 5]] the `np.array` coercion itself raises before
`validate_polygon` reaches the shape check, so no validator error is
produced. -/
theorem validate_polygon_ragged :
    validate_polygon (fun _ => none) [[1, 2, 3], [4, 5]] = some VErr.externalError ∧
    VErr.externalError ≠ VErr.invalidCoordsShape := by
  constructor
  · simp [validate_polygon, npShape1]
  · simp

/-- C10 (amended: restricted to non-empty rectangular inputs, on which the
numpy coercion itself succeeds): `validate_polygon` raises the
invalid-coordinates-shape error — an error kind that the spec's catalogue
omits — for every vertex input whose common row length is not 2, before the
declination, vertex-count, duplicate, degeneracy and convexity checks run
(the result does not depend on the convexity checker at all). -/
theorem validate_polygon_shape (checker : List (List ℚ) → Option VErr)
    (vertices : List (List ℚ)) (row0 : List ℚ) (rest : List (List ℚ))
    (hv : vertices = row0 :: rest)
    (hrect : ∀ r ∈ rest, r.length = row0.length)
    (hL : row0.length ≠ 2) :
    validate_polygon checker vertices = some VErr.invalidCoordsShape := by
  subst hv
  have hall : rest.all (fun r => r.length = row0.length) = true := by
    rw [List.all_eq_true]
    intro r hr
    simp [hrect r hr]
  have hs : npShape1 (row0 :: rest) = some row0.length := by
    simp [npShape1, hall]
  simp [validate_polygon, hs, hL]

/-- Witness for C10: the single three-coordinate row [[1, 2, 3]]. -/
theorem validate_polygon_shape_witness :
    ([[1, 2, 3]] : List (List ℚ)) = [1, 2, 3] :: [] ∧
    (∀ r ∈ ([] : List (List ℚ)), r.length = ([1, 2, 3] : List ℚ).length) ∧
    ([1, 2, 3] : List ℚ).length ≠ 2 ∧
    validate_polygon (fun _ => none) [[1, 2, 3]] = some VErr.invalidCoordsShape :=
  ⟨rfl, by simp, by simp,
    validate_polygon_shape (fun _ => none) [[1, 2, 3]] [1, 2, 3] [] rfl (by simp) (by simp)⟩

/-! ### Coverage of the decomposer with the float logarithm abstracted -/

theorem maxP4ToOfF_def (flog2 : ℕ → ℕ) (rem : ℕ) :
    maxP4ToOfF flog2 rem = 2 ^ (flog2 rem - flog2 rem % 2) := rfl

theorem pixelSizeF_def (flog2 : ℕ → ℕ) (a b : ℕ) :
    pixelSizeF flog2 a b = min (maxP4ToOfF flog2 (b - a)) (maxP4FromOf a) := rfl

theorem pow2_dvd_of_le {i j : ℕ} (h : (2:ℕ) ^ i ≤ 2 ^ j) : (2:ℕ) ^ i ∣ 2 ^ j :=
  pow_dvd_pow 2 ((Nat.pow_le_pow_iff_right (by norm_num)).mp h)

theorem add_dvd_le {d a c : ℕ} (h1 : d ∣ a) (h2 : d ∣ c) (h3 : a < c) : a + d ≤ c := by
  have h4 : d ∣ c - a := Nat.dvd_sub' h2 h1
  have h5 : d ≤ c - a := Nat.le_of_dvd (by omega) h4
  omega

theorem maxP4FromOf_pos_dvd {a : ℕ} (ha : 1 ≤ a) (h63 : a < 2 ^ 63) :
    1 ≤ maxP4FromOf a ∧ maxP4FromOf a ∣ a ∧ ∃ i, maxP4FromOf a = 2 ^ i := by
  obtain ⟨t, m, hm2, rfl⟩ :=
    Nat.exists_eq_pow_mul_and_not_dvd (Nat.one_le_iff_ne_zero.mp ha) 2 (by norm_num)
  have hm : m % 2 = 1 := by omega
  have hF := maxP4FromOf_spec hm h63
  by_cases h1 : t % 2 = 1 ∧ t < 60
  · rw [hF, if_pos h1]
    refine ⟨pow_pos (show (0:ℕ) < 2 by norm_num) _, ?_, ⟨t - 1, rfl⟩⟩
    have hd1 : (2:ℕ) ^ (t - 1) ∣ 2 ^ t := pow_dvd_pow 2 (by omega)
    exact dvd_trans hd1 (dvd_mul_right _ _)
  · rw [hF, if_neg h1]
    exact ⟨pow_pos (show (0:ℕ) < 2 by norm_num) _, dvd_mul_right _ _, ⟨t, rfl⟩⟩

theorem maxP4ToOfF_p4 (flog2 : ℕ → ℕ) (rem : ℕ) :
    ∃ j, maxP4ToOfF flog2 rem = 4 ^ j := by
  refine ⟨flog2 rem / 2, ?_⟩
  rw [maxP4ToOfF_def, show (4:ℕ) = 2 ^ 2 from rfl, ← pow_mul]
  congr 1
  omega

theorem maxP4ToOfF_lt {flog2 : ℕ → ℕ} (hf : FLog2OK flog2) {rem : ℕ} (h : 1 ≤ rem) :
    maxP4ToOfF flog2 rem < 2 * rem := by
  have h1 := hf rem h
  rw [maxP4ToOfF_def]
  have h2 : (2:ℕ) ^ (flog2 rem - flog2 rem % 2) ≤ 2 ^ flog2 rem :=
    Nat.pow_le_pow_right (by norm_num) (by omega)
  omega

theorem pixelSizeF_step {flog2 : ℕ → ℕ} (hf : FLog2OK flog2) {a b : ℕ} {pix : Iv}
    (hpix : IvOK pix) (hB : pix.2 ≤ 2 ^ 62) (ha : 1 ≤ a) (h1 : pix.1 ≤ a)
    (hab : a < b) (hb2 : b ≤ pix.2) :
    1 ≤ pixelSizeF flog2 a b ∧ pixelSizeF flog2 a b ∣ a ∧
      a + pixelSizeF flog2 a b ≤ pix.2 := by
  obtain ⟨hpp, hP4, hdvL⟩ := hpix
  obtain ⟨mm, hmm⟩ := isP4_exists hP4
  have h63 : a < 2 ^ 63 := by
    have h0 : (2:ℕ) ^ 62 ≤ 2 ^ 63 := by norm_num
    omega
  obtain ⟨hF1, hF2, i, hFi⟩ := maxP4FromOf_pos_dvd ha h63
  have hrem1 : 1 ≤ b - a := by omega
  obtain ⟨j, hTj⟩ := maxP4ToOfF_p4 flog2 (b - a)
  have hTlt := maxP4ToOfF_lt hf hrem1
  have hpm : (0:ℕ) < 4 ^ mm := pow_pos (by norm_num) mm
  have hjm : (4:ℕ) ^ j ≤ 4 ^ mm := by
    rw [hTj] at hTlt
    have h2 : b - a ≤ pix.2 - pix.1 := by omega
    have h3 : (4:ℕ) ^ j < 2 * 4 ^ mm := by omega
    by_contra hc
    push_neg at hc
    have h4 : mm < j := (Nat.pow_lt_pow_iff_right (by norm_num : 1 < 4)).mp hc
    have h5 : (4:ℕ) ^ (mm + 1) ≤ 4 ^ j := Nat.pow_le_pow_right (by norm_num) (by omega)
    have h6 : (4:ℕ) ^ (mm + 1) = 4 * 4 ^ mm := by
      rw [pow_succ]
      ring
    omega
  have hdm : (4:ℕ) ^ mm ∣ pix.1 := by
    rw [← hmm]
    exact hdvL
  have hdm2 : (4:ℕ) ^ mm ∣ pix.2 := by
    have he : pix.2 = pix.1 + 4 ^ mm := by omega
    rw [he]
    exact dvd_add hdm (dvd_refl _)
  rw [pixelSizeF_def]
  rcases le_total (maxP4ToOfF flog2 (b - a)) (maxP4FromOf a) with hmin | hmin
  · rw [min_eq_left hmin]
    rw [hTj]
    rw [hTj, hFi] at hmin
    have hdvda : (4:ℕ) ^ j ∣ a := by
      have h7 : (4:ℕ) ^ j = 2 ^ (2 * j) := by
        rw [pow_mul]
        norm_num
      rw [h7]
      rw [h7] at hmin
      refine dvd_trans (pow2_dvd_of_le hmin) ?_
      rw [← hFi]
      exact hF2
    refine ⟨pow_pos (show (0:ℕ) < 4 by norm_num) _, hdvda, ?_⟩
    have hdc : (4:ℕ) ^ j ∣ pix.2 := dvd_trans (pow4_dvd_of_le hjm) hdm2
    exact add_dvd_le hdvda hdc (by omega)
  · rw [min_eq_right hmin]
    rw [hFi]
    rw [hTj, hFi] at hmin
    have h8 : (4:ℕ) ^ mm = 2 ^ (2 * mm) := by
      rw [pow_mul]
      norm_num
    have h2i : (2:ℕ) ^ i ∣ 4 ^ mm := by
      have h7 : (2:ℕ) ^ i ≤ 2 ^ (2 * mm) := by omega
      rw [h8]
      exact pow2_dvd_of_le h7
    have hdc : (2:ℕ) ^ i ∣ pix.2 := dvd_trans h2i hdm2
    have hFa : (2:ℕ) ^ i ∣ a := by
      rw [← hFi]
      exact hF2
    exact ⟨pow_pos (show (0:ℕ) < 2 by norm_num) _, hFa, add_dvd_le hFa hdc (by omega)⟩

theorem pixelSizeF_zero_left (flog2 : ℕ → ℕ) (b : ℕ) : pixelSizeF flog2 0 b = 0 := by
  unfold pixelSizeF maxP4FromOf lowBit
  simp

theorem addPixelsUntilF_zero_from (flog2 : ℕ → ℕ) (fuel b : ℕ) (mp : Iv) (side : Bool)
    (hb : 0 < b) : addPixelsUntilF flog2 fuel 0 b mp side = none := by
  induction fuel with
  | zero => simp [addPixelsUntilF, hb]
  | succ n ih => simp [addPixelsUntilF, hb, pixelSizeF_zero_left, ih]

theorem addPixelsUntilF_cov {flog2 : ℕ → ℕ} (hf : FLog2OK flog2) (fuel : ℕ) :
    ∀ (a b : ℕ) (pix : Iv) (side : Bool), IvOK pix → pix.2 ≤ 2 ^ 62 →
    1 ≤ a → pix.1 ≤ a → a ≤ b → b ≤ pix.2 →
    (addPixelsUntilF flog2 fuel a b pix side).elim True fun rows =>
      ∃ e, b ≤ e ∧ e ≤ pix.2 ∧ cov (rows.map fun r => r.apix) = Set.Ico a e := by
  induction fuel with
  | zero =>
    intro a b pix side hpix hB ha h1 hab hb2
    by_cases h : a < b
    · simp [addPixelsUntilF, h]
    · have hab2 : a = b := by omega
      subst hab2
      have hres : addPixelsUntilF flog2 0 a a pix side = some [] := by
        simp [addPixelsUntilF]
      rw [hres]
      simp only [Option.elim_some]
      exact ⟨a, le_refl _, hb2, by simp [cov_nil, Set.Ico_self]⟩
  | succ n ihn =>
    intro a b pix side hpix hB ha h1 hab hb2
    by_cases h : a < b
    · obtain ⟨hps1, hps2, hps3⟩ := pixelSizeF_step hf hpix hB ha h1 h hb2
      have hstep : addPixelsUntilF flog2 (n + 1) a b pix side =
          Option.map (fun rest =>
            (if side then (⟨some pix, none, (a, a + pixelSizeF flog2 a b)⟩ : MapRow)
             else ⟨none, some pix, (a, a + pixelSizeF flog2 a b)⟩) :: rest)
            (addPixelsUntilF flog2 n (a + pixelSizeF flog2 a b) b pix side) := by
        simp [addPixelsUntilF, h]
      have hapix : (if side then (⟨some pix, none, (a, a + pixelSizeF flog2 a b)⟩ : MapRow)
          else ⟨none, some pix, (a, a + pixelSizeF flog2 a b)⟩).apix
          = (a, a + pixelSizeF flog2 a b) := by
        cases side <;> rfl
      by_cases h2 : a + pixelSizeF flog2 a b < b
      · have ihc := ihn (a + pixelSizeF flog2 a b) b pix side hpix hB (by omega) (by omega)
          (by omega) hb2
        cases hrec : addPixelsUntilF flog2 n (a + pixelSizeF flog2 a b) b pix side with
        | none =>
          rw [hstep, hrec]
          simp
        | some rest =>
          rw [hrec] at ihc
          rw [hstep, hrec]
          simp only [Option.map_some', Option.elim_some] at ihc ⊢
          obtain ⟨e, he1, he2, hcov⟩ := ihc
          refine ⟨e, he1, he2, ?_⟩
          rw [List.map_cons, hapix, cov_cons, hcov]
          exact Set.Ico_union_Ico_eq_Ico (by omega) (by omega)
      · have hstop : addPixelsUntilF flog2 n (a + pixelSizeF flog2 a b) b pix side
            = some [] := by
          cases n <;> simp [addPixelsUntilF, h2]
        rw [hstep, hstop]
        simp only [Option.map_some', Option.elim_some]
        refine ⟨a + pixelSizeF flog2 a b, by omega, hps3, ?_⟩
        rw [List.map_cons, hapix, List.map_nil, cov_cons, cov_nil]
        simp
    · have hab2 : a = b := by omega
      subst hab2
      have hres : addPixelsUntilF flog2 (n + 1) a a pix side = some [] := by
        simp [addPixelsUntilF]
      rw [hres]
      simp only [Option.elim_some]
      exact ⟨a, le_refl _, hb2, by simp [cov_nil, Set.Ico_self]⟩

theorem addRemainingPixelsF_cov {flog2 : ℕ → ℕ} (hf : FLog2OK flog2) (fuel : ℕ) {B : ℕ}
    (hB : B ≤ 2 ^ 62) (aU : ℕ) (pl : List Iv) (side : Bool)
    (hW : WFIvs B pl) (hhd : ∀ p ∈ pl.head?, aU ≤ p.2) :
    (addRemainingPixelsF flog2 fuel aU pl side).elim True fun rows =>
      cov (rows.map fun r => r.apix) = cov pl ∩ Set.Ici aU := by
  cases pl with
  | nil => simp [addRemainingPixelsF, cov_nil]
  | cons pix rest =>
    have hdWF : ∀ p ∈ rest, IvOK p ∧ p.2 ≤ B := fun p hp => hW.2 p (by simp [hp])
    have hpixOK : IvOK pix ∧ pix.2 ≤ B := hW.2 pix (by simp)
    have hrestge : cov rest ⊆ Set.Ici pix.2 := WFIvs_cov_ge hW
    by_cases h1 : pix.1 < aU ∧ aU < pix.2
    · have hga : 1 ≤ aU := by omega
      have hspec := addPixelsUntilF_cov hf fuel aU pix.2 pix side hpixOK.1
        (le_trans hpixOK.2 hB) hga (by omega) (le_of_lt h1.2) (le_refl _)
      cases hgap : addPixelsUntilF flog2 fuel aU pix.2 pix side with
      | none => simp [addRemainingPixelsF, h1, hgap]
      | some g =>
        rw [hgap] at hspec
        simp only [Option.elim_some] at hspec
        obtain ⟨e, hE1, hE2, hg4⟩ := hspec
        have hEe : e = pix.2 := by omega
        rw [hEe] at hg4
        have hres : addRemainingPixelsF flog2 fuel aU (pix :: rest) side =
            some (g ++ rest.map fun p => verbatimRow p side) := by
          simp [addRemainingPixelsF, h1, hgap]
        rw [hres]
        simp only [Option.elim_some]
        rw [List.map_append, map_verbatim_apix, cov_append, hg4, cov_cons]
        ext x
        simp only [Set.mem_union, Set.mem_Ico, Set.mem_inter_iff, Set.mem_Ici]
        constructor
        · rintro (hx | hx)
          · exact ⟨Or.inl ⟨by omega, hx.2⟩, hx.1⟩
          · have hx2 : pix.2 ≤ x := hrestge hx
            exact ⟨Or.inr hx, by omega⟩
        · rintro ⟨hx | hx, hax⟩
          · exact Or.inl ⟨by omega, hx.2⟩
          · exact Or.inr hx
    · have haU2 : aU ≤ pix.2 := hhd pix (by simp)
      by_cases h2 : pix.2 ≤ aU
      · have haU : aU = pix.2 := by omega
        have hres : addRemainingPixelsF flog2 fuel aU (pix :: rest) side =
            some (rest.map fun p => verbatimRow p side) := by
          simp [addRemainingPixelsF, h1, h2]
        rw [hres]
        simp only [Option.elim_some]
        rw [map_verbatim_apix, cov_cons]
        ext x
        simp only [Set.mem_union, Set.mem_Ico, Set.mem_inter_iff, Set.mem_Ici]
        constructor
        · intro hx
          have hx2 : pix.2 ≤ x := hrestge hx
          exact ⟨Or.inr hx, by omega⟩
        · rintro ⟨hx | hx, hax⟩
          · omega
          · exact hx
      · have haU : aU ≤ pix.1 := by omega
        have hres : addRemainingPixelsF flog2 fuel aU (pix :: rest) side =
            some ((pix :: rest).map fun p => verbatimRow p side) := by
          simp [addRemainingPixelsF, h1, h2]
        rw [hres]
        simp only [Option.elim_some]
        rw [map_verbatim_apix]
        have hsub : cov (pix :: rest) ⊆ Set.Ici aU := by
          intro x hx
          have h3 := WFIvs_cov_ge_start hW hx
          simp only [Set.mem_Ici] at *
          omega
        ext x
        simp only [Set.mem_inter_iff, Set.mem_Ici]
        constructor
        · intro hx
          exact ⟨hx, hsub hx⟩
        · intro hx
          exact hx.1

theorem performAlignTreesF_exit_left {flog2 : ℕ → ℕ} (hf : FLog2OK flog2) (fuel : ℕ)
    {B : ℕ} (hB : B ≤ 2 ^ 62) (r : List Iv) (incL incR : Bool) (aU : ℕ)
    (hWr : WFIvs B r) (hB3 : ∀ y ∈ r.head?, aU ≤ y.2) :
    (performAlignTreesF flog2 fuel [] r incL incR aU).elim True fun rows =>
      cov (rows.map fun row => row.apix) = SU incL incR [] r ∩ Set.Ici aU := by
  by_cases hc : incR = true ∧ r ≠ []
  · have spec := addRemainingPixelsF_cov hf fuel hB aU r false hWr hB3
    cases hm1 : addRemainingPixelsF flog2 fuel aU r false with
    | none => simp [performAlignTreesF, hc, hm1]
    | some m1 =>
      rw [hm1] at spec
      simp only [Option.elim_some] at spec
      have hres : performAlignTreesF flog2 fuel [] r incL incR aU = some (m1 ++ []) := by
        simp [performAlignTreesF, hc, hm1]
      rw [hres]
      simp only [Option.elim_some, List.append_nil]
      rw [spec]
      ext x
      simp only [Set.mem_inter_iff, Set.mem_Ici, mem_SU, cov_nil, Set.mem_empty_iff_false,
        and_false, false_or, false_and]
      constructor
      · rintro ⟨hx, hax⟩
        exact ⟨⟨hc.1, hx⟩, hax⟩
      · rintro ⟨⟨_, hx⟩, hax⟩
        exact ⟨hx, hax⟩
  · have hres : performAlignTreesF flog2 fuel [] r incL incR aU = some [] := by
      simp [performAlignTreesF, hc]
    rw [hres]
    simp only [Option.elim_some]
    have hcovr : incR = true → r = [] := by
      intro h
      by_contra hne
      exact hc ⟨h, hne⟩
    ext x
    simp only [List.map_nil, cov_nil, Set.mem_empty_iff_false, false_iff]
    intro hx
    rcases mem_SU.mp hx.1 with ⟨_, hx2⟩ | ⟨hR, hx2⟩
    · rw [cov_nil] at hx2
      exact hx2
    · rw [hcovr hR, cov_nil] at hx2
      exact hx2

theorem performAlignTreesF_exit_right {flog2 : ℕ → ℕ} (hf : FLog2OK flog2) (fuel : ℕ)
    {B : ℕ} (hB : B ≤ 2 ^ 62) (l0 : Iv) (ls : List Iv) (incL incR : Bool) (aU : ℕ)
    (hWl : WFIvs B (l0 :: ls)) (hB2 : ∀ x ∈ (l0 :: ls).head?, aU ≤ x.2) :
    (performAlignTreesF flog2 fuel (l0 :: ls) [] incL incR aU).elim True fun rows =>
      cov (rows.map fun row => row.apix) = SU incL incR (l0 :: ls) [] ∩ Set.Ici aU := by
  by_cases hc : incL = true
  · have spec := addRemainingPixelsF_cov hf fuel hB aU (l0 :: ls) true hWl hB2
    cases hm2 : addRemainingPixelsF flog2 fuel aU (l0 :: ls) true with
    | none => simp [performAlignTreesF, hc, hm2]
    | some m2 =>
      rw [hm2] at spec
      simp only [Option.elim_some] at spec
      have hres : performAlignTreesF flog2 fuel (l0 :: ls) [] incL incR aU
          = some ([] ++ m2) := by
        simp [performAlignTreesF, hc, hm2]
      rw [hres]
      simp only [Option.elim_some, List.nil_append]
      rw [spec]
      ext x
      simp only [Set.mem_inter_iff, Set.mem_Ici, mem_SU, cov_nil, Set.mem_empty_iff_false,
        and_false, or_false]
      constructor
      · rintro ⟨hx, hax⟩
        exact ⟨⟨hc, hx⟩, hax⟩
      · rintro ⟨⟨_, hx⟩, hax⟩
        exact ⟨hx, hax⟩
  · have hres : performAlignTreesF flog2 fuel (l0 :: ls) [] incL incR aU = some [] := by
      simp [performAlignTreesF, hc]
    rw [hres]
    simp only [Option.elim_some]
    ext x
    simp only [List.map_nil, cov_nil, Set.mem_empty_iff_false, false_iff]
    intro hx
    rcases mem_SU.mp hx.1 with ⟨hL, _⟩ | ⟨_, hx2⟩
    · exact hc hL
    · rw [cov_nil] at hx2
      exact hx2

theorem performAlignTreesF_cov {flog2 : ℕ → ℕ} (hf : FLog2OK flog2) (fuel : ℕ)
    {B : ℕ} (hB : B ≤ 2 ^ 62) :
    ∀ (n : ℕ) (l r : List Iv), l.length + r.length ≤ n →
    ∀ (incL incR : Bool) (aU : ℕ),
    WFIvs B l → WFIvs B r →
    (incL = true ∨ incR = true) →
    (∀ x ∈ l.head?, ∀ y ∈ r.head?, aU ≤ max x.1 y.1) →
    (∀ x ∈ l.head?, aU ≤ x.2) →
    (∀ y ∈ r.head?, aU ≤ y.2) →
    (performAlignTreesF flog2 fuel l r incL incR aU).elim True fun rows =>
      cov (rows.map fun row => row.apix) = SU incL incR l r ∩ Set.Ici aU := by
  intro n
  induction n with
  | zero =>
    intro l r hlen incL incR aU hWl hWr hInc hB1 hB2 hB3
    cases l with
    | nil => exact performAlignTreesF_exit_left hf fuel hB r incL incR aU hWr hB3
    | cons l0 ls =>
      cases r with
      | nil => exact performAlignTreesF_exit_right hf fuel hB l0 ls incL incR aU hWl hB2
      | cons r0 rs => simp at hlen
  | succ n ih =>
    intro l r hlen incL incR aU hWl hWr hInc hB1 hB2 hB3
    cases l with
    | nil => exact performAlignTreesF_exit_left hf fuel hB r incL incR aU hWr hB3
    | cons l0 ls =>
      cases r with
      | nil => exact performAlignTreesF_exit_right hf fuel hB l0 ls incL incR aU hWl hB2
      | cons r0 rs =>
        have hl0 : IvOK l0 := (hWl.2 l0 (by simp)).1
        have hl0B : l0.2 ≤ B := (hWl.2 l0 (by simp)).2
        have hr0 : IvOK r0 := (hWr.2 r0 (by simp)).1
        have hr0B : r0.2 ≤ B := (hWr.2 r0 (by simp)).2
        have hWls : WFIvs B ls := WFIvs_tail hWl
        have hWrs : WFIvs B rs := WFIvs_tail hWr
        have hlsge : ∀ p ∈ ls, l0.2 ≤ p.1 := WFIvs_head_le hWl
        have hrsge : ∀ p ∈ rs, r0.2 ≤ p.1 := WFIvs_head_le hWr
        have hlscov : cov ls ⊆ Set.Ici l0.2 := WFIvs_cov_ge hWl
        have hrscov : cov rs ⊆ Set.Ici r0.2 := WFIvs_cov_ge hWr
        have hlcov0 : cov (l0 :: ls) ⊆ Set.Ici l0.1 := WFIvs_cov_ge_start hWl
        have hrcov0 : cov (r0 :: rs) ⊆ Set.Ici r0.1 := WFIvs_cov_ge_start hWr
        have haU1 : aU ≤ max l0.1 r0.1 := hB1 l0 (by simp) r0 (by simp)
        have haU2 : aU ≤ l0.2 := hB2 l0 (by simp)
        have haU3 : aU ≤ r0.2 := hB3 r0 (by simp)
        have hll : l0.1 < l0.2 := hl0.1
        have hrr : r0.1 < r0.2 := hr0.1
        have hlen1 : (l0 :: ls).length + rs.length ≤ n := by
          simp only [List.length_cons] at hlen ⊢
          omega
        have hlen2 : ls.length + (r0 :: rs).length ≤ n := by
          simp only [List.length_cons] at hlen ⊢
          omega
        have hlen3 : ls.length + rs.length ≤ n := by
          simp only [List.length_cons] at hlen
          omega
        have hlsB2 : ∀ c : ℕ, c ≤ l0.2 → ∀ x ∈ ls.head?, c ≤ x.2 := by
          intro c hc x hx
          have hm := List.mem_of_mem_head? hx
          have h1 := hlsge x hm
          have h2 := (hWls.2 x hm).1.1
          omega
        have hrsB3 : ∀ c : ℕ, c ≤ r0.2 → ∀ y ∈ rs.head?, c ≤ y.2 := by
          intro c hc y hy
          have hm := List.mem_of_mem_head? hy
          have h1 := hrsge y hm
          have h2 := (hWrs.2 y hm).1.1
          omega
        by_cases hg1 : l0.1 ≥ r0.2
        · -- left pix ahead of right, no overlap, so move right on
          by_cases hIncR : incR = true
          · by_cases hc1 : aU ≤ r0.1
            · -- no coverage of right pix yet: add whole right pix
              have ihc := ih (l0 :: ls) rs hlen1 incL incR r0.2 hWl hWrs hInc
                (by
                  intro x hx y hy
                  simp at hx
                  subst hx
                  have h3 : r0.2 ≤ l0.1 := hg1
                  exact le_trans h3 (le_max_left _ _))
                (by
                  intro x hx
                  simp at hx
                  subst hx
                  omega)
                (hrsB3 r0.2 (le_refl _))
              have hres : performAlignTreesF flog2 fuel (l0 :: ls) (r0 :: rs) incL incR aU =
                  Option.map (fun rest => (⟨none, some r0, r0⟩ : MapRow) :: rest)
                    (performAlignTreesF flog2 fuel (l0 :: ls) rs incL incR r0.2) := by
                simp [performAlignTreesF, hg1, hIncR, hc1]
              cases hrec : performAlignTreesF flog2 fuel (l0 :: ls) rs incL incR r0.2 with
              | none =>
                rw [hres, hrec]
                simp
              | some rest =>
                rw [hrec] at ihc
                rw [hres, hrec]
                simp only [Option.map_some', Option.elim_some] at ihc ⊢
                have ih3 := ihc
                rw [List.map_cons, cov_cons, ih3]
                ext x
                simp only [Set.mem_union, Set.mem_Ico, Set.mem_inter_iff, Set.mem_Ici, mem_SU,
                  mem_cov_cons]
                constructor
                · rintro (hx | ⟨hSU, hx2⟩)
                  · exact ⟨Or.inr ⟨hIncR, Or.inl hx⟩, by omega⟩
                  · rcases hSU with ⟨hL, hx3⟩ | ⟨hR, hx3⟩
                    · exact ⟨Or.inl ⟨hL, hx3⟩, by omega⟩
                    · exact ⟨Or.inr ⟨hR, Or.inr hx3⟩, by omega⟩
                · rintro ⟨hSU, hax⟩
                  rcases hSU with ⟨hL, hx3⟩ | ⟨hR, hx3⟩
                  · have hge : l0.1 ≤ x := hlcov0 (mem_cov_cons.mpr hx3)
                    exact Or.inr ⟨Or.inl ⟨hL, hx3⟩, by omega⟩
                  · rcases hx3 with hx3 | hx3
                    · exact Or.inl hx3
                    · have hge : r0.2 ≤ x := hrscov hx3
                      exact Or.inr ⟨Or.inr ⟨hR, hx3⟩, by omega⟩
            · by_cases hc2 : aU < r0.2
              · -- partial coverage of right pix: cover the rest of it
                have hga : 1 ≤ aU := by omega
                have hspec := addPixelsUntilF_cov hf fuel aU r0.2 r0 false hr0
                  (le_trans hr0B hB) hga (by omega) (le_of_lt hc2) (le_refl _)
                cases hgap : addPixelsUntilF flog2 fuel aU r0.2 r0 false with
                | none =>
                  have hres : performAlignTreesF flog2 fuel (l0 :: ls) (r0 :: rs) incL incR aU
                      = none := by
                    simp [performAlignTreesF, hg1, hIncR, hc1, hc2, hgap]
                  rw [hres]
                  simp
                | some g =>
                  rw [hgap] at hspec
                  simp only [Option.elim_some] at hspec
                  obtain ⟨e, hE1, hE2, hc4c⟩ := hspec
                  have hEe : e = r0.2 := by omega
                  rw [hEe] at hc4c
                  have ihc := ih (l0 :: ls) rs hlen1 incL incR r0.2 hWl hWrs hInc
                    (by
                      intro x hx y hy
                      simp at hx
                      subst hx
                      have h3 : r0.2 ≤ l0.1 := hg1
                      exact le_trans h3 (le_max_left _ _))
                    (by
                      intro x hx
                      simp at hx
                      subst hx
                      omega)
                    (hrsB3 r0.2 (le_refl _))
                  have hres : performAlignTreesF flog2 fuel (l0 :: ls) (r0 :: rs) incL incR aU =
                      Option.map (fun rest => g ++ rest)
                        (performAlignTreesF flog2 fuel (l0 :: ls) rs incL incR r0.2) := by
                    simp [performAlignTreesF, hg1, hIncR, hc1, hc2, hgap]
                  cases hrec : performAlignTreesF flog2 fuel (l0 :: ls) rs incL incR r0.2 with
                  | none =>
                    rw [hres, hrec]
                    simp
                  | some rest =>
                    rw [hrec] at ihc
                    rw [hres, hrec]
                    simp only [Option.map_some', Option.elim_some] at ihc ⊢
                    have ih3 := ihc
                    rw [List.map_append, cov_append, hc4c, ih3]
                    ext x
                    simp only [Set.mem_union, Set.mem_Ico, Set.mem_inter_iff, Set.mem_Ici,
                      mem_SU, mem_cov_cons]
                    constructor
                    · rintro (hx | ⟨hSU, hx2⟩)
                      · exact ⟨Or.inr ⟨hIncR, Or.inl ⟨by omega, hx.2⟩⟩, by omega⟩
                      · rcases hSU with ⟨hL, hx3⟩ | ⟨hR, hx3⟩
                        · exact ⟨Or.inl ⟨hL, hx3⟩, by omega⟩
                        · exact ⟨Or.inr ⟨hR, Or.inr hx3⟩, by omega⟩
                    · rintro ⟨hSU, hax⟩
                      rcases hSU with ⟨hL, hx3⟩ | ⟨hR, hx3⟩
                      · have hge : l0.1 ≤ x := hlcov0 (mem_cov_cons.mpr hx3)
                        exact Or.inr ⟨Or.inl ⟨hL, hx3⟩, by omega⟩
                      · rcases hx3 with hx3 | hx3
                        · rcases Nat.lt_or_ge x aU with hlt | hge2
                          · omega
                          · exact Or.inl ⟨by omega, hx3.2⟩
                        · have hge : r0.2 ≤ x := hrscov hx3
                          exact Or.inr ⟨Or.inr ⟨hR, hx3⟩, by omega⟩
              · -- right pix already fully covered: just advance the cursor
                have haUeq : aU = r0.2 := by omega
                have ihc := ih (l0 :: ls) rs hlen1 incL incR aU hWl hWrs hInc
                  (by
                    intro x hx y hy
                    simp at hx
                    subst hx
                    have h3 : r0.2 ≤ l0.1 := hg1
                    have h4 : aU ≤ l0.1 := by omega
                    exact le_trans h4 (le_max_left _ _))
                  (by
                    intro x hx
                    simp at hx
                    subst hx
                    omega)
                  (hrsB3 aU (le_of_eq haUeq))
                have hres : performAlignTreesF flog2 fuel (l0 :: ls) (r0 :: rs) incL incR aU =
                    performAlignTreesF flog2 fuel (l0 :: ls) rs incL incR aU := by
                  simp [performAlignTreesF, hg1, hIncR, hc1, hc2]
                rw [hres]
                cases hrec : performAlignTreesF flog2 fuel (l0 :: ls) rs incL incR aU with
                | none => simp
                | some rest =>
                  rw [hrec] at ihc
                  simp only [Option.elim_some] at ihc ⊢
                  have ih3 := ihc
                  rw [ih3]
                  ext x
                  simp only [Set.mem_inter_iff, Set.mem_Ici, mem_SU, mem_cov_cons]
                  constructor
                  · rintro ⟨hSU, hax⟩
                    rcases hSU with ⟨hL, hx3⟩ | ⟨hR, hx3⟩
                    · exact ⟨Or.inl ⟨hL, hx3⟩, hax⟩
                    · exact ⟨Or.inr ⟨hR, Or.inr hx3⟩, hax⟩
                  · rintro ⟨hSU, hax⟩
                    rcases hSU with ⟨hL, hx3⟩ | ⟨hR, hx3⟩
                    · exact ⟨Or.inl ⟨hL, hx3⟩, hax⟩
                    · rcases hx3 with hx3 | hx3
                      · omega
                      · exact ⟨Or.inr ⟨hR, hx3⟩, hax⟩
          · -- right side not included: skip the right pix entirely
            have hIncR' : incR = false := by
              cases incR
              · rfl
              · exact absurd rfl hIncR
            have ihc := ih (l0 :: ls) rs hlen1 incL incR aU hWl hWrs hInc
              (by
                intro x hx y hy
                simp at hx
                subst hx
                have hm := List.mem_of_mem_head? hy
                have h1 := hrsge y hm
                rcases Nat.le_total aU l0.1 with h4 | h4
                · exact le_trans h4 (le_max_left _ _)
                · have h5 : aU ≤ y.1 := by omega
                  exact le_trans h5 (le_max_right _ _))
              (by
                intro x hx
                simp at hx
                subst hx
                omega)
              (by
                intro y hy
                have hm := List.mem_of_mem_head? hy
                have h1 := hrsge y hm
                have h2 := (hWrs.2 y hm).1.1
                omega)
            have hres : performAlignTreesF flog2 fuel (l0 :: ls) (r0 :: rs) incL incR aU =
                performAlignTreesF flog2 fuel (l0 :: ls) rs incL incR aU := by
              simp [performAlignTreesF, hg1, hIncR']
            rw [hres]
            cases hrec : performAlignTreesF flog2 fuel (l0 :: ls) rs incL incR aU with
            | none => simp
            | some rest =>
              rw [hrec] at ihc
              simp only [Option.elim_some] at ihc ⊢
              have ih3 := ihc
              rw [ih3]
              ext x
              simp only [Set.mem_inter_iff, Set.mem_Ici, mem_SU]
              constructor
              · rintro ⟨hSU, hax⟩
                rcases hSU with ⟨hL, hx3⟩ | ⟨hR, _⟩
                · exact ⟨Or.inl ⟨hL, hx3⟩, hax⟩
                · rw [hIncR'] at hR
                  exact absurd hR (by simp)
              · rintro ⟨hSU, hax⟩
                rcases hSU with ⟨hL, hx3⟩ | ⟨hR, _⟩
                · exact ⟨Or.inl ⟨hL, hx3⟩, hax⟩
                · rw [hIncR'] at hR
                  exact absurd hR (by simp)
        · by_cases hg2 : r0.1 ≥ l0.2
          · -- right pix ahead of left, no overlap, so move left on
            by_cases hIncL : incL = true
            · by_cases hc1 : aU ≤ l0.1
              · -- no coverage of left pix yet: add whole left pix
                have ihc := ih ls (r0 :: rs) hlen2 incL incR l0.2 hWls hWr hInc
                  (by
                    intro x hx y hy
                    simp at hy
                    subst hy
                    have h3 : l0.2 ≤ r0.1 := hg2
                    exact le_trans h3 (le_max_right _ _))
                  (hlsB2 l0.2 (le_refl _))
                  (by
                    intro y hy
                    simp at hy
                    subst hy
                    omega)
                have hres : performAlignTreesF flog2 fuel (l0 :: ls) (r0 :: rs) incL incR aU =
                    Option.map (fun rest => (⟨some l0, none, l0⟩ : MapRow) :: rest)
                      (performAlignTreesF flog2 fuel ls (r0 :: rs) incL incR l0.2) := by
                  simp [performAlignTreesF, hg1, hg2, hIncL, hc1]
                cases hrec : performAlignTreesF flog2 fuel ls (r0 :: rs) incL incR l0.2 with
                | none =>
                  rw [hres, hrec]
                  simp
                | some rest =>
                  rw [hrec] at ihc
                  rw [hres, hrec]
                  simp only [Option.map_some', Option.elim_some] at ihc ⊢
                  have ih3 := ihc
                  rw [List.map_cons, cov_cons, ih3]
                  ext x
                  simp only [Set.mem_union, Set.mem_Ico, Set.mem_inter_iff, Set.mem_Ici,
                    mem_SU, mem_cov_cons]
                  constructor
                  · rintro (hx | ⟨hSU, hx2⟩)
                    · exact ⟨Or.inl ⟨hIncL, Or.inl hx⟩, by omega⟩
                    · rcases hSU with ⟨hL, hx3⟩ | ⟨hR, hx3⟩
                      · exact ⟨Or.inl ⟨hL, Or.inr hx3⟩, by omega⟩
                      · exact ⟨Or.inr ⟨hR, hx3⟩, by omega⟩
                  · rintro ⟨hSU, hax⟩
                    rcases hSU with ⟨hL, hx3⟩ | ⟨hR, hx3⟩
                    · rcases hx3 with hx3 | hx3
                      · exact Or.inl hx3
                      · have hge : l0.2 ≤ x := hlscov hx3
                        exact Or.inr ⟨Or.inl ⟨hL, hx3⟩, by omega⟩
                    · have hge : r0.1 ≤ x := hrcov0 (mem_cov_cons.mpr hx3)
                      exact Or.inr ⟨Or.inr ⟨hR, hx3⟩, by omega⟩
              · by_cases hc2 : aU < l0.2
                · -- partial coverage of left pix: cover the rest of it
                  have hga : 1 ≤ aU := by omega
                  have hspec := addPixelsUntilF_cov hf fuel aU l0.2 l0 true hl0
                    (le_trans hl0B hB) hga (by omega) (le_of_lt hc2) (le_refl _)
                  cases hgap : addPixelsUntilF flog2 fuel aU l0.2 l0 true with
                  | none =>
                    have hres : performAlignTreesF flog2 fuel (l0 :: ls) (r0 :: rs) incL incR aU
                        = none := by
                      simp [performAlignTreesF, hg1, hg2, hIncL, hc1, hc2, hgap]
                    rw [hres]
                    simp
                  | some g =>
                    rw [hgap] at hspec
                    simp only [Option.elim_some] at hspec
                    obtain ⟨e, hE1, hE2, hc4c⟩ := hspec
                    have hEe : e = l0.2 := by omega
                    rw [hEe] at hc4c
                    have ihc := ih ls (r0 :: rs) hlen2 incL incR l0.2 hWls hWr hInc
                      (by
                        intro x hx y hy
                        simp at hy
                        subst hy
                        have h3 : l0.2 ≤ r0.1 := hg2
                        exact le_trans h3 (le_max_right _ _))
                      (hlsB2 l0.2 (le_refl _))
                      (by
                        intro y hy
                        simp at hy
                        subst hy
                        omega)
                    have hres : performAlignTreesF flog2 fuel (l0 :: ls) (r0 :: rs) incL incR aU =
                        Option.map (fun rest => g ++ rest)
                          (performAlignTreesF flog2 fuel ls (r0 :: rs) incL incR l0.2) := by
                      simp [performAlignTreesF, hg1, hg2, hIncL, hc1, hc2, hgap]
                    cases hrec : performAlignTreesF flog2 fuel ls (r0 :: rs) incL incR l0.2 with
                    | none =>
                      rw [hres, hrec]
                      simp
                    | some rest =>
                      rw [hrec] at ihc
                      rw [hres, hrec]
                      simp only [Option.map_some', Option.elim_some] at ihc ⊢
                      have ih3 := ihc
                      rw [List.map_append, cov_append, hc4c, ih3]
                      ext x
                      simp only [Set.mem_union, Set.mem_Ico, Set.mem_inter_iff, Set.mem_Ici,
                        mem_SU, mem_cov_cons]
                      constructor
                      · rintro (hx | ⟨hSU, hx2⟩)
                        · exact ⟨Or.inl ⟨hIncL, Or.inl ⟨by omega, hx.2⟩⟩, by omega⟩
                        · rcases hSU with ⟨hL, hx3⟩ | ⟨hR, hx3⟩
                          · exact ⟨Or.inl ⟨hL, Or.inr hx3⟩, by omega⟩
                          · exact ⟨Or.inr ⟨hR, hx3⟩, by omega⟩
                      · rintro ⟨hSU, hax⟩
                        rcases hSU with ⟨hL, hx3⟩ | ⟨hR, hx3⟩
                        · rcases hx3 with hx3 | hx3
                          · rcases Nat.lt_or_ge x aU with hlt | hge2
                            · omega
                            · exact Or.inl ⟨by omega, hx3.2⟩
                          · have hge : l0.2 ≤ x := hlscov hx3
                            exact Or.inr ⟨Or.inl ⟨hL, hx3⟩, by omega⟩
                        · have hge : r0.1 ≤ x := hrcov0 (mem_cov_cons.mpr hx3)
                          exact Or.inr ⟨Or.inr ⟨hR, hx3⟩, by omega⟩
                · -- left pix already fully covered: just advance the cursor
                  have haUeq : aU = l0.2 := by omega
                  have ihc := ih ls (r0 :: rs) hlen2 incL incR aU hWls hWr hInc
                    (by
                      intro x hx y hy
                      simp at hy
                      subst hy
                      have h3 : l0.2 ≤ r0.1 := hg2
                      have h4 : aU ≤ r0.1 := by omega
                      exact le_trans h4 (le_max_right _ _))
                    (hlsB2 aU (le_of_eq haUeq))
                    (by
                      intro y hy
                      simp at hy
                      subst hy
                      omega)
                  have hres : performAlignTreesF flog2 fuel (l0 :: ls) (r0 :: rs) incL incR aU =
                      performAlignTreesF flog2 fuel ls (r0 :: rs) incL incR aU := by
                    simp [performAlignTreesF, hg1, hg2, hIncL, hc1, hc2]
                  rw [hres]
                  cases hrec : performAlignTreesF flog2 fuel ls (r0 :: rs) incL incR aU with
                  | none => simp
                  | some rest =>
                    rw [hrec] at ihc
                    simp only [Option.elim_some] at ihc ⊢
                    have ih3 := ihc
                    rw [ih3]
                    ext x
                    simp only [Set.mem_inter_iff, Set.mem_Ici, mem_SU, mem_cov_cons]
                    constructor
                    · rintro ⟨hSU, hax⟩
                      rcases hSU with ⟨hL, hx3⟩ | ⟨hR, hx3⟩
                      · exact ⟨Or.inl ⟨hL, Or.inr hx3⟩, hax⟩
                      · exact ⟨Or.inr ⟨hR, hx3⟩, hax⟩
                    · rintro ⟨hSU, hax⟩
                      rcases hSU with ⟨hL, hx3⟩ | ⟨hR, hx3⟩
                      · rcases hx3 with hx3 | hx3
                        · omega
                        · exact ⟨Or.inl ⟨hL, hx3⟩, hax⟩
                      · exact ⟨Or.inr ⟨hR, hx3⟩, hax⟩
            · -- left side not included: skip the left pix entirely
              have hIncL' : incL = false := by
                cases incL
                · rfl
                · exact absurd rfl hIncL
              have ihc := ih ls (r0 :: rs) hlen2 incL incR aU hWls hWr hInc
                (by
                  intro x hx y hy
                  simp at hy
                  subst hy
                  have hm := List.mem_of_mem_head? hx
                  have h1 := hlsge x hm
                  rcases Nat.le_total aU r0.1 with h4 | h4
                  · exact le_trans h4 (le_max_right _ _)
                  · have h5 : aU ≤ x.1 := by omega
                    exact le_trans h5 (le_max_left _ _))
                (by
                  intro x hx
                  have hm := List.mem_of_mem_head? hx
                  have h1 := hlsge x hm
                  have h2 := (hWls.2 x hm).1.1
                  omega)
                (by
                  intro y hy
                  simp at hy
                  subst hy
                  omega)
              have hres : performAlignTreesF flog2 fuel (l0 :: ls) (r0 :: rs) incL incR aU =
                  performAlignTreesF flog2 fuel ls (r0 :: rs) incL incR aU := by
                simp [performAlignTreesF, hg1, hg2, hIncL']
              rw [hres]
              cases hrec : performAlignTreesF flog2 fuel ls (r0 :: rs) incL incR aU with
              | none => simp
              | some rest =>
                rw [hrec] at ihc
                simp only [Option.elim_some] at ihc ⊢
                have ih3 := ihc
                rw [ih3]
                ext x
                simp only [Set.mem_inter_iff, Set.mem_Ici, mem_SU]
                constructor
                · rintro ⟨hSU, hax⟩
                  rcases hSU with ⟨hL, _⟩ | ⟨hR, hx3⟩
                  · rw [hIncL'] at hL
                    exact absurd hL (by simp)
                  · exact ⟨Or.inr ⟨hR, hx3⟩, hax⟩
                · rintro ⟨hSU, hax⟩
                  rcases hSU with ⟨hL, _⟩ | ⟨hR, hx3⟩
                  · rw [hIncL'] at hL
                    exact absurd hL (by simp)
                  · exact ⟨Or.inr ⟨hR, hx3⟩, hax⟩
          · -- the two pixels overlap
            have hov1 : l0.1 < r0.2 := by omega
            have hov2 : r0.1 < l0.2 := by omega
            by_cases hg3 : l0.2 - l0.1 = r0.2 - r0.1
            · -- overlapping & same size => same pixel so add and move both on
              have heq : l0 = r0 := p4_eq_of_overlap hl0 hr0 hg3 hov1 hov2
              have he1 : l0.1 = r0.1 := by rw [heq]
              have he2 : l0.2 = r0.2 := by rw [heq]
              have haUl : aU ≤ l0.1 := by omega
              have ihc := ih ls rs hlen3 incL incR l0.2 hWls hWrs hInc
                (by
                  intro x hx y hy
                  have hm := List.mem_of_mem_head? hx
                  have h1 := hlsge x hm
                  exact le_trans h1 (le_max_left _ _))
                (hlsB2 l0.2 (le_refl _))
                (hrsB3 l0.2 (le_of_eq he2))
              have hres : performAlignTreesF flog2 fuel (l0 :: ls) (r0 :: rs) incL incR aU =
                  Option.map (fun rest => (⟨some l0, some r0, l0⟩ : MapRow) :: rest)
                    (performAlignTreesF flog2 fuel ls rs incL incR l0.2) := by
                simp [performAlignTreesF, hg1, hg2, hg3]
              cases hrec : performAlignTreesF flog2 fuel ls rs incL incR l0.2 with
              | none =>
                rw [hres, hrec]
                simp
              | some rest =>
                rw [hrec] at ihc
                rw [hres, hrec]
                simp only [Option.map_some', Option.elim_some] at ihc ⊢
                have ih3 := ihc
                rw [List.map_cons, cov_cons, ih3]
                ext x
                simp only [Set.mem_union, Set.mem_Ico, Set.mem_inter_iff, Set.mem_Ici, mem_SU,
                  mem_cov_cons]
                constructor
                · rintro (hx | ⟨hSU, hx2⟩)
                  · rcases hInc with hL | hR
                    · exact ⟨Or.inl ⟨hL, Or.inl hx⟩, by omega⟩
                    · exact ⟨Or.inr ⟨hR, Or.inl ⟨by omega, by omega⟩⟩, by omega⟩
                  · rcases hSU with ⟨hL, hx3⟩ | ⟨hR, hx3⟩
                    · exact ⟨Or.inl ⟨hL, Or.inr hx3⟩, by omega⟩
                    · exact ⟨Or.inr ⟨hR, Or.inr hx3⟩, by omega⟩
                · rintro ⟨hSU, hax⟩
                  rcases hSU with ⟨hL, hx3⟩ | ⟨hR, hx3⟩
                  · rcases hx3 with hx3 | hx3
                    · exact Or.inl hx3
                    · have hge : l0.2 ≤ x := hlscov hx3
                      exact Or.inr ⟨Or.inl ⟨hL, hx3⟩, by omega⟩
                  · rcases hx3 with hx3 | hx3
                    · exact Or.inl ⟨by omega, by omega⟩
                    · have hge : r0.2 ≤ x := hrscov hx3
                      exact Or.inr ⟨Or.inr ⟨hR, hx3⟩, by omega⟩
            · by_cases hg4 : l0.2 - l0.1 < r0.2 - r0.1
              · -- overlapping and left smaller so add left and move left on
                have hsub := p4_subset_of_overlap hl0 hr0 (le_of_lt hg4) hov1 hov2
                have hsub1 : r0.1 ≤ l0.1 := hsub.1
                have hsub2 : l0.2 ≤ r0.2 := hsub.2
                have haUl : aU ≤ l0.1 := by omega
                have ihc := ih ls (r0 :: rs) hlen2 incL incR l0.2 hWls hWr hInc
                  (by
                    intro x hx y hy
                    have hm := List.mem_of_mem_head? hx
                    have h1 := hlsge x hm
                    exact le_trans h1 (le_max_left _ _))
                  (hlsB2 l0.2 (le_refl _))
                  (by
                    intro y hy
                    simp at hy
                    subst hy
                    omega)
                by_cases hfill : incR = true ∧ r0.1 < l0.1 ∧ aU < l0.1
                · by_cases hf0 : max aU r0.1 = 0
                  · have hz : addPixelsUntilF flog2 fuel (max aU r0.1) l0.1 r0 false
                        = none := by
                      rw [hf0]
                      exact addPixelsUntilF_zero_from flog2 fuel l0.1 r0 false (by omega)
                    have hres : performAlignTreesF flog2 fuel (l0 :: ls) (r0 :: rs) incL incR aU
                        = none := by
                      simp [performAlignTreesF, hg1, hg2, hg3, hg4, hfill, hz]
                    rw [hres]
                    simp
                  · have hf1 : 1 ≤ max aU r0.1 := by omega
                    have hfl : max aU r0.1 < l0.1 := by omega
                    have hspec := addPixelsUntilF_cov hf fuel (max aU r0.1) l0.1 r0 false hr0
                      (le_trans hr0B hB) hf1 (le_max_right _ _) (le_of_lt hfl)
                      (le_of_lt hov1)
                    cases hgap : addPixelsUntilF flog2 fuel (max aU r0.1) l0.1 r0 false with
                    | none =>
                      have hres : performAlignTreesF flog2 fuel (l0 :: ls) (r0 :: rs)
                          incL incR aU = none := by
                        simp [performAlignTreesF, hg1, hg2, hg3, hg4, hfill, hgap]
                      rw [hres]
                      simp
                    | some g =>
                      rw [hgap] at hspec
                      simp only [Option.elim_some] at hspec
                      obtain ⟨e, hE1, hE2, hc4c⟩ := hspec
                      have hres : performAlignTreesF flog2 fuel (l0 :: ls) (r0 :: rs)
                          incL incR aU =
                          Option.map
                            (fun rest => g ++ (⟨some l0, some r0, l0⟩ : MapRow) :: rest)
                            (performAlignTreesF flog2 fuel ls (r0 :: rs) incL incR l0.2) := by
                        simp [performAlignTreesF, hg1, hg2, hg3, hg4, hfill, hgap]
                      cases hrec : performAlignTreesF flog2 fuel ls (r0 :: rs) incL incR
                          l0.2 with
                      | none =>
                        rw [hres, hrec]
                        simp
                      | some rest =>
                        rw [hrec] at ihc
                        rw [hres, hrec]
                        simp only [Option.map_some', Option.elim_some] at ihc ⊢
                        have ih3 := ihc
                        rw [List.map_append, List.map_cons, cov_append, cov_cons, hc4c, ih3]
                        ext x
                        simp only [Set.mem_union, Set.mem_Ico, Set.mem_inter_iff, Set.mem_Ici,
                          mem_SU, mem_cov_cons]
                        constructor
                        · rintro (hx | hx | ⟨hSU, hx2⟩)
                          · exact ⟨Or.inr ⟨hfill.1, Or.inl ⟨by omega, by omega⟩⟩, by omega⟩
                          · rcases hInc with hL | hR
                            · exact ⟨Or.inl ⟨hL, Or.inl hx⟩, by omega⟩
                            · exact ⟨Or.inr ⟨hR, Or.inl ⟨by omega, by omega⟩⟩, by omega⟩
                          · rcases hSU with ⟨hL, hx3⟩ | ⟨hR, hx3⟩
                            · exact ⟨Or.inl ⟨hL, Or.inr hx3⟩, by omega⟩
                            · exact ⟨Or.inr ⟨hR, hx3⟩, by omega⟩
                        · rintro ⟨hSU, hax⟩
                          rcases hSU with ⟨hL, hx3⟩ | ⟨hR, hx3⟩
                          · rcases hx3 with hx3 | hx3
                            · exact Or.inr (Or.inl hx3)
                            · have hge : l0.2 ≤ x := hlscov hx3
                              exact Or.inr (Or.inr ⟨Or.inl ⟨hL, hx3⟩, by omega⟩)
                          · rcases hx3 with hx3 | hx3
                            · rcases Nat.lt_or_ge x l0.1 with hlt | hge2
                              · exact Or.inl ⟨by omega, by omega⟩
                              · rcases Nat.lt_or_ge x l0.2 with hlt2 | hge3
                                · exact Or.inr (Or.inl ⟨hge2, hlt2⟩)
                                · exact Or.inr (Or.inr ⟨Or.inr ⟨hR, Or.inl hx3⟩, hge3⟩)
                            · have hge : r0.2 ≤ x := hrscov hx3
                              exact Or.inr (Or.inr ⟨Or.inr ⟨hR, Or.inr hx3⟩, by omega⟩)
                · -- no gap to fill before the left pix
                  have hnofill : incR = true → r0.1 < l0.1 → l0.1 ≤ aU := by
                    intro h1 h2
                    by_contra h3
                    push_neg at h3
                    exact hfill ⟨h1, h2, h3⟩
                  have hres : performAlignTreesF flog2 fuel (l0 :: ls) (r0 :: rs) incL incR aU =
                      Option.map (fun rest => (⟨some l0, some r0, l0⟩ : MapRow) :: rest)
                        (performAlignTreesF flog2 fuel ls (r0 :: rs) incL incR l0.2) := by
                    simp [performAlignTreesF, hg1, hg2, hg3, hg4, hfill]
                  cases hrec : performAlignTreesF flog2 fuel ls (r0 :: rs) incL incR l0.2 with
                  | none =>
                    rw [hres, hrec]
                    simp
                  | some rest =>
                    rw [hrec] at ihc
                    rw [hres, hrec]
                    simp only [Option.map_some', Option.elim_some] at ihc ⊢
                    have ih3 := ihc
                    rw [List.map_cons, cov_cons, ih3]
                    ext x
                    simp only [Set.mem_union, Set.mem_Ico, Set.mem_inter_iff, Set.mem_Ici,
                      mem_SU, mem_cov_cons]
                    constructor
                    · rintro (hx | ⟨hSU, hx2⟩)
                      · rcases hInc with hL | hR
                        · exact ⟨Or.inl ⟨hL, Or.inl hx⟩, by omega⟩
                        · exact ⟨Or.inr ⟨hR, Or.inl ⟨by omega, by omega⟩⟩, by omega⟩
                      · rcases hSU with ⟨hL, hx3⟩ | ⟨hR, hx3⟩
                        · exact ⟨Or.inl ⟨hL, Or.inr hx3⟩, by omega⟩
                        · exact ⟨Or.inr ⟨hR, hx3⟩, by omega⟩
                    · rintro ⟨hSU, hax⟩
                      rcases hSU with ⟨hL, hx3⟩ | ⟨hR, hx3⟩
                      · rcases hx3 with hx3 | hx3
                        · exact Or.inl hx3
                        · have hge : l0.2 ≤ x := hlscov hx3
                          exact Or.inr ⟨Or.inl ⟨hL, hx3⟩, by omega⟩
                      · rcases hx3 with hx3 | hx3
                        · have hxl : l0.1 ≤ x := by
                            rcases Nat.lt_or_ge r0.1 l0.1 with h4 | h4
                            · have h5 := hnofill hR h4
                              omega
                            · omega
                          rcases Nat.lt_or_ge x l0.2 with hlt2 | hge3
                          · exact Or.inl ⟨hxl, hlt2⟩
                          · exact Or.inr ⟨Or.inr ⟨hR, Or.inl hx3⟩, hge3⟩
                        · have hge : r0.2 ≤ x := hrscov hx3
                          exact Or.inr ⟨Or.inr ⟨hR, Or.inr hx3⟩, by omega⟩
              · -- overlapping and right smaller so add right and move right on
                have hg5 : r0.2 - r0.1 < l0.2 - l0.1 := by omega
                have hsub := p4_subset_of_overlap hr0 hl0 (le_of_lt hg5) hov2 hov1
                have hsub1 : l0.1 ≤ r0.1 := hsub.1
                have hsub2 : r0.2 ≤ l0.2 := hsub.2
                have haUr : aU ≤ r0.1 := by omega
                have ihc := ih (l0 :: ls) rs hlen1 incL incR r0.2 hWl hWrs hInc
                  (by
                    intro x hx y hy
                    have hm := List.mem_of_mem_head? hy
                    have h1 := hrsge y hm
                    exact le_trans h1 (le_max_right _ _))
                  (by
                    intro x hx
                    simp at hx
                    subst hx
                    omega)
                  (hrsB3 r0.2 (le_refl _))
                by_cases hfill : incL = true ∧ l0.1 < r0.1 ∧ aU < r0.1
                · by_cases hf0 : max aU l0.1 = 0
                  · have hz : addPixelsUntilF flog2 fuel (max aU l0.1) r0.1 l0 true
                        = none := by
                      rw [hf0]
                      exact addPixelsUntilF_zero_from flog2 fuel r0.1 l0 true (by omega)
                    have hres : performAlignTreesF flog2 fuel (l0 :: ls) (r0 :: rs) incL incR aU
                        = none := by
                      simp [performAlignTreesF, hg1, hg2, hg3, hg4, hfill, hz]
                    rw [hres]
                    simp
                  · have hf1 : 1 ≤ max aU l0.1 := by omega
                    have hfl : max aU l0.1 < r0.1 := by omega
                    have hspec := addPixelsUntilF_cov hf fuel (max aU l0.1) r0.1 l0 true hl0
                      (le_trans hl0B hB) hf1 (le_max_right _ _) (le_of_lt hfl)
                      (le_of_lt hov2)
                    cases hgap : addPixelsUntilF flog2 fuel (max aU l0.1) r0.1 l0 true with
                    | none =>
                      have hres : performAlignTreesF flog2 fuel (l0 :: ls) (r0 :: rs)
                          incL incR aU = none := by
                        simp [performAlignTreesF, hg1, hg2, hg3, hg4, hfill, hgap]
                      rw [hres]
                      simp
                    | some g =>
                      rw [hgap] at hspec
                      simp only [Option.elim_some] at hspec
                      obtain ⟨e, hE1, hE2, hc4c⟩ := hspec
                      have hres : performAlignTreesF flog2 fuel (l0 :: ls) (r0 :: rs)
                          incL incR aU =
                          Option.map
                            (fun rest => g ++ (⟨some l0, some r0, r0⟩ : MapRow) :: rest)
                            (performAlignTreesF flog2 fuel (l0 :: ls) rs incL incR r0.2) := by
                        simp [performAlignTreesF, hg1, hg2, hg3, hg4, hfill, hgap]
                      cases hrec : performAlignTreesF flog2 fuel (l0 :: ls) rs incL incR
                          r0.2 with
                      | none =>
                        rw [hres, hrec]
                        simp
                      | some rest =>
                        rw [hrec] at ihc
                        rw [hres, hrec]
                        simp only [Option.map_some', Option.elim_some] at ihc ⊢
                        have ih3 := ihc
                        rw [List.map_append, List.map_cons, cov_append, cov_cons, hc4c, ih3]
                        ext x
                        simp only [Set.mem_union, Set.mem_Ico, Set.mem_inter_iff, Set.mem_Ici,
                          mem_SU, mem_cov_cons]
                        constructor
                        · rintro (hx | hx | ⟨hSU, hx2⟩)
                          · exact ⟨Or.inl ⟨hfill.1, Or.inl ⟨by omega, by omega⟩⟩, by omega⟩
                          · rcases hInc with hL | hR
                            · exact ⟨Or.inl ⟨hL, Or.inl ⟨by omega, by omega⟩⟩, by omega⟩
                            · exact ⟨Or.inr ⟨hR, Or.inl hx⟩, by omega⟩
                          · rcases hSU with ⟨hL, hx3⟩ | ⟨hR, hx3⟩
                            · exact ⟨Or.inl ⟨hL, hx3⟩, by omega⟩
                            · exact ⟨Or.inr ⟨hR, Or.inr hx3⟩, by omega⟩
                        · rintro ⟨hSU, hax⟩
                          rcases hSU with ⟨hL, hx3⟩ | ⟨hR, hx3⟩
                          · rcases hx3 with hx3 | hx3
                            · rcases Nat.lt_or_ge x r0.1 with hlt | hge2
                              · exact Or.inl ⟨by omega, by omega⟩
                              · rcases Nat.lt_or_ge x r0.2 with hlt2 | hge3
                                · exact Or.inr (Or.inl ⟨hge2, hlt2⟩)
                                · exact Or.inr (Or.inr ⟨Or.inl ⟨hL, Or.inl hx3⟩, hge3⟩)
                            · have hge : l0.2 ≤ x := hlscov hx3
                              exact Or.inr (Or.inr ⟨Or.inl ⟨hL, Or.inr hx3⟩, by omega⟩)
                          · rcases hx3 with hx3 | hx3
                            · exact Or.inr (Or.inl hx3)
                            · have hge : r0.2 ≤ x := hrscov hx3
                              exact Or.inr (Or.inr ⟨Or.inr ⟨hR, hx3⟩, by omega⟩)
                · -- no gap to fill before the right pix
                  have hnofill : incL = true → l0.1 < r0.1 → r0.1 ≤ aU := by
                    intro h1 h2
                    by_contra h3
                    push_neg at h3
                    exact hfill ⟨h1, h2, h3⟩
                  have hres : performAlignTreesF flog2 fuel (l0 :: ls) (r0 :: rs) incL incR aU =
                      Option.map (fun rest => (⟨some l0, some r0, r0⟩ : MapRow) :: rest)
                        (performAlignTreesF flog2 fuel (l0 :: ls) rs incL incR r0.2) := by
                    simp [performAlignTreesF, hg1, hg2, hg3, hg4, hfill]
                  cases hrec : performAlignTreesF flog2 fuel (l0 :: ls) rs incL incR r0.2 with
                  | none =>
                    rw [hres, hrec]
                    simp
                  | some rest =>
                    rw [hrec] at ihc
                    rw [hres, hrec]
                    simp only [Option.map_some', Option.elim_some] at ihc ⊢
                    have ih3 := ihc
                    rw [List.map_cons, cov_cons, ih3]
                    ext x
                    simp only [Set.mem_union, Set.mem_Ico, Set.mem_inter_iff, Set.mem_Ici,
                      mem_SU, mem_cov_cons]
                    constructor
                    · rintro (hx | ⟨hSU, hx2⟩)
                      · rcases hInc with hL | hR
                        · exact ⟨Or.inl ⟨hL, Or.inl ⟨by omega, by omega⟩⟩, by omega⟩
                        · exact ⟨Or.inr ⟨hR, Or.inl hx⟩, by omega⟩
                      · rcases hSU with ⟨hL, hx3⟩ | ⟨hR, hx3⟩
                        · exact ⟨Or.inl ⟨hL, hx3⟩, by omega⟩
                        · exact ⟨Or.inr ⟨hR, Or.inr hx3⟩, by omega⟩
                    · rintro ⟨hSU, hax⟩
                      rcases hSU with ⟨hL, hx3⟩ | ⟨hR, hx3⟩
                      · rcases hx3 with hx3 | hx3
                        · have hxr : r0.1 ≤ x := by
                            rcases Nat.lt_or_ge l0.1 r0.1 with h4 | h4
                            · have h5 := hnofill hL h4
                              omega
                            · omega
                          rcases Nat.lt_or_ge x r0.2 with hlt2 | hge3
                          · exact Or.inl ⟨hxr, hlt2⟩
                          · exact Or.inr ⟨Or.inl ⟨hL, Or.inl hx3⟩, hge3⟩
                        · have hge : l0.2 ≤ x := hlscov hx3
                          exact Or.inr ⟨Or.inl ⟨hL, Or.inr hx3⟩, by omega⟩
                      · rcases hx3 with hx3 | hx3
                        · exact Or.inl hx3
                        · have hge : r0.2 ≤ x := hrscov hx3
                          exact Or.inr ⟨Or.inr ⟨hR, hx3⟩, by omega⟩

theorem addPixelsUntilF_step_right (flog2 : ℕ → ℕ) {fuel a b : ℕ} (mp : Iv) (h : a < b) :
    addPixelsUntilF flog2 (fuel + 1) a b mp false =
      Option.map
        (fun rest => (⟨none, some mp, (a, a + pixelSizeF flog2 a b)⟩ : MapRow) :: rest)
        (addPixelsUntilF flog2 fuel (a + pixelSizeF flog2 a b) b mp false) := by
  simp [addPixelsUntilF, h]

theorem addPixelsUntilF_stop (flog2 : ℕ → ℕ) {fuel a b : ℕ} (mp : Iv) (side : Bool)
    (h : ¬ a < b) : addPixelsUntilF flog2 fuel a b mp side = some [] := by
  cases fuel <;> simp [addPixelsUntilF, h]

theorem fLog2OK_log2 : FLog2OK Nat.log2 := by
  intro rem h
  have h1 : 2 ^ Nat.log2 rem ≤ rem := Nat.log2_self_le (by omega)
  omega

theorem performAlignTreesF_cov' {flog2 : ℕ → ℕ} (hf : FLog2OK flog2) (fuel : ℕ) {B : ℕ}
    (hB : B ≤ 2 ^ 62) (l r : List Iv) (incL incR : Bool) (hWl : WFIvs B l)
    (hWr : WFIvs B r) (hInc : incL = true ∨ incR = true) :
    (performAlignTreesF flog2 fuel l r incL incR 0).elim True fun rows =>
      cov (rows.map fun row => row.apix) = SU incL incR l r := by
  have h := performAlignTreesF_cov hf fuel hB (l.length + r.length) l r (le_refl _)
    incL incR 0 hWl hWr hInc (fun x _ y _ => Nat.zero_le _) (fun x _ => Nat.zero_le _)
    (fun y _ => Nat.zero_le _)
  cases hrec : performAlignTreesF flog2 fuel l r incL incR 0 with
  | none => simp
  | some rows =>
    rw [hrec] at h
    simp only [Option.elim_some] at h ⊢
    rw [h, inter_Ici_zero]

theorem alignTreesF_noninner_eq (flog2 : ℕ → ℕ) (fuel : ℕ) (L R : PixelTree)
    (mode : PixelAlignmentType) (hmode : mode ≠ PixelAlignmentType.inner) :
    alignTreesF flog2 fuel L R mode =
      Option.map (fun mapping => (mapping.map fun row => row.apix, mapping))
        (performAlignTreesF flog2 fuel
          (shiftTree L.tree (max L.treeOrder R.treeOrder - L.treeOrder))
          (shiftTree R.tree (max L.treeOrder R.treeOrder - R.treeOrder))
          (decide (mode = PixelAlignmentType.left ∨ mode = PixelAlignmentType.outer))
          (decide (mode = PixelAlignmentType.right ∨ mode = PixelAlignmentType.outer)) 0) := by
  simp [alignTreesF, hmode]

theorem alignTreesF_noninner_cov {flog2 : ℕ → ℕ} (hf : FLog2OK flog2) (fuel : ℕ)
    (L R : PixelTree) (mode : PixelAlignmentType)
    (hmode : mode ≠ PixelAlignmentType.inner) (hL : WellFormedTree L)
    (hR : WellFormedTree R) :
    (alignTreesF flog2 fuel L R mode).elim True fun res =>
      cov res.1 =
        SU (decide (mode = PixelAlignmentType.left ∨ mode = PixelAlignmentType.outer))
          (decide (mode = PixelAlignmentType.right ∨ mode = PixelAlignmentType.outer))
          (shiftTree L.tree (max L.treeOrder R.treeOrder - L.treeOrder))
          (shiftTree R.tree (max L.treeOrder R.treeOrder - R.treeOrder)) := by
  have hInc : decide (mode = PixelAlignmentType.left ∨ mode = PixelAlignmentType.outer) = true ∨
      decide (mode = PixelAlignmentType.right ∨ mode = PixelAlignmentType.outer) = true := by
    cases mode with
    | inner => exact absurd rfl hmode
    | left => exact Or.inl (by decide)
    | right => exact Or.inr (by decide)
    | outer => exact Or.inl (by decide)
  have h := performAlignTreesF_cov' hf fuel (npix_le (max_le hL.1 hR.1))
    (shiftTree L.tree (max L.treeOrder R.treeOrder - L.treeOrder))
    (shiftTree R.tree (max L.treeOrder R.treeOrder - R.treeOrder))
    (decide (mode = PixelAlignmentType.left ∨ mode = PixelAlignmentType.outer))
    (decide (mode = PixelAlignmentType.right ∨ mode = PixelAlignmentType.outer))
    (shiftTree_WF_max_left L R hL) (shiftTree_WF_max_right L R hR) hInc
  rw [alignTreesF_noninner_eq flog2 fuel L R mode hmode]
  cases hrec : performAlignTreesF flog2 fuel
      (shiftTree L.tree (max L.treeOrder R.treeOrder - L.treeOrder))
      (shiftTree R.tree (max L.treeOrder R.treeOrder - R.treeOrder))
      (decide (mode = PixelAlignmentType.left ∨ mode = PixelAlignmentType.outer))
      (decide (mode = PixelAlignmentType.right ∨ mode = PixelAlignmentType.outer)) 0 with
  | none => simp
  | some rows =>
    rw [hrec] at h
    simp only [Option.elim_some, Option.map_some'] at h ⊢
    exact h

/-- The concrete run of the gap decomposer behind the float-logarithm
overshoot: with `l = np.int64(np.log2(2 ^ 52 - 1)) = 52` (the ceiling — the
true logarithm is strictly below 52), `_add_pixels_until(2 ^ 52, 2 ^ 53 - 1)`
computes `max_p4_to = 1 << 52`, `max_p4_from = 2 ^ 52`, hence
`pixel_size = 2 ^ 52`, and emits the single interval `[2 ^ 52, 2 ^ 53)`
before the loop exits with `add_from = 2 ^ 53 ≥ add_to`. -/
theorem addPixelsUntilF_gap_2_52 (flog2 : ℕ → ℕ) (h52 : flog2 (2 ^ 52 - 1) = 52) :
    addPixelsUntilF flog2 2 (2 ^ 52) (2 ^ 53 - 1) (2 ^ 52, 2 ^ 53) false =
      some [⟨none, some (2 ^ 52, 2 ^ 53), (2 ^ 52, 2 ^ 53)⟩] := by
  have hps : pixelSizeF flog2 (2 ^ 52) (2 ^ 53 - 1) = 2 ^ 52 := by
    have e : (2 ^ 53 - 1 : ℕ) - 2 ^ 52 = 2 ^ 52 - 1 := by norm_num
    have hT : maxP4ToOfF flog2 (2 ^ 52 - 1) = 2 ^ 52 := by
      rw [maxP4ToOfF_def, h52]
    have hF : maxP4FromOf (2 ^ 52) = 2 ^ 52 := by
      have h := @maxP4FromOf_spec 52 1 (by norm_num) (by norm_num)
      rw [mul_one] at h
      rw [h]
      norm_num
    rw [pixelSizeF_def, e, hT, hF, min_self]
  have hlt : (2:ℕ) ^ 52 < 2 ^ 53 - 1 := by norm_num
  have h := @addPixelsUntilF_step_right flog2 1 (2 ^ 52) (2 ^ 53 - 1) (2 ^ 52, 2 ^ 53) hlt
  rw [hps] at h
  have e2 : (2:ℕ) ^ 52 + 2 ^ 52 = 2 ^ 53 := by norm_num
  rw [e2] at h
  rw [@addPixelsUntilF_stop flog2 1 (2 ^ 53) (2 ^ 53 - 1) (2 ^ 52, 2 ^ 53) false
    (by norm_num)] at h
  simpa using h

/-- C5: for every pair of well-formed trees, whenever `align_trees` returns,
the OUTER-mode aligned tree covers exactly the union of the two trees'
index sets after both are shifted to the common order
`max(left.order, right.order)`; LEFT mode covers exactly the left tree's
shifted index set, and RIGHT mode the right tree's.  The theorem holds for
every logarithm `flog2` standing for the source's
`np.int64(np.log2(add_to - add_from))` that satisfies `FLog2OK` — never
reaching past the ceiling of the exact base-2 logarithm — which the
truncated float64 logarithm does whether it rounds down or (as for
`rem` just below `2 ^ k`, `k ≥ 49`) up to the ceiling. -/
theorem alignTreesF_coverage (flog2 : ℕ → ℕ) (hf : FLog2OK flog2) (fuel : ℕ)
    (L R : PixelTree) (hL : WellFormedTree L) (hR : WellFormedTree R) :
    ((alignTreesF flog2 fuel L R PixelAlignmentType.outer).elim True fun res =>
        cov res.1 =
          cov (shiftTree L.tree (max L.treeOrder R.treeOrder - L.treeOrder)) ∪
            cov (shiftTree R.tree (max L.treeOrder R.treeOrder - R.treeOrder))) ∧
    ((alignTreesF flog2 fuel L R PixelAlignmentType.left).elim True fun res =>
        cov res.1 = cov (shiftTree L.tree (max L.treeOrder R.treeOrder - L.treeOrder))) ∧
    ((alignTreesF flog2 fuel L R PixelAlignmentType.right).elim True fun res =>
        cov res.1 = cov (shiftTree R.tree (max L.treeOrder R.treeOrder - R.treeOrder))) := by
  refine ⟨?_, ?_, ?_⟩
  · have h := alignTreesF_noninner_cov hf fuel L R PixelAlignmentType.outer (by decide) hL hR
    cases hrec : alignTreesF flog2 fuel L R PixelAlignmentType.outer with
    | none => simp
    | some res =>
      rw [hrec] at h
      simp only [Option.elim_some] at h ⊢
      rw [h]
      ext x
      simp [SU]
  · have h := alignTreesF_noninner_cov hf fuel L R PixelAlignmentType.left (by decide) hL hR
    cases hrec : alignTreesF flog2 fuel L R PixelAlignmentType.left with
    | none => simp
    | some res =>
      rw [hrec] at h
      simp only [Option.elim_some] at h ⊢
      rw [h]
      ext x
      simp [SU]
  · have h := alignTreesF_noninner_cov hf fuel L R PixelAlignmentType.right (by decide) hL hR
    cases hrec : alignTreesF flog2 fuel L R PixelAlignmentType.right with
    | none => simp
    | some res =>
      rw [hrec] at h
      simp only [Option.elim_some] at h ⊢
      rw [h]
      ext x
      simp [SU]

theorem alignTreesF_coverage_witness :
    FLog2OK Nat.log2 ∧ WellFormedTree (⟨[(0, 4)], 0⟩ : PixelTree) ∧
      (((alignTreesF Nat.log2 1 ⟨[(0, 4)], 0⟩ ⟨[(0, 4)], 0⟩ PixelAlignmentType.outer).elim
          True fun res =>
            cov res.1 =
              cov (shiftTree [(0, 4)] (max 0 0 - 0)) ∪
                cov (shiftTree [(0, 4)] (max 0 0 - 0))) ∧
        ((alignTreesF Nat.log2 1 ⟨[(0, 4)], 0⟩ ⟨[(0, 4)], 0⟩ PixelAlignmentType.left).elim
          True fun res => cov res.1 = cov (shiftTree [(0, 4)] (max 0 0 - 0))) ∧
        ((alignTreesF Nat.log2 1 ⟨[(0, 4)], 0⟩ ⟨[(0, 4)], 0⟩ PixelAlignmentType.right).elim
          True fun res => cov res.1 = cov (shiftTree [(0, 4)] (max 0 0 - 0)))) :=
  ⟨fLog2OK_log2, wellFormedTree_ex,
    alignTreesF_coverage Nat.log2 fLog2OK_log2 1 ⟨[(0, 4)], 0⟩ ⟨[(0, 4)], 0⟩
      wellFormedTree_ex wellFormedTree_ex⟩

/-- C2, second divergence (the float-logarithm ceiling): the maximality,
sorting and exact-union properties are claimed for every `0 ≤ from ≤ to`,
but the logarithm the source takes is `np.int64(np.log2(rem))` in float64
arithmetic, which rounds `log2(2 ^ 52 - 1)` up to exactly `52.0` (the
nearest double to the true value `51.9999999999999996...`), not down to 51.
With `from = 2 ^ 52` and `to = 2 ^ 53 - 1` the decomposer then emits the
single interval `[2 ^ 52, 2 ^ 53)`, which reaches past `to`: the emitted
intervals' union is not `[from, to)` and their lengths sum to `2 ^ 52`, not
`to - from = 2 ^ 52 - 1`.  The theorem is stated for any `flog2` with
`flog2 (2 ^ 52 - 1) = 52`, the value the source's float64 composite takes
there. -/
theorem addPixelsUntilF_overshoot (flog2 : ℕ → ℕ) (h52 : flog2 (2 ^ 52 - 1) = 52) :
    addPixelsUntilF flog2 2 (2 ^ 52) (2 ^ 53 - 1) (2 ^ 52, 2 ^ 53) false =
      some [⟨none, some (2 ^ 52, 2 ^ 53), (2 ^ 52, 2 ^ 53)⟩] ∧
    (2 ^ 53 - 1 : ℕ) < 2 ^ 53 :=
  ⟨addPixelsUntilF_gap_2_52 flog2 h52, by norm_num⟩

theorem addPixelsUntilF_overshoot_witness :
    (fun _ : ℕ => 52) (2 ^ 52 - 1) = 52 ∧
      (addPixelsUntilF (fun _ => 52) 2 (2 ^ 52) (2 ^ 53 - 1) (2 ^ 52, 2 ^ 53) false =
        some [⟨none, some (2 ^ 52, 2 ^ 53), (2 ^ 52, 2 ^ 53)⟩] ∧
      (2 ^ 53 - 1 : ℕ) < 2 ^ 53) :=
  ⟨rfl, addPixelsUntilF_overshoot (fun _ => 52) rfl⟩

/-- The well-formedness of the two trees of the C4 overlap scenario: the
claimed invariants really do fail on well-formed input. -/
theorem alignTreesF_overlapping_input_wf :
    WellFormedTree ⟨[(2 ^ 53 - 1, 2 ^ 53)], 29⟩ ∧ WellFormedTree ⟨[(1, 2)], 3⟩ := by
  constructor
  · refine ⟨by norm_num, by simp, ?_⟩
    intro iv hiv
    simp only [List.mem_singleton] at hiv
    subst hiv
    refine ⟨⟨by norm_num, ?_, by simp⟩, by norm_num [npix]⟩
    have h := isP4_pow 0
    simpa using h
  · refine ⟨by norm_num, by simp, ?_⟩
    intro iv hiv
    simp only [List.mem_singleton] at hiv
    subst hiv
    refine ⟨⟨by norm_num, ?_, by simp⟩, by norm_num [npix]⟩
    have h := isP4_pow 0
    simpa using h

/-- C4: the Pixel Tree invariants are claimed for the aligned tree of every
pair of well-formed trees in every mode, but they fail.  Aligning the left
tree {(order 29, the last pixel `(2 ^ 53 - 1, 2 ^ 53)`)} with the right
tree {(order 3, pixel 1)} in OUTER mode shifts the right pixel to
`(2 ^ 52, 2 ^ 53)` and reaches the gap fill
`_add_pixels_until(2 ^ 52, 2 ^ 53 - 1, ...)`, where the float64 logarithm
of `2 ^ 52 - 1` rounds up to 52 and the fill emits `[2 ^ 52, 2 ^ 53)` —
overshooting the gap and overlapping the subsequently appended aligned
interval `[2 ^ 53 - 1, 2 ^ 53)`.  The aligned tree
`[(2 ^ 52, 2 ^ 53), (2 ^ 53 - 1, 2 ^ 53)]` is neither disjoint nor sorted
(`2 ^ 53 ≤ 2 ^ 53 - 1` fails), refuting the invariants; both inputs are
well formed by `alignTreesF_overlapping_input_wf`. -/
theorem alignTreesF_overlapping (flog2 : ℕ → ℕ) (h52 : flog2 (2 ^ 52 - 1) = 52) :
    alignTreesF flog2 2 ⟨[(2 ^ 53 - 1, 2 ^ 53)], 29⟩ ⟨[(1, 2)], 3⟩ PixelAlignmentType.outer =
      some ([(2 ^ 52, 2 ^ 53), (2 ^ 53 - 1, 2 ^ 53)],
        [⟨none, some (2 ^ 52, 2 ^ 53), (2 ^ 52, 2 ^ 53)⟩,
          ⟨some (2 ^ 53 - 1, 2 ^ 53), some (2 ^ 52, 2 ^ 53), (2 ^ 53 - 1, 2 ^ 53)⟩]) ∧
    ¬ TreeInvariant [(2 ^ 52, 2 ^ 53), (2 ^ 53 - 1, 2 ^ 53)] := by
  constructor
  · have hgap' := addPixelsUntilF_gap_2_52 flog2 h52
    norm_num at hgap'
    simp [alignTreesF, shiftTree, performAlignTreesF, addRemainingPixelsF, verbatimRow,
      Nat.zero_max, hgap']
  · intro hTI
    have h : (2:ℕ) ^ 53 ≤ 2 ^ 53 - 1 := (List.chain'_cons.mp hTI.1).1
    norm_num at h

theorem alignTreesF_overlapping_witness :
    (fun _ : ℕ => 52) (2 ^ 52 - 1) = 52 ∧
      (alignTreesF (fun _ => 52) 2 ⟨[(2 ^ 53 - 1, 2 ^ 53)], 29⟩ ⟨[(1, 2)], 3⟩
          PixelAlignmentType.outer =
        some ([(2 ^ 52, 2 ^ 53), (2 ^ 53 - 1, 2 ^ 53)],
          [⟨none, some (2 ^ 52, 2 ^ 53), (2 ^ 52, 2 ^ 53)⟩,
            ⟨some (2 ^ 53 - 1, 2 ^ 53), some (2 ^ 52, 2 ^ 53), (2 ^ 53 - 1, 2 ^ 53)⟩]) ∧
      ¬ TreeInvariant [(2 ^ 52, 2 ^ 53), (2 ^ 53 - 1, 2 ^ 53)]) :=
  ⟨rfl, alignTreesF_overlapping (fun _ => 52) rfl⟩

end Hats
